import Mathlib

/-!
# grafo.c: graph, vertices, adjacency lists, dot export and the Prim pass

A shallow embedding of `src/grafo.c`.

* Heap objects are stored in a memory `Mem`; a pointer is the index of the
  object in its arena (`Nat`), a nullable pointer is an `Option`.
* `lista_enc_t` (linked list with `add_cauda`, `obter_cabeca`,
  `obtem_proximo`) is a Lean `List`; appending at the tail is `l ++ [x]`.
* A call that ends in `exit(EXIT_FAILURE)` or in undefined behaviour returns
  `Except.error`; every stateful function also returns the memory as it is at
  the return or at the exit.
* `int` values are `Int`; the code only compares them (`==`, `<`), the one
  constant that matters is `INFINITO = INT_MAX`.
* `malloc` is taken to succeed.
-/

namespace Grafo

/-! ## Data model -/

/-- The ways a call can stop without returning. -/
inductive erro_t where
  /-- `grafo == NULL` in a function of grafo.c -/
  | grafo_invalido
  /-- "grafo_adicionar_vertice: vertice duplicado!" -/
  | vertice_duplicado
  /-- "adiciona_adjacentes: sucessor nao encontrado no grafo" -/
  | sucessor_nao_encontrado
  /-- "exportar_grafo_dot: ponteiros invalidos" -/
  | ponteiros_invalidos
  /-- `fopen` returned NULL in exportar_grafo_dot -/
  | arquivo
  /-- an absent edge handed to an edge accessor -/
  | aresta_invalida
  /-- undefined behaviour: dangling pointer, read of an uninitialised
  variable, `va_arg` past the last argument -/
  | indefinido
  deriving DecidableEq, Repr

/-- Modelled from the spec: the export marker of an edge (`status_aresta_t`
of vertice.h, absent); the spec calls it a boolean `exported` flag. -/
inductive status_aresta_t where
  | NAO_EXPORTADA
  | EXPORTADA
  deriving DecidableEq, Repr

/-- Modelled from the spec: `struct arestas` of vertice.c (absent): source
vertex, adjacent vertex, weight and export marker. -/
structure arestas_t where
  fonte : Nat
  dest : Nat
  peso : Int
  status : status_aresta_t
  deriving DecidableEq, Repr

/-- Modelled from the spec: `struct vertices` of vertice.c (absent): identity,
adjacency list in attachment order, visited flag. -/
structure vertice_t where
  id : Int
  arestas : List arestas_t
  visitado : Bool
  deriving DecidableEq, Repr

/-- `struct grafos`: the id and the list of vertex pointers. -/
structure grafo_t where
  id : Int
  vertices : List Nat
  deriving DecidableEq, Repr

/-- The heap: the graphs and the vertices allocated so far. A `grafo_t *` is
an index into `grafos`, a `vertice_t *` an index into `vert`. -/
structure Mem where
  grafos : List grafo_t
  vert : List vertice_t
  deriving DecidableEq, Repr

/-- `#define INFINITO INT_MAX` -/
def INFINITO : Int := 2147483647

/-! ## Collaborators (vertice.c, lista_enc.c, no.c) -/

/-- Modelled from the spec: `cria_vertice` of vertice.c (absent): allocates a
vertex with the given id, an empty adjacency list and not visited. -/
def cria_vertice (id : Int) (m : Mem) : Nat × Mem :=
  (m.vert.length, { m with vert := m.vert ++ [{ id := id, arestas := [], visitado := false }] })

/-- Modelled from the spec: `vertice_get_id` of vertice.c (absent). -/
def vertice_get_id (m : Mem) (vertice : Nat) : Except erro_t Int :=
  match m.vert[vertice]? with
  | none => .error .indefinido
  | some v => .ok v.id

/-- Modelled from the spec: `vertice_get_arestas` of vertice.c (absent). -/
def vertice_get_arestas (m : Mem) (vertice : Nat) : Except erro_t (List arestas_t) :=
  match m.vert[vertice]? with
  | none => .error .indefinido
  | some v => .ok v.arestas

/-- Modelled from the spec: `cria_aresta` of vertice.c (absent): a new
Edge(source, target, weight), not exported. -/
def cria_aresta (fonte dest : Nat) (peso : Int) : arestas_t :=
  { fonte := fonte, dest := dest, peso := peso, status := .NAO_EXPORTADA }

/-- Modelled from the spec: `adiciona_aresta` of vertice.c (absent): appends
the edge at the tail of the vertex's adjacency list. -/
def adiciona_aresta (vertice : Nat) (aresta : arestas_t) (m : Mem) : Except erro_t Unit × Mem :=
  match m.vert[vertice]? with
  | none => (.error .indefinido, m)
  | some v => (.ok (), { m with vert := m.vert.set vertice { v with arestas := v.arestas ++ [aresta] } })

/-- `add_cauda(grafo->vertices, no)`: the node of `vertice` goes to the tail of
the vertex list of graph `grafo`. -/
def add_cauda_vertices (grafo : Nat) (vertice : Nat) (m : Mem) : Mem :=
  match m.grafos[grafo]? with
  | none => m
  | some g => { m with grafos := m.grafos.set grafo { g with vertices := g.vertices ++ [vertice] } }

/-! ## grafo.c -/

/-- `cria_grafo`: a new graph with the given id and an empty vertex list. -/
def cria_grafo (id : Int) (m : Mem) : Nat × Mem :=
  (m.grafos.length, { m with grafos := m.grafos ++ [{ id := id, vertices := [] }] })

/-- The `while (no_lista)` loop of `procura_vertice`. -/
def procura_vertice_laco (m : Mem) (id : Int) : List Nat → Except erro_t (Option Nat)
  | [] => .ok none
  | vertice :: resto =>
    match vertice_get_id m vertice with
    | .error e => .error e
    | .ok meu_id => if meu_id = id then .ok (some vertice) else procura_vertice_laco m id resto

/-- `procura_vertice`: `none` is the NULL result. -/
def procura_vertice (grafo : Option Nat) (id : Int) (m : Mem) : Except erro_t (Option Nat) :=
  match grafo with
  | none => .error .grafo_invalido
  | some gp =>
    match m.grafos[gp]? with
    | none => .error .indefinido
    | some g =>
      if g.vertices.isEmpty then .ok none
      else procura_vertice_laco m id g.vertices

/-- `grafo_adicionar_vertice`: returns the pointer of the new vertex. -/
def grafo_adicionar_vertice (grafo : Option Nat) (id : Int) (m : Mem) : Except erro_t Nat × Mem :=
  match grafo with
  | none => (.error .grafo_invalido, m)
  | some gp =>
    match procura_vertice (some gp) id m with
    | .error e => (.error e, m)
    | .ok (some _) => (.error .vertice_duplicado, m)
    | .ok none =>
      let (vertice, m1) := cria_vertice id m
      (.ok vertice, add_cauda_vertices gp vertice m1)

/-- The `for (x = 0; x < n; x = x+2)` loop of `adiciona_adjacentes`; `args` are
the variadic arguments not yet consumed by `va_arg`. -/
def adiciona_adjacentes_laco (grafo : Option Nat) (vertice : Nat) (n : Int) :
    List Int → Int → Mem → Except erro_t Unit × Mem
  | id_sucessor :: peso :: resto, x, m =>
    if x < n then
      match procura_vertice grafo id_sucessor m with
      | .error e => (.error e, m)
      | .ok none => (.error .sucessor_nao_encontrado, m)
      | .ok (some sucessor) =>
        match adiciona_aresta vertice (cria_aresta vertice sucessor peso) m with
        | (.error e, m1) => (.error e, m1)
        | (.ok _, m1) => adiciona_adjacentes_laco grafo vertice n resto (x + 2) m1
    else (.ok (), m)
  | _, x, m => if x < n then (.error .indefinido, m) else (.ok (), m)

/-- `adiciona_adjacentes(grafo, vertice, n, ...)`. -/
def adiciona_adjacentes (grafo : Option Nat) (vertice : Nat) (n : Int) (args : List Int)
    (m : Mem) : Except erro_t Unit × Mem :=
  adiciona_adjacentes_laco grafo vertice n args 0 m

/-- The variadic arguments that pass a list of (target id, weight) pairs. -/
def args_de_pares : List (Int × Int) → List Int
  | [] => []
  | (id_sucessor, peso) :: resto => id_sucessor :: peso :: args_de_pares resto

/-! ### Edge accessors used by the export and by the Prim pass

An `arestas_t *` is the pair (owning vertex, position in its adjacency list);
the nullable pointer returned by `procurar_adjacente` is an `Option`. -/

/-- The edge a pointer refers to, if the pointer is valid. -/
def obter_aresta (m : Mem) (aresta : Nat × Nat) : Option arestas_t :=
  match m.vert[aresta.1]? with
  | none => none
  | some v => v.arestas[aresta.2]?

/-- Modelled from the spec: `aresta_get_status` of vertice.c (absent). -/
def aresta_get_status (m : Mem) (aresta : Nat × Nat) : Except erro_t status_aresta_t :=
  match obter_aresta m aresta with
  | none => .error .indefinido
  | some a => .ok a.status

/-- Modelled from the spec: `aresta_get_adjacente` of vertice.c (absent): the
target of the edge. -/
def aresta_get_adjacente (m : Mem) (aresta : Nat × Nat) : Except erro_t Nat :=
  match obter_aresta m aresta with
  | none => .error .indefinido
  | some a => .ok a.dest

/-- Modelled from the spec: `aresta_get_peso` of vertice.c (absent): the weight
of the edge; an absent edge is an invalid argument. -/
def aresta_get_peso (m : Mem) (aresta : Option (Nat × Nat)) : Except erro_t Int :=
  match aresta with
  | none => .error .aresta_invalida
  | some p =>
    match obter_aresta m p with
    | none => .error .indefinido
    | some a => .ok a.peso

/-- Modelled from the spec: `aresta_set_status` of vertice.c (absent): marks the
edge; when the reciprocal lookup found nothing the marking is a silent no-op
(spec 4.2). -/
def aresta_set_status (aresta : Option (Nat × Nat)) (status : status_aresta_t) (m : Mem) :
    Except erro_t Unit × Mem :=
  match aresta with
  | none => (.ok (), m)
  | some (vertice, k) =>
    match m.vert[vertice]? with
    | none => (.error .indefinido, m)
    | some v =>
      match v.arestas[k]? with
      | none => (.error .indefinido, m)
      | some a =>
        let a1 : arestas_t := { a with status := status }
        let v1 : vertice_t := { v with arestas := v.arestas.set k a1 }
        (.ok (), { m with vert := m.vert.set vertice v1 })

/-- Position of the first edge of the list whose target is `adjacente`. -/
def procurar_adjacente_laco (adjacente : Nat) : List arestas_t → Nat → Option Nat
  | [], _ => none
  | a :: resto, k => if a.dest = adjacente then some k else procurar_adjacente_laco adjacente resto (k + 1)

/-- Modelled from the spec: `procurar_adjacente(vertice, adjacente)` of
vertice.c (absent): scans the adjacency list of `vertice` for the first edge
whose target is `adjacente`; NULL when there is none. -/
def procurar_adjacente (m : Mem) (vertice adjacente : Nat) : Except erro_t (Option (Nat × Nat)) :=
  match m.vert[vertice]? with
  | none => .error .indefinido
  | some v =>
    match procurar_adjacente_laco adjacente v.arestas 0 with
    | none => .ok none
    | some k => .ok (some (vertice, k))

/-- Modelled from the spec: `vertice_visitado` of vertice.c (absent). -/
def vertice_visitado (m : Mem) (vertice : Nat) : Except erro_t Bool :=
  match m.vert[vertice]? with
  | none => .error .indefinido
  | some v => .ok v.visitado

/-- Modelled from the spec: `vertice_set_visited` of vertice.c (absent). -/
def vertice_set_visited (vertice : Nat) (m : Mem) : Except erro_t Unit × Mem :=
  match m.vert[vertice]? with
  | none => (.error .indefinido, m)
  | some v => (.ok (), { m with vert := m.vert.set vertice { v with visitado := true } })

/-! ### exportar_grafo_dot -/

/-- One line of the file written by `exportar_grafo_dot`. -/
inductive linha_dot where
  /-- "graph {\n" -/
  | abre
  /-- "\t%d -- %d [label = %d];\n" -/
  | aresta (u v peso : Int)
  /-- "}\n" -/
  | fecha
  deriving DecidableEq, Repr

/-- Body of the `while (no_arest)` loop of `exportar_grafo_dot` for the node at
position `k` of the adjacency list of `vertice`. -/
def exportar_no_arest (vertice k : Nat) (m : Mem) (file : List linha_dot) :
    Except erro_t (List linha_dot) × Mem :=
  match aresta_get_status m (vertice, k) with
  | .error e => (.error e, m)
  | .ok .EXPORTADA => (.ok file, m)
  | .ok .NAO_EXPORTADA =>
    match aresta_set_status (some (vertice, k)) .EXPORTADA m with
    | (.error e, m1) => (.error e, m1)
    | (.ok _, m1) =>
      match aresta_get_adjacente m1 (vertice, k) with
      | .error e => (.error e, m1)
      | .ok adjacente =>
        match procurar_adjacente m1 adjacente vertice with
        | .error e => (.error e, m1)
        | .ok contra_aresta =>
          match aresta_set_status contra_aresta .EXPORTADA m1 with
          | (.error e, m2) => (.error e, m2)
          | (.ok _, m2) =>
            match aresta_get_peso m2 (some (vertice, k)) with
            | .error e => (.error e, m2)
            | .ok peso =>
              match vertice_get_id m2 vertice with
              | .error e => (.error e, m2)
              | .ok id_vertice =>
                match vertice_get_id m2 adjacente with
                | .error e => (.error e, m2)
                | .ok id_adjacente =>
                  (.ok (file ++ [.aresta id_vertice id_adjacente peso]), m2)

/-- The `while (no_arest)` loop of `exportar_grafo_dot` over the nodes of the
adjacency list of `vertice`, given by position. The loop writes only status
fields, so the nodes are those the list has when the loop starts. -/
def exportar_arestas_laco (vertice : Nat) :
    List Nat → Mem → List linha_dot → Except erro_t (List linha_dot) × Mem
  | [], m, file => (.ok file, m)
  | k :: resto, m, file =>
    match exportar_no_arest vertice k m file with
    | (.error e, m1) => (.error e, m1)
    | (.ok file1, m1) => exportar_arestas_laco vertice resto m1 file1

/-- The `while (no_vert)` loop of `exportar_grafo_dot`. -/
def exportar_vertices_laco :
    List Nat → Mem → List linha_dot → Except erro_t (List linha_dot) × Mem
  | [], m, file => (.ok file, m)
  | vertice :: resto, m, file =>
    match vertice_get_arestas m vertice with
    | .error e => (.error e, m)
    | .ok lista_arestas =>
      match exportar_arestas_laco vertice (List.range lista_arestas.length) m file with
      | (.error e, m1) => (.error e, m1)
      | (.ok file1, m1) => exportar_vertices_laco resto m1 file1

/-- `exportar_grafo_dot(filename, grafo)`; `fopen_ok` says whether `fopen`
succeeds. The result is the content of the file. -/
def exportar_grafo_dot (filename : Option String) (grafo : Option Nat) (fopen_ok : Bool)
    (m : Mem) : Except erro_t (List linha_dot) × Mem :=
  match filename, grafo with
  | none, _ => (.error .ponteiros_invalidos, m)
  | _, none => (.error .ponteiros_invalidos, m)
  | some _, some gp =>
    if fopen_ok = false then (.error .arquivo, m)
    else
      match m.grafos[gp]? with
      | none => (.error .indefinido, m)
      | some g =>
        match exportar_vertices_laco g.vertices m [.abre] with
        | (.error e, m1) => (.error e, m1)
        | (.ok file, m1) => (.ok (file ++ [.fecha]), m1)

/-- The edge lines of a dot file, as (source id, target id, weight). -/
def linhas_aresta : List linha_dot → List (Int × Int × Int)
  | [] => []
  | .aresta u v peso :: resto => (u, v, peso) :: linhas_aresta resto
  | _ :: resto => linhas_aresta resto

/-! ### prim_mst -/

/-- What `prim_mst` prints on stdout. -/
inductive saida_prim where
  /-- "\no vertice ja foi visitado\n" -/
  | ja_visitado
  /-- "\nVertice %d marcado\n" -/
  | marcado (id : Int)
  /-- "\t%d -- %d [label = %d];\n" -/
  | aresta (u v peso : Int)
  deriving DecidableEq, Repr

/-- The locals of `prim_mst` that live across iterations of the outer loop;
`none` is a variable not yet assigned. `menor_peso` is declared inside the
outer loop and is assigned at its declaration. -/
structure prim_locais where
  change : Option Int
  adjacente : Option Nat
  id_aresta : Option Int
  menor_peso : Int
  deriving DecidableEq, Repr

/-- Body of the `while (no_arest)` loop of `prim_mst` for the edge `aresta` of
`vertice`. The loop writes nothing to the heap. -/
def prim_no_arest (m : Mem) (vertice : Nat) (aresta : arestas_t) (l : prim_locais)
    (out : List saida_prim) : Except erro_t (prim_locais × List saida_prim) :=
  match vertice_visitado m vertice with
  | .error e => .error e
  | .ok true => .ok (l, out ++ [.ja_visitado])
  | .ok false =>
    let adjacente := aresta.dest
    match procurar_adjacente m adjacente vertice with
    | .error e => .error e
    | .ok contra_aresta =>
      let peso_aresta := aresta.peso
      match aresta_get_peso m contra_aresta with
      | .error e => .error e
      | .ok _peso_contra_aresta =>
        if peso_aresta < l.menor_peso then
          match vertice_get_id m adjacente with
          | .error e => .error e
          | .ok id_adjacente =>
            .ok ({ change := some 1, adjacente := some adjacente, id_aresta := some id_adjacente,
                   menor_peso := peso_aresta }, out)
        else
          .ok ({ l with adjacente := some adjacente }, out)

/-- The `while (no_arest)` loop of `prim_mst`. -/
def prim_arestas_laco (m : Mem) (vertice : Nat) :
    List arestas_t → prim_locais → List saida_prim → Except erro_t (prim_locais × List saida_prim)
  | [], l, out => .ok (l, out)
  | aresta :: resto, l, out =>
    match prim_no_arest m vertice aresta l out with
    | .error e => .error e
    | .ok (l1, out1) => prim_arestas_laco m vertice resto l1 out1

/-- Body of the `while (no_vert)` loop of `prim_mst` for `vertice`: the scan of
its adjacency list, then the `if (change)` block. -/
def prim_vertice (vertice : Nat) (m : Mem) (l : prim_locais) (out : List saida_prim) :
    Except erro_t (prim_locais × List saida_prim) × Mem :=
  match vertice_get_arestas m vertice with
  | .error e => (.error e, m)
  | .ok lista_arestas =>
    match prim_arestas_laco m vertice lista_arestas { l with menor_peso := INFINITO } out with
    | .error e => (.error e, m)
    | .ok (l1, out1) =>
      match l1.change with
      | none => (.error .indefinido, m)
      | some c =>
        if c ≠ 0 then
          match l1.adjacente, l1.id_aresta with
          | some adjacente, some id_aresta =>
            match vertice_set_visited adjacente m with
            | (.error e, m1) => (.error e, m1)
            | (.ok _, m1) =>
              match vertice_get_id m1 adjacente, vertice_get_id m1 vertice with
              | .ok id_adjacente, .ok id_vertice =>
                (.ok ({ l1 with change := some 0 },
                  out1 ++ [.marcado id_adjacente, .aresta id_vertice id_aresta l1.menor_peso]), m1)
              | _, _ => (.error .indefinido, m1)
          | _, _ => (.error .indefinido, m)
        else (.ok (l1, out1), m)

/-- The `while (no_vert)` loop of `prim_mst`. -/
def prim_vertices_laco :
    List Nat → Mem → prim_locais → List saida_prim →
      Except erro_t (prim_locais × List saida_prim) × Mem
  | [], m, l, out => (.ok (l, out), m)
  | vertice :: resto, m, l, out =>
    match prim_vertice vertice m l out with
    | (.error e, m1) => (.error e, m1)
    | (.ok (l1, out1), m1) => prim_vertices_laco resto m1 l1 out1

/-- The locals of `prim_mst` on entry: nothing is assigned (`menor_peso` does
not exist yet; it is set at the top of every outer iteration). -/
def prim_locais_iniciais : prim_locais :=
  { change := none, adjacente := none, id_aresta := none, menor_peso := INFINITO }

/-- `prim_mst(grafo, inicial)`: the result is what was printed. -/
def prim_mst (grafo : Option Nat) (inicial : Int) (m : Mem) :
    Except erro_t (List saida_prim) × Mem :=
  match grafo with
  | none => (.error .grafo_invalido, m)
  | some gp =>
    match m.grafos[gp]? with
    | none => (.error .indefinido, m)
    | some g =>
      match prim_vertices_laco g.vertices m prim_locais_iniciais [] with
      | (.error e, m1) => (.error e, m1)
      | (.ok (_, out), m1) => (.ok out, m1)

/-- The edges printed by `prim_mst`, as (source id, target id, weight). -/
def arestas_emitidas : List saida_prim → List (Int × Int × Int)
  | [] => []
  | .aresta u v peso :: resto => (u, v, peso) :: arestas_emitidas resto
  | _ :: resto => arestas_emitidas resto

/-! ### kruskal_mst and libera_grafo -/

/-- What `kruskal_mst` prints on stdout (`DEBUG_ON_KRUSKAL` is defined). -/
inductive saida_kruskal where
  /-- "\nanalisando vertice %d" -/
  | analisando (id : Int)
  /-- "\t%d -- %d [label = %d];\n" -/
  | aresta (u v peso : Int)
  deriving DecidableEq, Repr

/-- The locals of `kruskal_mst` that the loops assign: `menor_peso` (set at the
top of every outer iteration) and the ids `i`, `j` of the ends of the lightest
edge seen, `none` while not assigned. Nothing reads `i` and `j`. -/
structure kruskal_locais where
  menor_peso : Int
  i : Option Int
  j : Option Int
  deriving DecidableEq, Repr

/-- Body of the `while (no_arest)` loop of `kruskal_mst`. -/
def kruskal_no_arest (m : Mem) (vertice : Nat) (aresta : arestas_t) (l : kruskal_locais)
    (out : List saida_kruskal) : Except erro_t (kruskal_locais × List saida_kruskal) :=
  match vertice_get_id m vertice with
  | .error e => .error e
  | .ok id_vertice =>
    let adjacente := aresta.dest
    let peso_aresta := aresta.peso
    match vertice_get_id m adjacente with
    | .error e => .error e
    | .ok id_adjacente =>
      let out1 := out ++ [.analisando id_vertice, .aresta id_vertice id_adjacente peso_aresta]
      if peso_aresta < l.menor_peso then
        .ok (kruskal_locais.mk peso_aresta (some id_vertice) (some id_adjacente), out1)
      else .ok (l, out1)

/-- The `while (no_arest)` loop of `kruskal_mst`. -/
def kruskal_arestas_laco (m : Mem) (vertice : Nat) :
    List arestas_t → kruskal_locais → List saida_kruskal →
      Except erro_t (kruskal_locais × List saida_kruskal)
  | [], l, out => .ok (l, out)
  | aresta :: resto, l, out =>
    match kruskal_no_arest m vertice aresta l out with
    | .error e => .error e
    | .ok (l1, out1) => kruskal_arestas_laco m vertice resto l1 out1

/-- The `while (no_vert)` loop of `kruskal_mst`. -/
def kruskal_vertices_laco (m : Mem) :
    List Nat → kruskal_locais → List saida_kruskal →
      Except erro_t (kruskal_locais × List saida_kruskal)
  | [], l, out => .ok (l, out)
  | vertice :: resto, l, out =>
    match vertice_get_arestas m vertice with
    | .error e => .error e
    | .ok lista_arestas =>
      match kruskal_arestas_laco m vertice lista_arestas
          (kruskal_locais.mk INFINITO l.i l.j) out with
      | .error e => .error e
      | .ok (l1, out1) => kruskal_vertices_laco m resto l1 out1

/-- `kruskal_mst(grafo, g_out)`: only `grafo` is tested and read; the heap,
`g_out` included, is not written. The result is what was printed. -/
def kruskal_mst (grafo g_out : Option Nat) (m : Mem) :
    Except erro_t (List saida_kruskal) × Mem :=
  match grafo with
  | none => (.error .grafo_invalido, m)
  | some gp =>
    match m.grafos[gp]? with
    | none => (.error .indefinido, m)
    | some g =>
      match kruskal_vertices_laco m g.vertices (kruskal_locais.mk INFINITO none none) [] with
      | .error e => (.error e, m)
      | .ok (_, out) => (.ok out, m)

/-- `libera_grafo(grafo)`: walks the vertices and frees every edge, node,
vertex and the graph. The heap of this model has no deallocation, so a
successful call leaves it as it is; what is modelled is which calls return. -/
def libera_grafo (grafo : Option Nat) (m : Mem) : Except erro_t Unit × Mem :=
  match grafo with
  | none => (.error .grafo_invalido, m)
  | some gp =>
    match m.grafos[gp]? with
    | none => (.error .indefinido, m)
    | some g =>
      if g.vertices.all (fun vertice => decide (vertice < m.vert.length)) then (.ok (), m)
      else (.error .indefinido, m)

/-! ### Reachable memories -/

/-- The memories reachable from the `cria_grafo` call that returned the graph
pointer `gp`, through successful calls of `grafo_adicionar_vertice` and
`adiciona_adjacentes` (on any graph of the memory, with any arguments). -/
inductive alcancavel (gp : Nat) : Mem → Prop where
  | cria (id : Int) (m0 : Mem) (h : (cria_grafo id m0).1 = gp) :
      alcancavel gp (cria_grafo id m0).2
  | vertice (m m1 : Mem) (grafo : Option Nat) (id : Int) (v : Nat)
      (h : alcancavel gp m) (hc : grafo_adicionar_vertice grafo id m = (.ok v, m1)) :
      alcancavel gp m1
  | adjacentes (m m1 : Mem) (grafo : Option Nat) (vertice : Nat) (n : Int) (args : List Int)
      (h : alcancavel gp m) (hc : adiciona_adjacentes grafo vertice n args m = (.ok (), m1)) :
      alcancavel gp m1

/-- The empty heap. -/
def mem_vazia : Mem := { grafos := [], vert := [] }

/-- A graph with one vertex of id 7. -/
def mem_um : Mem :=
  { grafos := [{ id := 0, vertices := [0] }],
    vert := [{ id := 7, arestas := [], visitado := false }] }

/-- The graph 0 with vertices of ids 1, 2, 3, 4 (pointers 0, 1, 2, 3) and no
edge, built through the API. -/
def mem_quatro : Mem :=
  let m := (cria_grafo 0 mem_vazia).2
  let m := (grafo_adicionar_vertice (some 0) 1 m).2
  let m := (grafo_adicionar_vertice (some 0) 2 m).2
  let m := (grafo_adicionar_vertice (some 0) 3 m).2
  (grafo_adicionar_vertice (some 0) 4 m).2

/-! ### Views of the memory used to state properties -/

/-- The adjacency list of the vertex at `p` (empty when `p` dangles). -/
def arestas_de (m : Mem) (p : Nat) : List arestas_t :=
  match m.vert[p]? with
  | none => []
  | some v => v.arestas

/-- The export marker of the edge at a pointer. -/
def status_de (m : Mem) (aresta : Nat × Nat) : Option status_aresta_t :=
  ((arestas_de m aresta.1)[aresta.2]?).map (fun a => a.status)

/-- A vertex with the export markers of its edges cleared. -/
def limpa_vertice (v : vertice_t) : vertice_t :=
  { v with arestas := v.arestas.map (fun a => { a with status := .NAO_EXPORTADA }) }

/-- Two memories that differ at most in the export markers of edges. -/
def mesma_estrutura (m0 m : Mem) : Prop :=
  m.grafos = m0.grafos ∧ m.vert.map limpa_vertice = m0.vert.map limpa_vertice

/-- The setting in which the export of a graph with vertex list `vs` is followed
for a group `T` of edge pointers and the lines `D` that stand for the group:
every vertex of the list is live and so are the targets of its edges; an edge
outside the group writes no line of `D` and its reciprocal lookup never lands
in the group; an edge of the group writes a line of `D` with weight `w`, and
the group is made of that edge and of the edge its reciprocal lookup finds. -/
structure cenario_exportar (m0 : Mem) (vs : List Nat) (T : Nat × Nat → Prop)
    (D : Int × Int × Int → Bool) (w : Int) : Prop where
  vivos : ∀ p ∈ vs, ∃ idp, vertice_get_id m0 p = .ok idp
  alvos : ∀ p ∈ vs, ∀ a ∈ arestas_de m0 p, ∃ idq, vertice_get_id m0 a.dest = .ok idq
  fora : ∀ p ∈ vs, ∀ k a idp idq, (arestas_de m0 p)[k]? = some a → ¬ T (p, k) →
    vertice_get_id m0 p = .ok idp → vertice_get_id m0 a.dest = .ok idq →
    D (idp, idq, a.peso) = false ∧
      ∀ c, procurar_adjacente_laco p (arestas_de m0 a.dest) 0 = some c → ¬ T (a.dest, c)
  dentro : ∀ p ∈ vs, ∀ k a idp idq, (arestas_de m0 p)[k]? = some a → T (p, k) →
    vertice_get_id m0 p = .ok idp → vertice_get_id m0 a.dest = .ok idq →
    D (idp, idq, a.peso) = true ∧ a.peso = w ∧
      ∀ t, T t → t = (p, k) ∨
        some t = (procurar_adjacente_laco p (arestas_de m0 a.dest) 0).map (fun c => (a.dest, c))

/-- The two phases of an export with respect to a group `T` of edge pointers:
before any edge of the group is reached (`b = false`) the group is unmarked and
no line of `D` is in the file; afterwards (`b = true`) the group is marked and
the file has exactly one line of `D`, of weight `w`. -/
def fase_exportar (m0 : Mem) (T : Nat × Nat → Prop) (D : Int × Int × Int → Bool) (w : Int)
    (b : Bool) (m : Mem) (file : List linha_dot) : Prop :=
  mesma_estrutura m0 m ∧
  (∀ t, T t → status_de m t = some (if b then .EXPORTADA else .NAO_EXPORTADA)) ∧
  (linhas_aresta file).countP D = (if b then 1 else 0) ∧
  ∀ l ∈ linhas_aresta file, D l = true → l.2.2 = w

/-- Vertices 1 and 2 (pointers 0 and 1) and the single edge 1 -> 2 of weight 5;
vertex 2 has no edge back. -/
def mem_mao_unica : Mem :=
  let m := (cria_grafo 0 mem_vazia).2
  let m := (grafo_adicionar_vertice (some 0) 1 m).2
  let m := (grafo_adicionar_vertice (some 0) 2 m).2
  (adiciona_adjacentes (some 0) 0 2 [2, 5] m).2

/-- Vertices 1 and 2 joined by two parallel connections, of weights 5 and 6,
each added in both directions. -/
def mem_paralelas : Mem :=
  let m := (cria_grafo 0 mem_vazia).2
  let m := (grafo_adicionar_vertice (some 0) 1 m).2
  let m := (grafo_adicionar_vertice (some 0) 2 m).2
  let m := (adiciona_adjacentes (some 0) 0 4 [2, 5, 2, 6] m).2
  (adiciona_adjacentes (some 0) 1 4 [1, 5, 1, 6] m).2

/-- Vertices 1 and 2 joined by one connection of weight 5 added in both
directions. -/
def mem_par : Mem :=
  let m := (cria_grafo 0 mem_vazia).2
  let m := (grafo_adicionar_vertice (some 0) 1 m).2
  let m := (grafo_adicionar_vertice (some 0) 2 m).2
  let m := (adiciona_adjacentes (some 0) 0 2 [2, 5] m).2
  (adiciona_adjacentes (some 0) 1 2 [1, 5] m).2

/-- The graph of `mem_mao_unica` after one export. -/
def mem_mao_unica_exportada : Mem :=
  (exportar_grafo_dot (some "g.dot") (some 0) true mem_mao_unica).2

/-- The fixture of the spec: vertices 1, 2, 3, 4 (pointers 0, 1, 2, 3) and the
connections (1,2,1), (2,3,2), (3,4,1), (1,4,4), (1,3,3), each attached in both
directions, in the order listed. -/
def mem_fixture : Mem :=
  let m := (adiciona_adjacentes (some 0) 0 2 [2, 1] mem_quatro).2
  let m := (adiciona_adjacentes (some 0) 1 2 [1, 1] m).2
  let m := (adiciona_adjacentes (some 0) 1 2 [3, 2] m).2
  let m := (adiciona_adjacentes (some 0) 2 2 [2, 2] m).2
  let m := (adiciona_adjacentes (some 0) 2 2 [4, 1] m).2
  let m := (adiciona_adjacentes (some 0) 3 2 [3, 1] m).2
  let m := (adiciona_adjacentes (some 0) 0 2 [4, 4] m).2
  let m := (adiciona_adjacentes (some 0) 3 2 [1, 4] m).2
  let m := (adiciona_adjacentes (some 0) 0 2 [3, 3] m).2
  (adiciona_adjacentes (some 0) 2 2 [1, 3] m).2

/-- Vertices 1, 2, 3 (pointers 0, 1, 2) with the connections (1,3,1) and
(2,3,INT_MAX), each attached in both directions. -/
def mem_peso_maximo : Mem :=
  let m := (cria_grafo 0 mem_vazia).2
  let m := (grafo_adicionar_vertice (some 0) 1 m).2
  let m := (grafo_adicionar_vertice (some 0) 2 m).2
  let m := (grafo_adicionar_vertice (some 0) 3 m).2
  let m := (adiciona_adjacentes (some 0) 0 2 [3, 1] m).2
  let m := (adiciona_adjacentes (some 0) 1 2 [3, 2147483647] m).2
  (adiciona_adjacentes (some 0) 2 4 [1, 1, 2, 2147483647] m).2

/-- The graph of `mem_par` (graph 0) and a second, empty graph (graph 1) made
by `cria_grafo` to receive a result. -/
def mem_par_saida : Mem := (cria_grafo 1 mem_par).2

/-- The id of the vertex at `p` (0 when `p` dangles). -/
def id_de (m : Mem) (p : Nat) : Int :=
  match m.vert[p]? with
  | none => 0
  | some v => v.id

/-- The edge lines of the adjacency lists of the vertices `vs`, in the order of
`vs` and, for each vertex, in the order of its adjacency list. -/
def linhas_das_arestas (m : Mem) (vs : List Nat) : List (Int × Int × Int) :=
  vs.flatMap (fun p => (arestas_de m p).map (fun a => (id_de m p, id_de m a.dest, a.peso)))

/-- Vertices 1 and 2 (pointers 0 and 1) and two edges 1 -> 2, of weights 5
and 6; vertex 2 has no edge back. -/
def mem_duas_maos : Mem :=
  let m := (cria_grafo 0 mem_vazia).2
  let m := (grafo_adicionar_vertice (some 0) 1 m).2
  let m := (grafo_adicionar_vertice (some 0) 2 m).2
  (adiciona_adjacentes (some 0) 0 4 [2, 5, 2, 6] m).2

/-- The setting in which the export of a graph with vertex list `vs` is followed
for the edges from `u` to `v` of weight `w`, when `v` has no edge to `u`: the
vertices of the list are live, their edges point into the list, their ids are
pairwise different, and `idu`, `idv` are the ids of `u` and `v`. -/
structure cenario_mao_unica (m0 : Mem) (vs : List Nat) (u v : Nat) (idu idv : Int) : Prop where
  vivos : ∀ p ∈ vs, p < m0.vert.length
  alvos : ∀ p ∈ vs, ∀ b ∈ arestas_de m0 p, b.dest ∈ vs
  ids : ∀ p ∈ vs, ∀ q ∈ vs, vertice_get_id m0 p = vertice_get_id m0 q → p = q
  origem : u ∈ vs
  destino : v ∈ vs
  id_origem : vertice_get_id m0 u = .ok idu
  id_destino : vertice_get_id m0 v = .ok idv
  sem_volta : ∀ b ∈ arestas_de m0 v, b.dest ≠ u

/-- Whether the edge at position `j` of the adjacency list of `u` goes to `v`
with weight `w` and is still unmarked in `m` (the structure is read in `m0`). -/
def pendente (m0 m : Mem) (u v : Nat) (w : Int) (j : Nat) : Bool :=
  match (arestas_de m0 u)[j]? with
  | some b =>
    decide (b.dest = v ∧ b.peso = w) && decide (status_de m (u, j) = some .NAO_EXPORTADA)
  | none => false

/-- During an export, the lines from `u` to `v` of weight `w` already written
and the edges from `u` to `v` of weight `w` still unmarked add up to the number
of such edges unmarked at the start. -/
def fase_mao_unica (m0 : Mem) (u v : Nat) (w idu idv : Int) (m : Mem)
    (file : List linha_dot) : Prop :=
  mesma_estrutura m0 m ∧
  (linhas_aresta file).count (idu, idv, w)
      + (List.range (arestas_de m0 u).length).countP (pendente m0 m u v w)
    = (List.range (arestas_de m0 u).length).countP (pendente m0 m0 u v w)

/-- The test `P` on the element at position `j` of a list (false past the
end). -/
def na_posicao {α : Type} (P : α → Bool) (l : List α) (j : Nat) : Bool :=
  match l[j]? with
  | some b => P b
  | none => false

/-! ## Properties -/

/-! ### procura_vertice -/

theorem vertice_get_id_valido (m : Mem) (p : Nat) (h : p < m.vert.length) :
    ∃ i, vertice_get_id m p = .ok i := by
  unfold vertice_get_id
  rw [List.getElem?_eq_getElem h]
  exact ⟨_, rfl⟩

theorem procura_vertice_laco_some_inv (m : Mem) (id : Int) (vs : List Nat) (p : Nat)
    (h : procura_vertice_laco m id vs = .ok (some p)) :
    ∃ pre pos, vs = pre ++ p :: pos ∧ vertice_get_id m p = .ok id ∧
      ∀ q ∈ pre, vertice_get_id m q ≠ .ok id := by
  induction vs with
  | nil => simp [procura_vertice_laco] at h
  | cons q resto ih =>
    unfold procura_vertice_laco at h
    cases hq : vertice_get_id m q with
    | error e => simp [hq] at h
    | ok i =>
      simp only [hq] at h
      by_cases hid : i = id
      · simp only [hid, if_true] at h
        have hp : q = p := Option.some.inj (Except.ok.inj h)
        subst hp
        exact ⟨[], resto, rfl, by rw [hq, hid], by simp⟩
      · simp only [hid, if_false] at h
        obtain ⟨pre, pos, h1, h2, h3⟩ := ih h
        refine ⟨q :: pre, pos, by rw [h1]; rfl, h2, ?_⟩
        intro r hr
        rcases List.mem_cons.mp hr with hr | hr
        · subst hr
          rw [hq]
          intro hc
          exact hid (Except.ok.inj hc)
        · exact h3 r hr

theorem procura_vertice_laco_none_inv (m : Mem) (id : Int) (vs : List Nat)
    (h : procura_vertice_laco m id vs = .ok none) :
    ∀ q ∈ vs, vertice_get_id m q ≠ .ok id := by
  induction vs with
  | nil => simp
  | cons q resto ih =>
    unfold procura_vertice_laco at h
    cases hq : vertice_get_id m q with
    | error e => simp [hq] at h
    | ok i =>
      simp only [hq] at h
      by_cases hid : i = id
      · simp [hid] at h
      · simp only [hid, if_false] at h
        intro r hr
        rcases List.mem_cons.mp hr with hr | hr
        · subst hr
          rw [hq]
          intro hc
          exact hid (Except.ok.inj hc)
        · exact ih h r hr

theorem procura_vertice_laco_total (m : Mem) (id : Int) (vs : List Nat)
    (hv : ∀ p ∈ vs, p < m.vert.length) :
    ∃ r, procura_vertice_laco m id vs = .ok r := by
  induction vs with
  | nil => exact ⟨none, rfl⟩
  | cons q resto ih =>
    obtain ⟨i, hi⟩ := vertice_get_id_valido m q (hv q (List.mem_cons_self _ _))
    obtain ⟨r, hr⟩ := ih (fun p hp => hv p (List.mem_cons_of_mem _ hp))
    unfold procura_vertice_laco
    simp only [hi]
    by_cases hid : i = id
    · exact ⟨some q, by simp [hid]⟩
    · exact ⟨r, by simp [hid, hr]⟩

theorem procura_vertice_laco_eq (m : Mem) (gp : Nat) (g : grafo_t) (id : Int)
    (hg : m.grafos[gp]? = some g) :
    procura_vertice (some gp) id m = procura_vertice_laco m id g.vertices := by
  unfold procura_vertice
  simp only [hg]
  split
  · rename_i h
    rw [List.isEmpty_iff] at h
    rw [h]
    rfl
  · rfl

/-- With no dangling vertex pointer in the graph, `procura_vertice` returns. -/
theorem procura_vertice_total (m : Mem) (gp : Nat) (g : grafo_t) (id : Int)
    (hg : m.grafos[gp]? = some g) (hv : ∀ p ∈ g.vertices, p < m.vert.length) :
    ∃ r, procura_vertice (some gp) id m = .ok r := by
  rw [procura_vertice_laco_eq m gp g id hg]
  exact procura_vertice_laco_total m id g.vertices hv

/-- When some vertex of the graph has the id, `procura_vertice` finds one. -/
theorem procura_vertice_presente (m : Mem) (gp : Nat) (g : grafo_t) (id : Int)
    (hg : m.grafos[gp]? = some g) (hv : ∀ p ∈ g.vertices, p < m.vert.length)
    (hid : ∃ p ∈ g.vertices, vertice_get_id m p = .ok id) :
    ∃ s, procura_vertice (some gp) id m = .ok (some s) := by
  obtain ⟨r, hr⟩ := procura_vertice_total m gp g id hg hv
  cases r with
  | some s => exact ⟨s, hr⟩
  | none =>
    exfalso
    rw [procura_vertice_laco_eq m gp g id hg] at hr
    obtain ⟨p, hp, hpid⟩ := hid
    exact procura_vertice_laco_none_inv m id g.vertices hr p hp hpid

/-- When no vertex of the graph has the id, `procura_vertice` returns NULL. -/
theorem procura_vertice_ausente (m : Mem) (gp : Nat) (g : grafo_t) (id : Int)
    (hg : m.grafos[gp]? = some g) (hv : ∀ p ∈ g.vertices, p < m.vert.length)
    (hid : ∀ p ∈ g.vertices, vertice_get_id m p ≠ .ok id) :
    procura_vertice (some gp) id m = .ok none := by
  obtain ⟨r, hr⟩ := procura_vertice_total m gp g id hg hv
  cases r with
  | none => exact hr
  | some s =>
    exfalso
    rw [procura_vertice_laco_eq m gp g id hg] at hr
    obtain ⟨pre, pos, h1, h2, _⟩ := procura_vertice_laco_some_inv m id g.vertices s hr
    exact hid s (by rw [h1]; simp) h2

theorem procura_vertice_laco_some_of (m : Mem) (id : Int) (pre pos : List Nat) (p : Nat)
    (hv : ∀ q ∈ pre, q < m.vert.length)
    (hp : vertice_get_id m p = .ok id)
    (hpre : ∀ q ∈ pre, vertice_get_id m q ≠ .ok id) :
    procura_vertice_laco m id (pre ++ p :: pos) = .ok (some p) := by
  induction pre with
  | nil => simp [procura_vertice_laco, hp]
  | cons q resto ih =>
    obtain ⟨i, hi⟩ := vertice_get_id_valido m q (hv q (List.mem_cons_self _ _))
    have hne : i ≠ id := by
      intro h
      exact hpre q (List.mem_cons_self _ _) (by rw [hi, h])
    have ih1 := ih (fun r hr => hv r (List.mem_cons_of_mem _ hr))
      (fun r hr => hpre r (List.mem_cons_of_mem _ hr))
    simp [procura_vertice_laco, hi, hne, ih1]

/-! ### Claims on the vertex list -/

/-- C1: when some vertex of the graph already has the id,
`grafo_adicionar_vertice` takes the fatal "vertice duplicado" branch and the
memory at the exit is the memory of the call: the vertex list of the graph, and
so its length, is what it was. -/
theorem grafo_adicionar_vertice_duplicado (m : Mem) (gp : Nat) (g : grafo_t) (id : Int)
    (hg : m.grafos[gp]? = some g) (hv : ∀ p ∈ g.vertices, p < m.vert.length)
    (hid : ∃ p ∈ g.vertices, vertice_get_id m p = .ok id) :
    grafo_adicionar_vertice (some gp) id m = (.error .vertice_duplicado, m) ∧
    ((grafo_adicionar_vertice (some gp) id m).2.grafos[gp]?).map (fun g1 => g1.vertices)
      = some g.vertices ∧
    ((grafo_adicionar_vertice (some gp) id m).2.grafos[gp]?).map (fun g1 => g1.vertices.length)
      = some g.vertices.length := by
  obtain ⟨s, hs⟩ := procura_vertice_presente m gp g id hg hv hid
  have h : grafo_adicionar_vertice (some gp) id m = (.error .vertice_duplicado, m) := by
    simp [grafo_adicionar_vertice, hs]
  rw [h]
  simp [hg]

theorem grafo_adicionar_vertice_duplicado_witness :
    mem_um.grafos[0]? = some { id := 0, vertices := [0] } ∧
    (∀ p ∈ [0], p < mem_um.vert.length) ∧
    (∃ p ∈ [0], vertice_get_id mem_um p = .ok 7) ∧
    (grafo_adicionar_vertice (some 0) 7 mem_um = (.error .vertice_duplicado, mem_um) ∧
    ((grafo_adicionar_vertice (some 0) 7 mem_um).2.grafos[0]?).map (fun g1 => g1.vertices)
      = some [0] ∧
    ((grafo_adicionar_vertice (some 0) 7 mem_um).2.grafos[0]?).map (fun g1 => g1.vertices.length)
      = some 1) :=
  ⟨rfl, by decide, ⟨0, by simp, rfl⟩,
    grafo_adicionar_vertice_duplicado mem_um 0 { id := 0, vertices := [0] } 7 rfl (by decide)
      ⟨0, by simp, rfl⟩⟩

/-- C3: on a graph without dangling vertex pointers `procura_vertice` returns;
it returns the vertex `p` exactly when `p` is the first vertex of the list, in
insertion order, whose id is the one searched; it returns NULL exactly when no
vertex of the list has that id; and on the graph just made by `cria_grafo` it
returns NULL. -/
theorem procura_vertice_primeiro (m : Mem) (gp : Nat) (g : grafo_t) (id : Int)
    (hg : m.grafos[gp]? = some g) (hv : ∀ p ∈ g.vertices, p < m.vert.length) :
    (∃ r, procura_vertice (some gp) id m = .ok r ∧
      (∀ p, r = some p ↔ ∃ pre pos, g.vertices = pre ++ p :: pos ∧
        vertice_get_id m p = .ok id ∧ ∀ q ∈ pre, vertice_get_id m q ≠ .ok id) ∧
      (r = none ↔ ∀ q ∈ g.vertices, vertice_get_id m q ≠ .ok id)) ∧
    (∀ (gid : Int) (m0 : Mem),
      procura_vertice (some (cria_grafo gid m0).1) id (cria_grafo gid m0).2 = .ok none) := by
  refine ⟨?_, ?_⟩
  · obtain ⟨r, hr⟩ := procura_vertice_total m gp g id hg hv
    have hl := hr
    rw [procura_vertice_laco_eq m gp g id hg] at hl
    refine ⟨r, hr, ?_, ?_⟩
    · intro p
      constructor
      · intro hrp
        rw [hrp] at hl
        exact procura_vertice_laco_some_inv m id g.vertices p hl
      · rintro ⟨pre, pos, h1, h2, h3⟩
        have hvp : ∀ q ∈ pre, q < m.vert.length := fun q hq => hv q (by rw [h1]; simp [hq])
        have := procura_vertice_laco_some_of m id pre pos p hvp h2 h3
        rw [← h1, hl] at this
        exact Except.ok.inj this
    · constructor
      · intro hrn
        rw [hrn] at hl
        exact procura_vertice_laco_none_inv m id g.vertices hl
      · intro hno
        have := procura_vertice_ausente m gp g id hg hv hno
        rw [hr] at this
        exact Except.ok.inj this
  · intro gid m0
    simp [procura_vertice, cria_grafo]

theorem procura_vertice_primeiro_witness :
    mem_quatro.grafos[0]? = some { id := 0, vertices := [0, 1, 2, 3] } ∧
    (∀ p ∈ [0, 1, 2, 3], p < mem_quatro.vert.length) ∧
    ((∃ r, procura_vertice (some 0) 3 mem_quatro = .ok r ∧
      (∀ p, r = some p ↔ ∃ pre pos, [0, 1, 2, 3] = pre ++ p :: pos ∧
        vertice_get_id mem_quatro p = .ok 3 ∧ ∀ q ∈ pre, vertice_get_id mem_quatro q ≠ .ok 3) ∧
      (r = none ↔ ∀ q ∈ [0, 1, 2, 3], vertice_get_id mem_quatro q ≠ .ok 3)) ∧
    (∀ (gid : Int) (m0 : Mem),
      procura_vertice (some (cria_grafo gid m0).1) 3 (cria_grafo gid m0).2 = .ok none)) :=
  ⟨rfl, by decide,
    procura_vertice_primeiro mem_quatro 0 { id := 0, vertices := [0, 1, 2, 3] } 3 rfl
      (by decide)⟩

theorem vertice_get_id_append (m m1 : Mem) (l : List vertice_t) (p : Nat)
    (hp : p < m.vert.length) (h : m1.vert = m.vert ++ l) :
    vertice_get_id m1 p = vertice_get_id m p := by
  unfold vertice_get_id
  rw [h, List.getElem?_append_left hp]

/-- C4: when no vertex of the graph has the id, `grafo_adicionar_vertice`
returns a vertex `v`; `v` is a fresh heap object with that id, no edge and not
visited; the vertex list of the graph is the old list followed by `v`; the
other graphs and the older vertices are as before; and `procura_vertice` for
the id then returns `v`. -/
theorem grafo_adicionar_vertice_novo (m : Mem) (gp : Nat) (g : grafo_t) (id : Int)
    (hg : m.grafos[gp]? = some g) (hv : ∀ p ∈ g.vertices, p < m.vert.length)
    (hid : ∀ p ∈ g.vertices, vertice_get_id m p ≠ .ok id) :
    ∃ v m1, grafo_adicionar_vertice (some gp) id m = (.ok v, m1) ∧
      v = m.vert.length ∧
      m1.vert = m.vert ++ [{ id := id, arestas := [], visitado := false }] ∧
      m1.grafos[gp]? = some { g with vertices := g.vertices ++ [v] } ∧
      (∀ q, q ≠ gp → m1.grafos[q]? = m.grafos[q]?) ∧
      procura_vertice (some gp) id m1 = .ok (some v) := by
  have hnone := procura_vertice_ausente m gp g id hg hv hid
  have hlt : gp < m.grafos.length := by
    rcases List.getElem?_eq_some.mp hg with ⟨h, _⟩
    exact h
  have hvert : (add_cauda_vertices gp m.vert.length (cria_vertice id m).2).vert
      = m.vert ++ [{ id := id, arestas := [], visitado := false }] := by
    simp [add_cauda_vertices, cria_vertice, hg]
  have hg1 : (add_cauda_vertices gp m.vert.length (cria_vertice id m).2).grafos[gp]?
      = some { g with vertices := g.vertices ++ [m.vert.length] } := by
    simp [add_cauda_vertices, cria_vertice, hg, hlt]
  refine ⟨m.vert.length, add_cauda_vertices gp m.vert.length (cria_vertice id m).2,
    ?_, rfl, hvert, hg1, ?_, ?_⟩
  · simp only [grafo_adicionar_vertice, hnone, cria_vertice]
  · intro q hq
    simp [add_cauda_vertices, cria_vertice, hg, List.getElem?_set_ne (Ne.symm hq)]
  · rw [procura_vertice_laco_eq _ gp _ id hg1]
    apply procura_vertice_laco_some_of
    · intro q hq
      rw [hvert]
      have := hv q hq
      simp
      omega
    · unfold vertice_get_id
      rw [hvert]
      simp
    · intro q hq
      rw [vertice_get_id_append m _ _ q (hv q hq) hvert]
      exact hid q hq

theorem grafo_adicionar_vertice_novo_witness :
    mem_um.grafos[0]? = some { id := 0, vertices := [0] } ∧
    (∀ p ∈ [0], p < mem_um.vert.length) ∧
    (∀ p ∈ [0], vertice_get_id mem_um p ≠ .ok 9) ∧
    ∃ v m1, grafo_adicionar_vertice (some 0) 9 mem_um = (.ok v, m1) ∧
      v = mem_um.vert.length ∧
      m1.vert = mem_um.vert ++ [{ id := 9, arestas := [], visitado := false }] ∧
      m1.grafos[0]? = some { id := 0, vertices := [0] ++ [v] } ∧
      (∀ q, q ≠ 0 → m1.grafos[q]? = mem_um.grafos[q]?) ∧
      procura_vertice (some 0) 9 m1 = .ok (some v) :=
  ⟨rfl, by decide, by simp [vertice_get_id, mem_um],
    grafo_adicionar_vertice_novo mem_um 0 { id := 0, vertices := [0] } 9 rfl (by decide)
      (by simp [vertice_get_id, mem_um])⟩

/-! ### adiciona_adjacentes -/

theorem set_mesmo {α : Type} (l : List α) (i : Nat) (a : α) (h : l[i]? = some a) :
    l.set i a = l := by
  apply List.ext_getElem?
  intro j
  by_cases hj : i = j
  · subst hj
    rcases List.getElem?_eq_some.mp h with ⟨hlt, _⟩
    rw [List.getElem?_set_self hlt, h]
  · rw [List.getElem?_set_ne hj]

theorem vertice_get_id_set (m : Mem) (v : Nat) (vold vnew : vertice_t) (p : Nat)
    (h : m.vert[v]? = some vold) (hid : vnew.id = vold.id) :
    vertice_get_id { m with vert := m.vert.set v vnew } p = vertice_get_id m p := by
  unfold vertice_get_id
  by_cases hp : v = p
  · subst hp
    rcases List.getElem?_eq_some.mp h with ⟨hlt, _⟩
    simp only [List.getElem?_set_self hlt, h, hid]
  · simp only [List.getElem?_set_ne hp]

theorem procura_vertice_laco_congr (m m1 : Mem) (id : Int) (vs : List Nat)
    (hid : ∀ p, vertice_get_id m1 p = vertice_get_id m p) :
    procura_vertice_laco m1 id vs = procura_vertice_laco m id vs := by
  induction vs with
  | nil => rfl
  | cons q resto ih => simp only [procura_vertice_laco, hid, ih]

/-- `procura_vertice` reads only the graphs and the ids of the vertices. -/
theorem procura_vertice_congr (m m1 : Mem) (grafo : Option Nat) (id : Int)
    (hgraf : m1.grafos = m.grafos) (hid : ∀ p, vertice_get_id m1 p = vertice_get_id m p) :
    procura_vertice grafo id m1 = procura_vertice grafo id m := by
  unfold procura_vertice
  simp only [hgraf, procura_vertice_laco_congr m m1 id _ hid]

theorem args_de_pares_append (l1 l2 : List (Int × Int)) :
    args_de_pares (l1 ++ l2) = args_de_pares l1 ++ args_de_pares l2 := by
  induction l1 with
  | nil => rfl
  | cons pr resto ih =>
    obtain ⟨t, w⟩ := pr
    simp [args_de_pares, ih]

/-- The loop of `adiciona_adjacentes` over a run of pairs whose targets are all
found: it reaches the rest of the arguments with one new edge per pair at the
tail of the adjacency list of `vertice`, and nothing else changed. -/
theorem adiciona_adjacentes_laco_pares (gp vertice : Nat) (n : Int) (m0 : Mem) :
    ∀ (pares : List (Int × Int)) (resto : List Int) (x : Int) (m : Mem) (vold : vertice_t),
      m.grafos = m0.grafos → (∀ p, vertice_get_id m p = vertice_get_id m0 p) →
      m.vert[vertice]? = some vold →
      (∀ pr ∈ pares, ∃ s, procura_vertice (some gp) pr.1 m0 = .ok (some s)) →
      x + 2 * (pares.length : Int) ≤ n →
      ∃ novas, List.Forall₂ (fun (pr : Int × Int) (a : arestas_t) => a.fonte = vertice ∧
            procura_vertice (some gp) pr.1 m0 = .ok (some a.dest) ∧ a.peso = pr.2) pares novas ∧
        adiciona_adjacentes_laco (some gp) vertice n (args_de_pares pares ++ resto) x m
          = adiciona_adjacentes_laco (some gp) vertice n resto (x + 2 * (pares.length : Int))
              { m with vert := (m.vert.set vertice
                  { vold with arestas := vold.arestas ++ novas }) } := by
  intro pares
  induction pares with
  | nil =>
    intro resto x m vold _ _ hvold _ _
    refine ⟨[], List.Forall₂.nil, ?_⟩
    have : ({ vold with arestas := vold.arestas ++ [] } : vertice_t) = vold := by simp
    rw [this, set_mesmo m.vert vertice vold hvold]
    simp [args_de_pares]
  | cons pr pares ih =>
    intro resto x m vold hgraf hids hvold hpres hx
    obtain ⟨t, w⟩ := pr
    obtain ⟨s, hs⟩ := hpres (t, w) (List.mem_cons_self _ _)
    have hs1 : procura_vertice (some gp) t m = .ok (some s) := by
      rw [procura_vertice_congr m0 m (some gp) t hgraf hids]
      exact hs
    have hlen : ((((t, w) :: pares).length : Nat) : Int) = (pares.length : Int) + 1 := by
      simp
    have hxn : x < n := by omega
    let v1 : vertice_t := { vold with arestas := vold.arestas ++ [cria_aresta vertice s w] }
    let m1 : Mem := { m with vert := m.vert.set vertice v1 }
    have hlt : vertice < m.vert.length := (List.getElem?_eq_some.mp hvold).1
    have hv1 : m1.vert[vertice]? = some v1 := by
      simp only [m1, List.getElem?_set_self hlt]
    have hids1 : ∀ p, vertice_get_id m1 p = vertice_get_id m0 p := by
      intro p
      rw [← hids p]
      exact vertice_get_id_set m vertice vold v1 p hvold rfl
    obtain ⟨novas, hfa, heq⟩ := ih resto (x + 2) m1 v1 hgraf hids1 hv1
      (fun pr hpr => hpres pr (List.mem_cons_of_mem _ hpr)) (by omega)
    refine ⟨cria_aresta vertice s w :: novas, List.Forall₂.cons ⟨rfl, hs, rfl⟩ hfa, ?_⟩
    have hstep : adiciona_adjacentes_laco (some gp) vertice n
        (args_de_pares ((t, w) :: pares) ++ resto) x m
        = adiciona_adjacentes_laco (some gp) vertice n (args_de_pares pares ++ resto) (x + 2) m1 := by
      simp only [args_de_pares, List.cons_append, adiciona_adjacentes_laco, hxn, if_true, hs1,
        adiciona_aresta, hvold]
      rfl
    rw [hstep, heq]
    have hm : ({ m1 with vert := (m1.vert.set vertice
          { v1 with arestas := v1.arestas ++ novas }) } : Mem)
        = { m with vert := (m.vert.set vertice
          { vold with arestas := vold.arestas ++ cria_aresta vertice s w :: novas }) } := by
      simp [m1, v1, List.set_set]
    rw [hm, hlen]
    congr 1
    ring

/-- C5: when every target id of the pair list is the id of a vertex of the
graph, `adiciona_adjacentes` returns, and the adjacency list of `vertice` is
then its old list followed by one new edge per pair, in the order of the
pairs, each with `vertice` as source, the vertex that `procura_vertice` finds
for the target id as target, and the weight of the pair; every other vertex,
the id and visited flag of `vertice`, and the graphs (so the vertex list) are
unchanged. -/
theorem adiciona_adjacentes_anexa (m : Mem) (gp : Nat) (g : grafo_t) (vertice : Nat)
    (vold : vertice_t) (pares : List (Int × Int))
    (hg : m.grafos[gp]? = some g) (hv : ∀ p ∈ g.vertices, p < m.vert.length)
    (hvold : m.vert[vertice]? = some vold)
    (hpres : ∀ pr ∈ pares, ∃ p ∈ g.vertices, vertice_get_id m p = .ok pr.1) :
    ∃ m1 novas,
      adiciona_adjacentes (some gp) vertice (2 * (pares.length : Int)) (args_de_pares pares) m
        = (.ok (), m1) ∧
      vertice_get_arestas m1 vertice = .ok (vold.arestas ++ novas) ∧
      List.Forall₂ (fun (pr : Int × Int) (a : arestas_t) => a.fonte = vertice ∧
        procura_vertice (some gp) pr.1 m = .ok (some a.dest) ∧ a.peso = pr.2) pares novas ∧
      m1.vert[vertice]? = some { vold with arestas := vold.arestas ++ novas } ∧
      (∀ p, p ≠ vertice → m1.vert[p]? = m.vert[p]?) ∧
      m1.grafos = m.grafos := by
  have hlt : vertice < m.vert.length := (List.getElem?_eq_some.mp hvold).1
  obtain ⟨novas, hfa, heq⟩ := adiciona_adjacentes_laco_pares gp vertice
    (2 * (pares.length : Int)) m pares [] 0 m vold rfl (fun _ => rfl) hvold
    (fun pr hpr => procura_vertice_presente m gp g pr.1 hg hv (hpres pr hpr)) (by omega)
  refine ⟨{ m with vert := (m.vert.set vertice { vold with arestas := vold.arestas ++ novas }) },
    novas, ?_, ?_, hfa, ?_, ?_, rfl⟩
  · unfold adiciona_adjacentes
    rw [List.append_nil] at heq
    rw [heq]
    simp [adiciona_adjacentes_laco]
  · simp [vertice_get_arestas, List.getElem?_set_self hlt]
  · simp [List.getElem?_set_self hlt]
  · intro p hp
    simp [List.getElem?_set_ne (Ne.symm hp)]

theorem adiciona_adjacentes_anexa_witness :
    mem_quatro.grafos[0]? = some { id := 0, vertices := [0, 1, 2, 3] } ∧
    (∀ p ∈ [0, 1, 2, 3], p < mem_quatro.vert.length) ∧
    mem_quatro.vert[0]? = some { id := 1, arestas := [], visitado := false } ∧
    (∀ pr ∈ [((2 : Int), (9 : Int)), (3, 15)],
      ∃ p ∈ [0, 1, 2, 3], vertice_get_id mem_quatro p = .ok pr.1) ∧
    ∃ m1 novas,
      adiciona_adjacentes (some 0) 0 (2 * (([((2 : Int), (9 : Int)), (3, 15)]).length : Int))
          (args_de_pares [(2, 9), (3, 15)]) mem_quatro
        = (.ok (), m1) ∧
      vertice_get_arestas m1 0 = .ok ([] ++ novas) ∧
      List.Forall₂ (fun (pr : Int × Int) (a : arestas_t) => a.fonte = 0 ∧
        procura_vertice (some 0) pr.1 mem_quatro = .ok (some a.dest) ∧ a.peso = pr.2)
        [(2, 9), (3, 15)] novas ∧
      m1.vert[0]? = some { id := 1, arestas := [] ++ novas, visitado := false } ∧
      (∀ p, p ≠ 0 → m1.vert[p]? = mem_quatro.vert[p]?) ∧
      m1.grafos = mem_quatro.grafos :=
  have hpres : ∀ pr ∈ [((2 : Int), (9 : Int)), (3, 15)],
      ∃ p ∈ [0, 1, 2, 3], vertice_get_id mem_quatro p = .ok pr.1 := by
    intro pr hpr
    simp only [List.mem_cons, List.mem_singleton, List.not_mem_nil, or_false] at hpr
    rcases hpr with h | h
    · exact ⟨1, by simp, by rw [h]; rfl⟩
    · exact ⟨2, by simp, by rw [h]; rfl⟩
  ⟨rfl, by decide, rfl, hpres,
    adiciona_adjacentes_anexa mem_quatro 0 { id := 0, vertices := [0, 1, 2, 3] } 0
      { id := 1, arestas := [], visitado := false } [(2, 9), (3, 15)] rfl (by decide) rfl hpres⟩

/-- C6: when the first target id that no vertex of the graph has is the one of
the pair at position `pre.length`, `adiciona_adjacentes` takes the fatal
"sucessor nao encontrado" branch, and at the exit the adjacency list of
`vertice` is its old list followed by the edges of the pairs before that
position only; when that position is 0 (so for a single pair with an absent
target) the memory at the exit is the memory of the call. -/
theorem adiciona_adjacentes_alvo_ausente (m : Mem) (gp : Nat) (g : grafo_t) (vertice : Nat)
    (vold : vertice_t) (pre pos : List (Int × Int)) (t w : Int)
    (hg : m.grafos[gp]? = some g) (hv : ∀ p ∈ g.vertices, p < m.vert.length)
    (hvold : m.vert[vertice]? = some vold)
    (hpre : ∀ pr ∈ pre, ∃ p ∈ g.vertices, vertice_get_id m p = .ok pr.1)
    (ht : ∀ p ∈ g.vertices, vertice_get_id m p ≠ .ok t) :
    ∃ m1 novas,
      adiciona_adjacentes (some gp) vertice (2 * ((pre ++ (t, w) :: pos).length : Int))
          (args_de_pares (pre ++ (t, w) :: pos)) m
        = (.error .sucessor_nao_encontrado, m1) ∧
      vertice_get_arestas m1 vertice = .ok (vold.arestas ++ novas) ∧
      List.Forall₂ (fun (pr : Int × Int) (a : arestas_t) => a.fonte = vertice ∧
        procura_vertice (some gp) pr.1 m = .ok (some a.dest) ∧ a.peso = pr.2) pre novas ∧
      (pre = [] → m1 = m) := by
  have hlt : vertice < m.vert.length := (List.getElem?_eq_some.mp hvold).1
  have hlen : (((pre ++ (t, w) :: pos).length : Nat) : Int)
      = (pre.length : Int) + 1 + (pos.length : Int) := by
    simp
    ring
  obtain ⟨novas, hfa, heq⟩ := adiciona_adjacentes_laco_pares gp vertice
    (2 * ((pre ++ (t, w) :: pos).length : Int)) m pre (args_de_pares ((t, w) :: pos)) 0 m vold
    rfl (fun _ => rfl) hvold
    (fun pr hpr => procura_vertice_presente m gp g pr.1 hg hv (hpre pr hpr)) (by omega)
  have hnone := procura_vertice_ausente m gp g t hg hv ht
  have hnone1 : procura_vertice (some gp) t
      { m with vert := (m.vert.set vertice { vold with arestas := vold.arestas ++ novas }) }
      = .ok none := by
    rw [procura_vertice_congr m
      { m with vert := (m.vert.set vertice { vold with arestas := vold.arestas ++ novas }) }
      (some gp) t rfl
      (fun p => vertice_get_id_set m vertice vold
        { vold with arestas := vold.arestas ++ novas } p hvold rfl)]
    exact hnone
  have hx : (0 : Int) + 2 * (pre.length : Int) < 2 * ((pre ++ (t, w) :: pos).length : Int) := by
    omega
  refine ⟨{ m with vert := (m.vert.set vertice { vold with arestas := vold.arestas ++ novas }) },
    novas, ?_, ?_, hfa, ?_⟩
  · unfold adiciona_adjacentes
    rw [args_de_pares_append, heq]
    simp only [args_de_pares, adiciona_adjacentes_laco, hx, if_true, hnone1]
  · simp [vertice_get_arestas, List.getElem?_set_self hlt]
  · intro hnil
    subst hnil
    cases hfa
    have : ({ vold with arestas := vold.arestas ++ [] } : vertice_t) = vold := by simp
    rw [this, set_mesmo m.vert vertice vold hvold]

theorem adiciona_adjacentes_alvo_ausente_witness :
    mem_quatro.grafos[0]? = some { id := 0, vertices := [0, 1, 2, 3] } ∧
    (∀ p ∈ [0, 1, 2, 3], p < mem_quatro.vert.length) ∧
    mem_quatro.vert[0]? = some { id := 1, arestas := [], visitado := false } ∧
    (∀ pr ∈ ([] : List (Int × Int)), ∃ p ∈ [0, 1, 2, 3], vertice_get_id mem_quatro p = .ok pr.1) ∧
    (∀ p ∈ [0, 1, 2, 3], vertice_get_id mem_quatro p ≠ .ok 7) ∧
    ∃ m1 novas,
      adiciona_adjacentes (some 0) 0 (2 * ((([] : List (Int × Int)) ++ (7, 5) :: []).length : Int))
          (args_de_pares ([] ++ (7, 5) :: [])) mem_quatro
        = (.error .sucessor_nao_encontrado, m1) ∧
      vertice_get_arestas m1 0 = .ok ([] ++ novas) ∧
      List.Forall₂ (fun (pr : Int × Int) (a : arestas_t) => a.fonte = 0 ∧
        procura_vertice (some 0) pr.1 mem_quatro = .ok (some a.dest) ∧ a.peso = pr.2) [] novas ∧
      (([] : List (Int × Int)) = [] → m1 = mem_quatro) :=
  have ht : ∀ p ∈ [0, 1, 2, 3], vertice_get_id mem_quatro p ≠ .ok 7 := by
    intro p hp
    simp only [List.mem_cons, List.mem_singleton, List.not_mem_nil, or_false] at hp
    rcases hp with h | h | h | h <;> subst h <;> intro hc <;> cases hc
  ⟨rfl, by decide, rfl, by simp, ht,
    adiciona_adjacentes_alvo_ausente mem_quatro 0 { id := 0, vertices := [0, 1, 2, 3] } 0
      { id := 1, arestas := [], visitado := false } [] [] 7 5 rfl (by decide) rfl (by simp) ht⟩

/-! ### The vertex ids of a reachable graph -/

theorem adiciona_aresta_conserva (vertice : Nat) (aresta : arestas_t) (m : Mem) :
    (adiciona_aresta vertice aresta m).2.grafos = m.grafos ∧
    (adiciona_aresta vertice aresta m).2.vert.length = m.vert.length ∧
    ∀ p, vertice_get_id (adiciona_aresta vertice aresta m).2 p = vertice_get_id m p := by
  unfold adiciona_aresta
  cases h : m.vert[vertice]? with
  | none => simp
  | some v =>
    refine ⟨rfl, by simp, ?_⟩
    intro p
    exact vertice_get_id_set m vertice v _ p h rfl

/-- Whatever its outcome, `adiciona_adjacentes` leaves the graphs, the number
of vertices and the id of every vertex as they were. -/
theorem adiciona_adjacentes_laco_conserva (grafo : Option Nat) (vertice : Nat) (n : Int) :
    ∀ (k : Nat) (args : List Int) (x : Int) (m : Mem), args.length ≤ k →
      (adiciona_adjacentes_laco grafo vertice n args x m).2.grafos = m.grafos ∧
      (adiciona_adjacentes_laco grafo vertice n args x m).2.vert.length = m.vert.length ∧
      ∀ p, vertice_get_id (adiciona_adjacentes_laco grafo vertice n args x m).2 p
        = vertice_get_id m p := by
  intro k
  induction k with
  | zero =>
    intro args x m hk
    have : args = [] := List.length_eq_zero.mp (Nat.le_zero.mp hk)
    subst this
    unfold adiciona_adjacentes_laco
    split <;> simp
  | succ k ih =>
    intro args x m hk
    match args with
    | [] =>
      unfold adiciona_adjacentes_laco
      split <;> simp
    | [a] =>
      unfold adiciona_adjacentes_laco
      split <;> simp
    | id_sucessor :: peso :: resto =>
      unfold adiciona_adjacentes_laco
      by_cases hx : x < n
      · simp only [hx, if_true]
        cases hp : procura_vertice grafo id_sucessor m with
        | error e => simp
        | ok r =>
          cases r with
          | none => simp
          | some sucessor =>
            simp only
            have hc := adiciona_aresta_conserva vertice (cria_aresta vertice sucessor peso) m
            cases ha : adiciona_aresta vertice (cria_aresta vertice sucessor peso) m with
            | mk r1 m1 =>
              rw [ha] at hc
              cases r1 with
              | error e => exact hc
              | ok u =>
                simp only
                have hrec := ih resto (x + 2) m1 (by simp at hk; omega)
                refine ⟨hrec.1.trans hc.1, hrec.2.1.trans hc.2.1, ?_⟩
                intro p
                rw [hrec.2.2 p, hc.2.2 p]
      · simp [hx]

theorem grafo_adicionar_vertice_ok_inv (grafo : Option Nat) (id : Int) (m m1 : Mem) (v : Nat)
    (h : grafo_adicionar_vertice grafo id m = (.ok v, m1)) :
    ∃ g2 gr2, grafo = some g2 ∧ m.grafos[g2]? = some gr2 ∧
      procura_vertice_laco m id gr2.vertices = .ok none ∧
      v = m.vert.length ∧
      m1.vert = m.vert ++ [{ id := id, arestas := [], visitado := false }] ∧
      m1.grafos = m.grafos.set g2 { gr2 with vertices := gr2.vertices ++ [v] } := by
  unfold grafo_adicionar_vertice at h
  cases grafo with
  | none => simp at h
  | some g2 =>
    simp only at h
    cases hg2 : m.grafos[g2]? with
    | none => simp [procura_vertice, hg2] at h
    | some gr2 =>
      rw [procura_vertice_laco_eq m g2 gr2 id hg2] at h
      cases hp : procura_vertice_laco m id gr2.vertices with
      | error e => simp [hp] at h
      | ok r =>
        cases r with
        | some s => simp [hp] at h
        | none =>
          simp only [hp, cria_vertice, add_cauda_vertices, hg2, Prod.mk.injEq,
            Except.ok.injEq] at h
          obtain ⟨h1, h2⟩ := h
          refine ⟨g2, gr2, rfl, hg2, hp, h1.symm, ?_, ?_⟩
          · rw [← h2]
          · rw [← h2, h1]

/-- C2: in every memory reachable from the `cria_grafo` call that made the
graph, by successful `grafo_adicionar_vertice` and `adiciona_adjacentes` calls,
the graph exists, none of its vertex pointers dangles, and no two entries of
its vertex list have the same id. -/
theorem alcancavel_ids_unicos (gp : Nat) (m : Mem) (h : alcancavel gp m) :
    ∃ g, m.grafos[gp]? = some g ∧ (∀ p ∈ g.vertices, p < m.vert.length) ∧
      List.Pairwise (fun p q => vertice_get_id m p ≠ vertice_get_id m q) g.vertices := by
  induction h with
  | cria id m0 h =>
    refine ⟨{ id := id, vertices := [] }, ?_, by simp, List.Pairwise.nil⟩
    rw [← h]
    simp [cria_grafo]
  | vertice m m1 grafo id v _ hc ih =>
    obtain ⟨g, hg, hv, hpw⟩ := ih
    obtain ⟨g2, gr2, _, hg2, hnone, hvl, hvert, hgraf⟩ :=
      grafo_adicionar_vertice_ok_inv grafo id m m1 v hc
    have hids : ∀ p ∈ g.vertices, vertice_get_id m1 p = vertice_get_id m p :=
      fun p hp => vertice_get_id_append m m1 _ p (hv p hp) hvert
    have hvalid : ∀ p ∈ g.vertices, p < m1.vert.length := by
      intro p hp
      have := hv p hp
      rw [hvert]
      simp
      omega
    have hpw1 : List.Pairwise (fun p q => vertice_get_id m1 p ≠ vertice_get_id m1 q)
        g.vertices := by
      refine List.Pairwise.imp_of_mem ?_ hpw
      intro p q hp hq hne
      rw [hids p hp, hids q hq]
      exact hne
    by_cases hgp : g2 = gp
    · subst hgp
      have hgg : gr2 = g := Option.some.inj (hg2.symm.trans hg)
      subst hgg
      have hlt : g2 < m.grafos.length := (List.getElem?_eq_some.mp hg).1
      refine ⟨{ gr2 with vertices := gr2.vertices ++ [v] }, ?_, ?_, ?_⟩
      · rw [hgraf, List.getElem?_set_self hlt]
      · intro p hp
        rcases List.mem_append.mp hp with hp | hp
        · exact hvalid p hp
        · rw [List.mem_singleton.mp hp, hvl, hvert]
          simp
      · refine List.pairwise_append.mpr ⟨hpw1, List.pairwise_singleton _ _, ?_⟩
        intro p hp q hq
        rw [List.mem_singleton.mp hq, hids p hp]
        have hnew : vertice_get_id m1 v = .ok id := by
          unfold vertice_get_id
          rw [hvert, hvl]
          simp
        rw [hnew]
        exact procura_vertice_laco_none_inv m id gr2.vertices hnone p hp
    · refine ⟨g, ?_, hvalid, hpw1⟩
      rw [hgraf, List.getElem?_set_ne hgp]
      exact hg
  | adjacentes m m1 grafo vertice n args _ hc ih =>
    obtain ⟨g, hg, hv, hpw⟩ := ih
    have hcons := adiciona_adjacentes_laco_conserva grafo vertice n args.length args 0 m
      (Nat.le_refl _)
    unfold adiciona_adjacentes at hc
    rw [hc] at hcons
    obtain ⟨h1, h2, h3⟩ := hcons
    refine ⟨g, by rw [h1]; exact hg, ?_, ?_⟩
    · intro p hp
      rw [h2]
      exact hv p hp
    · refine List.Pairwise.imp ?_ hpw
      intro p q hne
      rw [h3 p, h3 q]
      exact hne

theorem alcancavel_ids_unicos_witness :
    alcancavel 0 (grafo_adicionar_vertice (some 0) 7 (cria_grafo 0 mem_vazia).2).2 ∧
    ∃ g, (grafo_adicionar_vertice (some 0) 7 (cria_grafo 0 mem_vazia).2).2.grafos[0]? = some g ∧
      (∀ p ∈ g.vertices,
        p < (grafo_adicionar_vertice (some 0) 7 (cria_grafo 0 mem_vazia).2).2.vert.length) ∧
      List.Pairwise (fun p q =>
        vertice_get_id (grafo_adicionar_vertice (some 0) 7 (cria_grafo 0 mem_vazia).2).2 p
          ≠ vertice_get_id (grafo_adicionar_vertice (some 0) 7 (cria_grafo 0 mem_vazia).2).2 q)
        g.vertices :=
  have h : alcancavel 0 (grafo_adicionar_vertice (some 0) 7 (cria_grafo 0 mem_vazia).2).2 :=
    alcancavel.vertice (cria_grafo 0 mem_vazia).2 _ (some 0) 7 0
      (alcancavel.cria 0 mem_vazia rfl) rfl
  ⟨h, alcancavel_ids_unicos 0 _ h⟩

/-! ### exportar_grafo_dot -/

theorem obter_aresta_eq (m : Mem) (p k : Nat) :
    obter_aresta m (p, k) = (arestas_de m p)[k]? := by
  unfold obter_aresta arestas_de
  cases m.vert[p]? <;> simp

theorem mesma_estrutura_refl (m : Mem) : mesma_estrutura m m := ⟨rfl, rfl⟩

theorem mesma_estrutura_trans (m0 m1 m2 : Mem) (h1 : mesma_estrutura m0 m1)
    (h2 : mesma_estrutura m1 m2) : mesma_estrutura m0 m2 :=
  ⟨h2.1.trans h1.1, h2.2.trans h1.2⟩

theorem mesma_estrutura_vert (m0 m : Mem) (h : mesma_estrutura m0 m) (p : Nat) :
    (m.vert[p]?).map limpa_vertice = (m0.vert[p]?).map limpa_vertice := by
  have := congrArg (fun l => l[p]?) h.2
  simpa [List.getElem?_map] using this

theorem mesma_estrutura_length (m0 m : Mem) (h : mesma_estrutura m0 m) :
    m.vert.length = m0.vert.length := by
  have := congrArg List.length h.2
  simpa using this

theorem mesma_estrutura_id (m0 m : Mem) (h : mesma_estrutura m0 m) (p : Nat) :
    vertice_get_id m p = vertice_get_id m0 p := by
  have hp := mesma_estrutura_vert m0 m h p
  unfold vertice_get_id
  cases h1 : m.vert[p]? with
  | none =>
    cases h0 : m0.vert[p]? with
    | none => rfl
    | some v0 => simp [h1, h0] at hp
  | some v =>
    cases h0 : m0.vert[p]? with
    | none => simp [h1, h0] at hp
    | some v0 =>
      simp only [h1, h0, Option.map_some', Option.some.injEq] at hp
      have := congrArg vertice_t.id hp
      simp only [limpa_vertice] at this
      simp [this]

theorem mesma_estrutura_arestas (m0 m : Mem) (h : mesma_estrutura m0 m) (p : Nat) :
    (arestas_de m p).map (fun a => ({ a with status := .NAO_EXPORTADA } : arestas_t))
      = (arestas_de m0 p).map (fun a => ({ a with status := .NAO_EXPORTADA } : arestas_t)) := by
  have hp := mesma_estrutura_vert m0 m h p
  unfold arestas_de
  cases h1 : m.vert[p]? with
  | none =>
    cases h0 : m0.vert[p]? with
    | none => rfl
    | some v0 => simp [h1, h0] at hp
  | some v =>
    cases h0 : m0.vert[p]? with
    | none => simp [h1, h0] at hp
    | some v0 =>
      simp only [h1, h0, Option.map_some', Option.some.injEq] at hp
      have := congrArg vertice_t.arestas hp
      simpa [limpa_vertice] using this

/-- In memories of the same structure an edge pointer refers to edges with the
same source, target and weight. -/
theorem mesma_estrutura_aresta (m0 m : Mem) (h : mesma_estrutura m0 m) (p k : Nat)
    (a0 : arestas_t) (h0 : (arestas_de m0 p)[k]? = some a0) :
    ∃ a, (arestas_de m p)[k]? = some a ∧ a.dest = a0.dest ∧ a.peso = a0.peso ∧
      a.fonte = a0.fonte := by
  have hmap := congrArg (fun l => l[k]?) (mesma_estrutura_arestas m0 m h p)
  simp only [List.getElem?_map, h0, Option.map_some'] at hmap
  cases ha : (arestas_de m p)[k]? with
  | none => simp [ha] at hmap
  | some a =>
    simp only [ha, Option.map_some', Option.some.injEq] at hmap
    simp only [arestas_t.mk.injEq, and_true] at hmap
    exact ⟨a, rfl, hmap.2.1, hmap.2.2, hmap.1⟩

theorem procurar_adjacente_laco_map (adjacente : Nat) (l1 l2 : List arestas_t) (k : Nat)
    (h : l1.map (fun a => a.dest) = l2.map (fun a => a.dest)) :
    procurar_adjacente_laco adjacente l1 k = procurar_adjacente_laco adjacente l2 k := by
  induction l1 generalizing l2 k with
  | nil =>
    cases l2 with
    | nil => rfl
    | cons b r => simp at h
  | cons a r ih =>
    cases l2 with
    | nil => simp at h
    | cons b r2 =>
      simp only [List.map_cons, List.cons.injEq] at h
      simp only [procurar_adjacente_laco, h.1, ih r2 (k + 1) h.2]

theorem mesma_estrutura_dests (m0 m : Mem) (h : mesma_estrutura m0 m) (p : Nat) :
    (arestas_de m p).map (fun a => a.dest) = (arestas_de m0 p).map (fun a => a.dest) := by
  have := congrArg (List.map (fun a => a.dest)) (mesma_estrutura_arestas m0 m h p)
  simpa [List.map_map, Function.comp_def] using this

theorem arestas_de_set (m : Mem) (p q : Nat) (v1 : vertice_t) (hp : p < m.vert.length) :
    arestas_de { m with vert := m.vert.set p v1 } q
      = if q = p then v1.arestas else arestas_de m q := by
  unfold arestas_de
  by_cases hq : q = p
  · subst hq
    simp [List.getElem?_set_self hp]
  · simp [hq, List.getElem?_set_ne (Ne.symm hq)]

/-- Marking a live edge returns, keeps the structure, and changes the marker of
that edge only. -/
theorem aresta_set_status_some (m : Mem) (p k : Nat) (a : arestas_t) (st : status_aresta_t)
    (ha : (arestas_de m p)[k]? = some a) :
    ∃ m1, aresta_set_status (some (p, k)) st m = (.ok (), m1) ∧ mesma_estrutura m m1 ∧
      ∀ t, status_de m1 t = if t = (p, k) then some st else status_de m t := by
  unfold arestas_de at ha
  cases hv : m.vert[p]? with
  | none => simp [hv] at ha
  | some v =>
    simp only [hv] at ha
    have hp : p < m.vert.length := (List.getElem?_eq_some.mp hv).1
    have hk : k < v.arestas.length := (List.getElem?_eq_some.mp ha).1
    refine ⟨{ m with vert := (m.vert.set p
      { v with arestas := v.arestas.set k { a with status := st } }) }, ?_, ?_, ?_⟩
    · simp only [aresta_set_status, hv, ha]
    · refine ⟨rfl, ?_⟩
      apply List.ext_getElem?
      intro j
      simp only [List.getElem?_map]
      by_cases hj : p = j
      · subst hj
        simp only [List.getElem?_set_self hp, hv, Option.map_some', Option.some.injEq,
          limpa_vertice, vertice_t.mk.injEq, true_and, and_true]
        apply List.ext_getElem?
        intro i
        simp only [List.getElem?_map]
        by_cases hi : k = i
        · subst hi
          simp [List.getElem?_set_self hk, ha]
        · simp [List.getElem?_set_ne hi]
      · simp only [List.getElem?_set_ne hj]
    · intro t
      obtain ⟨q, j⟩ := t
      unfold status_de
      simp only [arestas_de_set m p q _ hp]
      by_cases hq : q = p
      · subst hq
        have harestas : arestas_de m q = v.arestas := by simp [arestas_de, hv]
        by_cases hj : j = k
        · subst hj
          simp [List.getElem?_set_self hk]
        · simp [hj, List.getElem?_set_ne (Ne.symm hj), harestas]
      · simp [hq]

theorem linhas_aresta_append (f1 f2 : List linha_dot) :
    linhas_aresta (f1 ++ f2) = linhas_aresta f1 ++ linhas_aresta f2 := by
  induction f1 with
  | nil => rfl
  | cons l r ih =>
    cases l <;> simp [linhas_aresta, ih]

theorem vertice_get_id_ok (m : Mem) (p : Nat) (i : Int) (h : vertice_get_id m p = .ok i) :
    p < m.vert.length := by
  unfold vertice_get_id at h
  cases hv : m.vert[p]? with
  | none => simp [hv] at h
  | some v => exact (List.getElem?_eq_some.mp hv).1

theorem procurar_adjacente_valido (m : Mem) (q p : Nat) (hq : q < m.vert.length) :
    procurar_adjacente m q p
      = .ok ((procurar_adjacente_laco p (arestas_de m q) 0).map (fun c => (q, c))) := by
  unfold procurar_adjacente arestas_de
  rw [List.getElem?_eq_getElem hq]
  simp only
  cases procurar_adjacente_laco p (m.vert[q]).arestas 0 <;> rfl

/-- What `procurar_adjacente_laco` returns is the position of an edge to the
vertex searched, and no edge at an earlier position goes there. -/
theorem procurar_adjacente_laco_some (adjacente : Nat) (l : List arestas_t) (k0 c : Nat)
    (h : procurar_adjacente_laco adjacente l k0 = some c) :
    k0 ≤ c ∧ ∃ b, l[c - k0]? = some b ∧ b.dest = adjacente ∧
      ∀ j b1, j < c - k0 → l[j]? = some b1 → b1.dest ≠ adjacente := by
  induction l generalizing k0 with
  | nil => simp [procurar_adjacente_laco] at h
  | cons a r ih =>
    unfold procurar_adjacente_laco at h
    by_cases ha : a.dest = adjacente
    · simp only [ha, if_true, Option.some.injEq] at h
      subst h
      refine ⟨Nat.le_refl _, a, by simp, ha, ?_⟩
      intro j b1 hj
      omega
    · simp only [ha, if_false] at h
      obtain ⟨h1, b, h2, h3, h4⟩ := ih (k0 + 1) h
      refine ⟨by omega, b, ?_, h3, ?_⟩
      · have : c - k0 = (c - (k0 + 1)) + 1 := by omega
        rw [this, List.getElem?_cons_succ]
        exact h2
      · intro j b1 hj hb1
        cases j with
        | zero =>
          simp only [List.getElem?_cons_zero, Option.some.injEq] at hb1
          rw [← hb1]
          exact ha
        | succ j =>
          rw [List.getElem?_cons_succ] at hb1
          exact h4 j b1 (by omega) hb1

theorem procurar_adjacente_laco_none (adjacente : Nat) (l : List arestas_t) (k0 : Nat)
    (h : ∀ b ∈ l, b.dest ≠ adjacente) :
    procurar_adjacente_laco adjacente l k0 = none := by
  induction l generalizing k0 with
  | nil => rfl
  | cons a r ih =>
    unfold procurar_adjacente_laco
    simp only [h a (List.mem_cons_self _ _), if_false]
    exact ih (k0 + 1) (fun b hb => h b (List.mem_cons_of_mem _ hb))

theorem aresta_get_status_eq (m : Mem) (p k : Nat) (a : arestas_t)
    (ha : (arestas_de m p)[k]? = some a) : aresta_get_status m (p, k) = .ok a.status := by
  simp [aresta_get_status, obter_aresta_eq, ha]

theorem aresta_get_adjacente_eq (m : Mem) (p k : Nat) (a : arestas_t)
    (ha : (arestas_de m p)[k]? = some a) : aresta_get_adjacente m (p, k) = .ok a.dest := by
  simp [aresta_get_adjacente, obter_aresta_eq, ha]

theorem aresta_get_peso_eq (m : Mem) (p k : Nat) (a : arestas_t)
    (ha : (arestas_de m p)[k]? = some a) : aresta_get_peso m (some (p, k)) = .ok a.peso := by
  simp [aresta_get_peso, obter_aresta_eq, ha]

/-- One turn of the inner loop of `exportar_grafo_dot` on a live edge node:
either the edge is already marked and nothing happens, or the edge and the
edge found by the reciprocal lookup (if any) get marked and one line is
written. -/
theorem exportar_no_arest_passo (m0 m : Mem) (p k : Nat) (a0 : arestas_t) (idp idq : Int)
    (file : List linha_dot) (hm : mesma_estrutura m0 m)
    (ha0 : (arestas_de m0 p)[k]? = some a0)
    (hidp : vertice_get_id m0 p = .ok idp) (hidq : vertice_get_id m0 a0.dest = .ok idq) :
    ∃ file1 m1, exportar_no_arest p k m file = (.ok file1, m1) ∧ mesma_estrutura m0 m1 ∧
      ((status_de m (p, k) = some .EXPORTADA ∧ file1 = file ∧ m1 = m) ∨
       (status_de m (p, k) = some .NAO_EXPORTADA ∧ file1 = file ++ [.aresta idp idq a0.peso] ∧
         ∀ t, status_de m1 t =
           if t = (p, k) ∨ some t = (procurar_adjacente_laco p (arestas_de m0 a0.dest) 0).map
                (fun c => (a0.dest, c))
           then some .EXPORTADA else status_de m t)) := by
  obtain ⟨a, ha, hdest, hpeso, _⟩ := mesma_estrutura_aresta m0 m hm p k a0 ha0
  have hst : status_de m (p, k) = some a.status := by simp [status_de, ha]
  cases hs : a.status with
  | EXPORTADA =>
    refine ⟨file, m, ?_, hm, Or.inl ⟨by rw [hst, hs], rfl, rfl⟩⟩
    simp only [exportar_no_arest, aresta_get_status_eq m p k a ha, hs]
  | NAO_EXPORTADA =>
    obtain ⟨m1, hset1, hm1, hst1⟩ := aresta_set_status_some m p k a .EXPORTADA ha
    have hm01 := mesma_estrutura_trans m0 m m1 hm hm1
    obtain ⟨a1, ha1, hdest1, _, _⟩ := mesma_estrutura_aresta m0 m1 hm01 p k a0 ha0
    have hq1 : a0.dest < m1.vert.length := by
      rw [mesma_estrutura_length m0 m1 hm01]
      exact vertice_get_id_ok m0 a0.dest idq hidq
    have hproc : procurar_adjacente m1 a0.dest p
        = .ok ((procurar_adjacente_laco p (arestas_de m0 a0.dest) 0).map
            (fun c => (a0.dest, c))) := by
      rw [procurar_adjacente_valido m1 a0.dest p hq1,
        procurar_adjacente_laco_map p _ _ 0 (mesma_estrutura_dests m0 m1 hm01 a0.dest)]
    have hfim : ∀ (m2 : Mem),
        aresta_set_status ((procurar_adjacente_laco p (arestas_de m0 a0.dest) 0).map
            (fun c => (a0.dest, c))) .EXPORTADA m1 = (.ok (), m2) → mesma_estrutura m0 m2 →
        exportar_no_arest p k m file = (.ok (file ++ [.aresta idp idq a0.peso]), m2) := by
      intro m2 hset2 hm02
      obtain ⟨a2, ha2, _, hpeso2, _⟩ := mesma_estrutura_aresta m0 m2 hm02 p k a0 ha0
      simp only [exportar_no_arest, aresta_get_status_eq m p k a ha, hs, hset1,
        aresta_get_adjacente_eq m1 p k a1 ha1, hdest1, hproc, hset2,
        aresta_get_peso_eq m2 p k a2 ha2, hpeso2, mesma_estrutura_id m0 m2 hm02, hidp, hidq]
    cases hc : procurar_adjacente_laco p (arestas_de m0 a0.dest) 0 with
    | none =>
      rw [hc] at hfim
      refine ⟨_, m1, hfim m1 rfl hm01, hm01, Or.inr ⟨by rw [hst, hs], rfl, ?_⟩⟩
      intro t
      rw [hst1 t]
      simp
    | some c =>
      rw [hc] at hfim
      have hc1 : procurar_adjacente_laco p (arestas_de m1 a0.dest) 0 = some c := by
        rw [procurar_adjacente_laco_map p _ _ 0 (mesma_estrutura_dests m0 m1 hm01 a0.dest)]
        exact hc
      obtain ⟨_, b, hb, _, _⟩ := procurar_adjacente_laco_some p _ 0 c hc1
      obtain ⟨m2, hset2, hm12, hst2⟩ :=
        aresta_set_status_some m1 a0.dest c b .EXPORTADA (by simpa using hb)
      have hm02 := mesma_estrutura_trans m0 m1 m2 hm01 hm12
      refine ⟨_, m2, hfim m2 hset2 hm02, hm02, Or.inr ⟨by rw [hst, hs], rfl, ?_⟩⟩
      intro t
      rw [hst2 t, hst1 t]
      by_cases h1 : t = (a0.dest, c)
      · simp [h1]
      · by_cases h2 : t = (p, k)
        · simp [h2]
        · have h3 : ¬ (some t = some (a0.dest, c)) := fun h => h1 (Option.some.inj h)
          simp [h1, h2]

theorem exportar_no_arest_fase (m0 : Mem) (vs : List Nat) (T : Nat × Nat → Prop)
    (D : Int × Int × Int → Bool) (w : Int) (hc : cenario_exportar m0 vs T D w)
    (p k : Nat) (a0 : arestas_t) (hp : p ∈ vs) (ha0 : (arestas_de m0 p)[k]? = some a0)
    (b : Bool) (m : Mem) (file : List linha_dot) (hf : fase_exportar m0 T D w b m file) :
    ∃ file1 m1, exportar_no_arest p k m file = (.ok file1, m1) ∧
      ((b = true ∨ T (p, k)) → fase_exportar m0 T D w true m1 file1) ∧
      (¬ T (p, k) → fase_exportar m0 T D w b m1 file1) := by
  obtain ⟨idp, hidp⟩ := hc.vivos p hp
  obtain ⟨idq, hidq⟩ := hc.alvos p hp a0 (List.getElem?_mem ha0)
  obtain ⟨hm, hT, hcount, hpeso⟩ := hf
  obtain ⟨file1, m1, hrun, hm1, hcase⟩ :=
    exportar_no_arest_passo m0 m p k a0 idp idq file hm ha0 hidp hidq
  refine ⟨file1, m1, hrun, ?_, ?_⟩
  · intro hb
    have hbT : b = true ∨ (b = false ∧ T (p, k)) := by
      cases b with
      | true => exact Or.inl rfl
      | false =>
        rcases hb with h | h
        · exact absurd h (by simp)
        · exact Or.inr ⟨rfl, h⟩
    rcases hcase with ⟨hst, hfile, hmm⟩ | ⟨hst, hfile, hstat⟩
    · subst hfile
      subst hmm
      rcases hbT with h | ⟨h, hTpk⟩
      · subst h
        exact ⟨hm, hT, hcount, hpeso⟩
      · subst h
        have := hT (p, k) hTpk
        rw [hst] at this
        simp at this
    · rcases hbT with h | ⟨h, hTpk⟩
      · subst h
        by_cases hTpk : T (p, k)
        · have := hT (p, k) hTpk
          rw [hst] at this
          simp at this
        · obtain ⟨hD, hcontra⟩ := hc.fora p hp k a0 idp idq ha0 hTpk hidp hidq
          refine ⟨hm1, ?_, ?_, ?_⟩
          · intro t ht
            rw [hstat t]
            have h1 : t ≠ (p, k) := fun h => hTpk (h ▸ ht)
            have h2 : ¬ (some t = (procurar_adjacente_laco p (arestas_de m0 a0.dest) 0).map
                (fun c => (a0.dest, c))) := by
              intro h
              cases hcc : procurar_adjacente_laco p (arestas_de m0 a0.dest) 0 with
              | none => simp [hcc] at h
              | some c =>
                simp only [hcc, Option.map_some', Option.some.injEq] at h
                exact hcontra c hcc (h ▸ ht)
            simp only [h1, h2, or_self, if_false]
            exact hT t ht
          · rw [hfile, linhas_aresta_append]
            simp only [linhas_aresta, List.countP_append, List.countP_cons, List.countP_nil, hD]
            simpa using hcount
          · intro l hl hDl
            rw [hfile, linhas_aresta_append] at hl
            rcases List.mem_append.mp hl with hl | hl
            · exact hpeso l hl hDl
            · simp only [linhas_aresta, List.mem_singleton] at hl
              rw [hl, hD] at hDl
              simp at hDl
      · subst h
        obtain ⟨hD, hw, hgrupo⟩ := hc.dentro p hp k a0 idp idq ha0 hTpk hidp hidq
        refine ⟨hm1, ?_, ?_, ?_⟩
        · intro t ht
          rw [hstat t]
          simp only [hgrupo t ht, if_true]
        · rw [hfile, linhas_aresta_append]
          simp only [linhas_aresta, List.countP_append, List.countP_cons, List.countP_nil, hD]
          simpa using hcount
        · intro l hl hDl
          rw [hfile, linhas_aresta_append] at hl
          rcases List.mem_append.mp hl with hl | hl
          · exact hpeso l hl hDl
          · simp only [linhas_aresta, List.mem_singleton] at hl
            rw [hl]
            exact hw
  · intro hTpk
    rcases hcase with ⟨hst, hfile, hmm⟩ | ⟨hst, hfile, hstat⟩
    · subst hfile
      subst hmm
      exact ⟨hm, hT, hcount, hpeso⟩
    · obtain ⟨hD, hcontra⟩ := hc.fora p hp k a0 idp idq ha0 hTpk hidp hidq
      refine ⟨hm1, ?_, ?_, ?_⟩
      · intro t ht
        rw [hstat t]
        have h1 : t ≠ (p, k) := fun h => hTpk (h ▸ ht)
        have h2 : ¬ (some t = (procurar_adjacente_laco p (arestas_de m0 a0.dest) 0).map
            (fun c => (a0.dest, c))) := by
          intro h
          cases hcc : procurar_adjacente_laco p (arestas_de m0 a0.dest) 0 with
          | none => simp [hcc] at h
          | some c =>
            simp only [hcc, Option.map_some', Option.some.injEq] at h
            exact hcontra c hcc (h ▸ ht)
        simp only [h1, h2, or_self, if_false]
        exact hT t ht
      · rw [hfile, linhas_aresta_append]
        simp only [linhas_aresta, List.countP_append, List.countP_cons, List.countP_nil, hD]
        simpa using hcount
      · intro l hl hDl
        rw [hfile, linhas_aresta_append] at hl
        rcases List.mem_append.mp hl with hl | hl
        · exact hpeso l hl hDl
        · simp only [linhas_aresta, List.mem_singleton] at hl
          rw [hl, hD] at hDl
          simp at hDl

theorem exportar_arestas_laco_fase (m0 : Mem) (vs : List Nat) (T : Nat × Nat → Prop)
    (D : Int × Int × Int → Bool) (w : Int) (hc : cenario_exportar m0 vs T D w)
    (p : Nat) (hp : p ∈ vs) :
    ∀ (ks : List Nat), (∀ k ∈ ks, k < (arestas_de m0 p).length) →
      ∀ (b : Bool) (m : Mem) (file : List linha_dot), fase_exportar m0 T D w b m file →
      ∃ file1 m1, exportar_arestas_laco p ks m file = (.ok file1, m1) ∧
        ((b = true ∨ ∃ k ∈ ks, T (p, k)) → fase_exportar m0 T D w true m1 file1) ∧
        ((∀ k ∈ ks, ¬ T (p, k)) → fase_exportar m0 T D w b m1 file1) := by
  intro ks
  induction ks with
  | nil =>
    intro _ b m file hf
    refine ⟨file, m, rfl, ?_, fun _ => hf⟩
    rintro (h | ⟨k, hk, _⟩)
    · subst h
      exact hf
    · simp at hk
  | cons k ks ih =>
    intro hks b m file hf
    have hk : k < (arestas_de m0 p).length := hks k (List.mem_cons_self _ _)
    have ha0 : (arestas_de m0 p)[k]? = some ((arestas_de m0 p)[k]) :=
      List.getElem?_eq_getElem hk
    obtain ⟨file1, m1, hrun, h1, h2⟩ :=
      exportar_no_arest_fase m0 vs T D w hc p k _ hp ha0 b m file hf
    have hks1 : ∀ j ∈ ks, j < (arestas_de m0 p).length :=
      fun j hj => hks j (List.mem_cons_of_mem _ hj)
    by_cases hb : b = true ∨ T (p, k)
    · obtain ⟨file2, m2, hrun2, h3, _⟩ := ih hks1 true m1 file1 (h1 hb)
      refine ⟨file2, m2, ?_, fun _ => h3 (Or.inl rfl), ?_⟩
      · simp only [exportar_arestas_laco, hrun, hrun2]
      · intro hno
        have hnk := hno k (List.mem_cons_self _ _)
        rcases hb with h | h
        · subst h
          exact h3 (Or.inl rfl)
        · exact absurd h hnk
    · have hb1 : ¬ b = true := fun h => hb (Or.inl h)
      have hnk : ¬ T (p, k) := fun h => hb (Or.inr h)
      obtain ⟨file2, m2, hrun2, h3, h4⟩ := ih hks1 b m1 file1 (h2 hnk)
      refine ⟨file2, m2, ?_, ?_, ?_⟩
      · simp only [exportar_arestas_laco, hrun, hrun2]
      · rintro (h | ⟨j, hj, hTj⟩)
        · exact absurd h hb1
        · rcases List.mem_cons.mp hj with hj | hj
          · subst hj
            exact absurd hTj hnk
          · exact h3 (Or.inr ⟨j, hj, hTj⟩)
      · intro hno
        exact h4 (fun j hj => hno j (List.mem_cons_of_mem _ hj))

theorem vertice_get_arestas_eq (m : Mem) (p : Nat) (i : Int) (h : vertice_get_id m p = .ok i) :
    vertice_get_arestas m p = .ok (arestas_de m p) := by
  unfold vertice_get_id at h
  unfold vertice_get_arestas arestas_de
  cases hv : m.vert[p]? with
  | none => simp [hv] at h
  | some v => rfl

theorem mesma_estrutura_arestas_length (m0 m : Mem) (h : mesma_estrutura m0 m) (p : Nat) :
    (arestas_de m p).length = (arestas_de m0 p).length := by
  have := congrArg List.length (mesma_estrutura_dests m0 m h p)
  simpa using this

theorem exportar_vertices_laco_fase (m0 : Mem) (vs : List Nat) (T : Nat × Nat → Prop)
    (D : Int × Int × Int → Bool) (w : Int) (hc : cenario_exportar m0 vs T D w) :
    ∀ (vs1 : List Nat), (∀ p ∈ vs1, p ∈ vs) →
      ∀ (b : Bool) (m : Mem) (file : List linha_dot), fase_exportar m0 T D w b m file →
      ∃ file1 m1, exportar_vertices_laco vs1 m file = (.ok file1, m1) ∧
        ((b = true ∨ ∃ p ∈ vs1, ∃ k, k < (arestas_de m0 p).length ∧ T (p, k)) →
          fase_exportar m0 T D w true m1 file1) ∧
        ((∀ p ∈ vs1, ∀ k, k < (arestas_de m0 p).length → ¬ T (p, k)) →
          fase_exportar m0 T D w b m1 file1) := by
  intro vs1
  induction vs1 with
  | nil =>
    intro _ b m file hf
    refine ⟨file, m, rfl, ?_, fun _ => hf⟩
    rintro (h | ⟨p, hp, _⟩)
    · subst h
      exact hf
    · simp at hp
  | cons p vs1 ih =>
    intro hsub b m file hf
    have hp : p ∈ vs := hsub p (List.mem_cons_self _ _)
    have hsub1 : ∀ q ∈ vs1, q ∈ vs := fun q hq => hsub q (List.mem_cons_of_mem _ hq)
    obtain ⟨idp, hidp⟩ := hc.vivos p hp
    have hidp1 : vertice_get_id m p = .ok idp := by
      rw [mesma_estrutura_id m0 m hf.1 p]
      exact hidp
    have hget := vertice_get_arestas_eq m p idp hidp1
    have hlen := mesma_estrutura_arestas_length m0 m hf.1 p
    obtain ⟨file1, m1, hrun, h1, h2⟩ := exportar_arestas_laco_fase m0 vs T D w hc p hp
      (List.range (arestas_de m p).length)
      (fun k hk => by rw [← hlen]; exact List.mem_range.mp hk) b m file hf
    by_cases hb : b = true ∨ ∃ k, k < (arestas_de m0 p).length ∧ T (p, k)
    · have hb1 : b = true ∨ ∃ k ∈ List.range (arestas_de m p).length, T (p, k) := by
        rcases hb with h | ⟨k, hk, hTk⟩
        · exact Or.inl h
        · exact Or.inr ⟨k, List.mem_range.mpr (by rw [hlen]; exact hk), hTk⟩
      obtain ⟨file2, m2, hrun2, h3, _⟩ := ih hsub1 true m1 file1 (h1 hb1)
      refine ⟨file2, m2, ?_, fun _ => h3 (Or.inl rfl), ?_⟩
      · simp only [exportar_vertices_laco, hget, hrun, hrun2]
      · intro hno
        rcases hb with h | ⟨k, hk, hTk⟩
        · subst h
          exact h3 (Or.inl rfl)
        · exact absurd hTk (hno p (List.mem_cons_self _ _) k hk)
    · have hb1 : ¬ b = true := fun h => hb (Or.inl h)
      have hnk : ∀ k ∈ List.range (arestas_de m p).length, ¬ T (p, k) := by
        intro k hk hTk
        exact hb (Or.inr ⟨k, by rw [← hlen]; exact List.mem_range.mp hk, hTk⟩)
      obtain ⟨file2, m2, hrun2, h3, h4⟩ := ih hsub1 b m1 file1 (h2 hnk)
      refine ⟨file2, m2, ?_, ?_, ?_⟩
      · simp only [exportar_vertices_laco, hget, hrun, hrun2]
      · rintro (h | ⟨q, hq, k, hk, hTk⟩)
        · exact absurd h hb1
        · rcases List.mem_cons.mp hq with hq | hq
          · subst hq
            exact absurd (Or.inr ⟨k, hk, hTk⟩) hb
          · exact h3 (Or.inr ⟨q, hq, k, hk, hTk⟩)
      · intro hno
        exact h4 (fun q hq => hno q (List.mem_cons_of_mem _ hq))

/-- The export followed for a group of edges: when the group is unmarked at the
start and one of its edges belongs to a vertex of the graph, the export
returns and the file has exactly one line of the group, with the weight of the
group. -/
theorem exportar_grafo_dot_grupo (m0 : Mem) (gp : Nat) (g : grafo_t) (f : String)
    (T : Nat × Nat → Prop) (D : Int × Int × Int → Bool) (w : Int)
    (hg : m0.grafos[gp]? = some g)
    (hc : cenario_exportar m0 g.vertices T D w)
    (hvazio : ∀ t, T t → status_de m0 t = some .NAO_EXPORTADA)
    (hvis : ∃ p ∈ g.vertices, ∃ k, k < (arestas_de m0 p).length ∧ T (p, k)) :
    ∃ file m1, exportar_grafo_dot (some f) (some gp) true m0 = (.ok file, m1) ∧
      (linhas_aresta file).countP D = 1 ∧
      ∀ l ∈ linhas_aresta file, D l = true → l.2.2 = w := by
  have hf0 : fase_exportar m0 T D w false m0 [.abre] :=
    ⟨mesma_estrutura_refl m0, hvazio, by simp [linhas_aresta], by simp [linhas_aresta]⟩
  obtain ⟨file1, m1, hrun, h1, _⟩ := exportar_vertices_laco_fase m0 g.vertices T D w hc
    g.vertices (fun _ h => h) false m0 [.abre] hf0
  obtain ⟨_, _, hcount, hpeso⟩ := h1 (Or.inr hvis)
  refine ⟨file1 ++ [.fecha], m1, ?_, ?_, ?_⟩
  · simp only [exportar_grafo_dot, hg, hrun]
    simp
  · rw [linhas_aresta_append]
    simpa [linhas_aresta] using hcount
  · intro l hl
    rw [linhas_aresta_append] at hl
    simp only [linhas_aresta, List.append_nil] at hl
    exact hpeso l hl

theorem procurar_adjacente_laco_none_inv (adjacente : Nat) (l : List arestas_t) (k0 : Nat)
    (h : procurar_adjacente_laco adjacente l k0 = none) :
    ∀ b ∈ l, b.dest ≠ adjacente := by
  induction l generalizing k0 with
  | nil => simp
  | cons a r ih =>
    unfold procurar_adjacente_laco at h
    by_cases ha : a.dest = adjacente
    · simp [ha] at h
    · simp only [ha, if_false] at h
      intro b hb
      rcases List.mem_cons.mp hb with hb | hb
      · rw [hb]
        exact ha
      · exact ih (k0 + 1) h b hb

/-- When the list has exactly one edge to the vertex searched, the lookup
returns its position. -/
theorem procurar_adjacente_laco_unica (adjacente : Nat) (l : List arestas_t) (j : Nat)
    (c : arestas_t) (hc : l[j]? = some c) (hdest : c.dest = adjacente)
    (hun : ∀ i b, l[i]? = some b → b.dest = adjacente → i = j) :
    procurar_adjacente_laco adjacente l 0 = some j := by
  cases h : procurar_adjacente_laco adjacente l 0 with
  | none =>
    exact absurd hdest (procurar_adjacente_laco_none_inv adjacente l 0 h c (List.getElem?_mem hc))
  | some i =>
    obtain ⟨_, b, hb, hbd, _⟩ := procurar_adjacente_laco_some adjacente l 0 i h
    rw [hun i b (by simpa using hb) hbd]

theorem status_de_eq (m : Mem) (p k : Nat) (a : arestas_t)
    (ha : (arestas_de m p)[k]? = some a) : status_de m (p, k) = some a.status := by
  simp [status_de, ha]

/-- On a graph without dangling pointers `exportar_grafo_dot` returns. -/
theorem exportar_grafo_dot_total (m : Mem) (gp : Nat) (g : grafo_t) (f : String)
    (hg : m.grafos[gp]? = some g)
    (hv : ∀ p ∈ g.vertices, p < m.vert.length)
    (hdest : ∀ p ∈ g.vertices, ∀ b ∈ arestas_de m p, b.dest < m.vert.length) :
    ∃ file m1, exportar_grafo_dot (some f) (some gp) true m = (.ok file, m1) := by
  have hc : cenario_exportar m g.vertices (fun _ => False) (fun _ => false) 0 := by
    refine ⟨?_, ?_, ?_, ?_⟩
    · intro p hp
      exact vertice_get_id_valido m p (hv p hp)
    · intro p hp b hb
      exact vertice_get_id_valido m b.dest (hdest p hp b hb)
    · intro p _ j b idp idq _ _ _ _
      exact ⟨rfl, fun _ _ h => h⟩
    · intro p _ j b idp idq _ h
      exact absurd h id
  have hf0 : fase_exportar m (fun _ => False) (fun _ => false) 0 false m [.abre] :=
    ⟨mesma_estrutura_refl m, fun _ h => absurd h id, by simp [linhas_aresta],
      by simp [linhas_aresta]⟩
  obtain ⟨file1, m1, hrun, _, _⟩ := exportar_vertices_laco_fase m g.vertices
    (fun _ => False) (fun _ => false) 0 hc g.vertices (fun _ h => h) false m [.abre] hf0
  refine ⟨file1 ++ [.fecha], m1, ?_⟩
  simp only [exportar_grafo_dot, hg, hrun]
  simp

/-- C7 (amended): in a graph without dangling pointers, whose edges point into
the graph and whose vertex ids are pairwise different, in which no edge is
marked exported, no vertex has two edges to the same target, and every edge
has an edge back with the same weight, `exportar_grafo_dot` returns and, for
every edge, the file has exactly one line between the ids of its two ends (in
either order); that line carries the weight of the edge. -/
theorem exportar_uma_linha_por_par (m : Mem) (gp : Nat) (g : grafo_t) (f : String)
    (hg : m.grafos[gp]? = some g)
    (hv : ∀ p ∈ g.vertices, p < m.vert.length)
    (hdest : ∀ p ∈ g.vertices, ∀ b ∈ arestas_de m p, b.dest ∈ g.vertices)
    (hids : ∀ p ∈ g.vertices, ∀ q ∈ g.vertices, vertice_get_id m p = vertice_get_id m q → p = q)
    (hvazio : ∀ p ∈ g.vertices, ∀ b ∈ arestas_de m p, b.status = .NAO_EXPORTADA)
    (hsimples : ∀ p ∈ g.vertices, ∀ (i j : Nat) (b c : arestas_t), (arestas_de m p)[i]? = some b →
      (arestas_de m p)[j]? = some c → b.dest = c.dest → i = j)
    (hsim : ∀ p ∈ g.vertices, ∀ b ∈ arestas_de m p,
      ∃ c ∈ arestas_de m b.dest, c.dest = p ∧ c.peso = b.peso) :
    ∃ file m1, exportar_grafo_dot (some f) (some gp) true m = (.ok file, m1) ∧
      ∀ p ∈ g.vertices, ∀ b ∈ arestas_de m p, ∀ idp idq,
        vertice_get_id m p = .ok idp → vertice_get_id m b.dest = .ok idq →
        (linhas_aresta file).countP (fun l =>
          decide ((l.1 = idp ∧ l.2.1 = idq) ∨ (l.1 = idq ∧ l.2.1 = idp))) = 1 ∧
        ∀ l ∈ linhas_aresta file,
          ((l.1 = idp ∧ l.2.1 = idq) ∨ (l.1 = idq ∧ l.2.1 = idp)) → l.2.2 = b.peso := by
  obtain ⟨file, m1, hrun⟩ := exportar_grafo_dot_total m gp g f hg hv
    (fun p hp b hb => hv _ (hdest p hp b hb))
  refine ⟨file, m1, hrun, ?_⟩
  intro p hp b hb idp idq hidp hidq
  obtain ⟨i, hbi⟩ := List.mem_iff_getElem?.mp hb
  have hq : b.dest ∈ g.vertices := hdest p hp b hb
  obtain ⟨c, hcmem, hcd, hcw⟩ := hsim p hp b hb
  obtain ⟨j, hcj⟩ := List.mem_iff_getElem?.mp hcmem
  have hc : cenario_exportar m g.vertices (fun t => t = (p, i) ∨ t = (b.dest, j))
      (fun l => decide ((l.1 = idp ∧ l.2.1 = idq) ∨ (l.1 = idq ∧ l.2.1 = idp))) b.peso := by
    refine ⟨?_, ?_, ?_, ?_⟩
    · intro r hr
      exact vertice_get_id_valido m r (hv r hr)
    · intro r hr e he
      exact vertice_get_id_valido m e.dest (hv _ (hdest r hr e he))
    · intro r hr n e idr ids he hnT hidr hids1
      have hed : e.dest ∈ g.vertices := hdest r hr e (List.getElem?_mem he)
      refine ⟨?_, ?_⟩
      · apply decide_eq_false
        rintro (⟨h1, h2⟩ | ⟨h1, h2⟩)
        · simp only at h1 h2
          have hrp : r = p := hids r hr p hp (by rw [hidr, hidp, h1])
          subst hrp
          have hd : e.dest = b.dest := hids _ hed _ hq (by rw [hids1, hidq, h2])
          exact hnT (Or.inl (by rw [hsimples r hr n i e b he hbi hd]))
        · simp only at h1 h2
          have hrq : r = b.dest := hids r hr _ hq (by rw [hidr, hidq, h1])
          subst hrq
          have hd : e.dest = c.dest := by
            rw [hcd]
            exact hids _ hed p hp (by rw [hids1, hidp, h2])
          exact hnT (Or.inr (by rw [hsimples _ hr n j e c he hcj hd]))
      · intro k hk hT
        obtain ⟨_, e1, he1, he1d, _⟩ := procurar_adjacente_laco_some r _ 0 k hk
        simp only [Nat.sub_zero] at he1
        rcases hT with hT | hT
        · simp only [Prod.mk.injEq] at hT
          obtain ⟨h1, h2⟩ := hT
          rw [h1, h2, hbi] at he1
          have : b = e1 := Option.some.inj he1
          subst this
          have hrq : r = b.dest := he1d.symm
          subst hrq
          have hd : e.dest = c.dest := by rw [hcd, h1]
          exact hnT (Or.inr (by rw [hsimples _ hr n j e c he hcj hd]))
        · simp only [Prod.mk.injEq] at hT
          obtain ⟨h1, h2⟩ := hT
          rw [h1, h2, hcj] at he1
          have : c = e1 := Option.some.inj he1
          subst this
          have hrp : r = p := by rw [← he1d, hcd]
          subst hrp
          exact hnT (Or.inl (by rw [hsimples _ hr n i e b he hbi h1]))
    · intro r hr n e idr ids he hT hidr hids1
      rcases hT with hT | hT
      · simp only [Prod.mk.injEq] at hT
        obtain ⟨h1, h2⟩ := hT
        subst h1
        subst h2
        rw [hbi] at he
        have : b = e := Option.some.inj he
        subst this
        have e1 : idp = idr := Except.ok.inj (hidp.symm.trans hidr)
        have e2 : idq = ids := Except.ok.inj (hidq.symm.trans hids1)
        refine ⟨by simp [e1, e2], rfl, ?_⟩
        intro t ht
        rcases ht with ht | ht
        · exact Or.inl ht
        · right
          rw [procurar_adjacente_laco_unica r (arestas_de m b.dest) j c hcj hcd
            (fun i1 b1 hb1 hb1d => hsimples _ hq i1 j b1 c hb1 hcj (by rw [hb1d, hcd])), ht]
          rfl
      · simp only [Prod.mk.injEq] at hT
        obtain ⟨h1, h2⟩ := hT
        subst h1
        subst h2
        rw [hcj] at he
        have : c = e := Option.some.inj he
        subst this
        rw [hcd] at hids1
        have e1 : idq = idr := Except.ok.inj (hidq.symm.trans hidr)
        have e2 : idp = ids := Except.ok.inj (hidp.symm.trans hids1)
        refine ⟨by simp [e1, e2], hcw, ?_⟩
        intro t ht
        rcases ht with ht | ht
        · right
          rw [hcd, procurar_adjacente_laco_unica b.dest (arestas_de m p) i b hbi rfl
            (fun i1 b1 hb1 hb1d => hsimples _ hp i1 i b1 b hb1 hbi hb1d), ht]
          rfl
        · exact Or.inl ht
  have hi : i < (arestas_de m p).length := (List.getElem?_eq_some.mp hbi).1
  obtain ⟨file2, m2, hrun2, hcount, hpeso⟩ := exportar_grafo_dot_grupo m gp g f
    (fun t => t = (p, i) ∨ t = (b.dest, j))
    (fun l => decide ((l.1 = idp ∧ l.2.1 = idq) ∨ (l.1 = idq ∧ l.2.1 = idp))) b.peso hg hc
    (by
      intro t ht
      rcases ht with ht | ht
      · rw [ht, status_de_eq m p i b hbi, hvazio p hp b hb]
      · rw [ht, status_de_eq m b.dest j c hcj, hvazio _ hq c hcmem])
    ⟨p, hp, i, hi, Or.inl rfl⟩
  rw [hrun] at hrun2
  have hfile : file = file2 := by
    have := congrArg Prod.fst hrun2
    exact Except.ok.inj this
  subst hfile
  refine ⟨hcount, ?_⟩
  intro l hl hD
  exact hpeso l hl (by simpa using hD)

theorem exportar_uma_linha_por_par_witness :
    mem_par.grafos[0]? = some { id := 0, vertices := [0, 1] } ∧
    (∀ p ∈ [0, 1], p < mem_par.vert.length) ∧
    (∀ p ∈ [0, 1], ∀ b ∈ arestas_de mem_par p, b.dest ∈ [0, 1]) ∧
    (∀ p ∈ [0, 1], ∀ q ∈ [0, 1], vertice_get_id mem_par p = vertice_get_id mem_par q → p = q) ∧
    (∀ p ∈ [0, 1], ∀ b ∈ arestas_de mem_par p, b.status = .NAO_EXPORTADA) ∧
    (∀ p ∈ [0, 1], ∀ (i j : Nat) (b c : arestas_t), (arestas_de mem_par p)[i]? = some b →
      (arestas_de mem_par p)[j]? = some c → b.dest = c.dest → i = j) ∧
    (∀ p ∈ [0, 1], ∀ b ∈ arestas_de mem_par p,
      ∃ c ∈ arestas_de mem_par b.dest, c.dest = p ∧ c.peso = b.peso) ∧
    ∃ file m1, exportar_grafo_dot (some "g.dot") (some 0) true mem_par = (.ok file, m1) ∧
      ∀ p ∈ [0, 1], ∀ b ∈ arestas_de mem_par p, ∀ idp idq,
        vertice_get_id mem_par p = .ok idp → vertice_get_id mem_par b.dest = .ok idq →
        (linhas_aresta file).countP (fun l =>
          decide ((l.1 = idp ∧ l.2.1 = idq) ∨ (l.1 = idq ∧ l.2.1 = idp))) = 1 ∧
        ∀ l ∈ linhas_aresta file,
          ((l.1 = idp ∧ l.2.1 = idq) ∨ (l.1 = idq ∧ l.2.1 = idp)) → l.2.2 = b.peso :=
  have hdest : ∀ p ∈ [0, 1], ∀ b ∈ arestas_de mem_par p, b.dest ∈ [0, 1] := by decide
  have hids : ∀ p ∈ [0, 1], ∀ q ∈ [0, 1],
      vertice_get_id mem_par p = vertice_get_id mem_par q → p = q := by
    intro p hp q hq h
    simp only [List.mem_cons, List.mem_singleton, List.not_mem_nil, or_false] at hp hq
    rcases hp with hp | hp <;> rcases hq with hq | hq <;> subst hp <;> subst hq
    · rfl
    · exact absurd (Except.ok.inj h) (by decide)
    · exact absurd (Except.ok.inj h) (by decide)
    · rfl
  have hvazio : ∀ p ∈ [0, 1], ∀ b ∈ arestas_de mem_par p, b.status = .NAO_EXPORTADA := by decide
  have hsimples : ∀ p ∈ [0, 1], ∀ (i j : Nat) (b c : arestas_t),
      (arestas_de mem_par p)[i]? = some b → (arestas_de mem_par p)[j]? = some c →
      b.dest = c.dest → i = j := by
    intro p hp i j b c hb hc _
    have hi := (List.getElem?_eq_some.mp hb).1
    have hj := (List.getElem?_eq_some.mp hc).1
    simp only [List.mem_cons, List.mem_singleton, List.not_mem_nil, or_false] at hp
    rcases hp with hp | hp <;> subst hp
    · have : (arestas_de mem_par 0).length = 1 := rfl
      omega
    · have : (arestas_de mem_par 1).length = 1 := rfl
      omega
  have hsim : ∀ p ∈ [0, 1], ∀ b ∈ arestas_de mem_par p,
      ∃ c ∈ arestas_de mem_par b.dest, c.dest = p ∧ c.peso = b.peso := by decide
  ⟨rfl, by decide, hdest, hids, hvazio, hsimples, hsim,
    exportar_uma_linha_por_par mem_par 0 { id := 0, vertices := [0, 1] } "g.dot" rfl
      (by decide) hdest hids hvazio hsimples hsim⟩

/-- C7, as stated, fails when a connection is doubled: vertices 1 and 2 are
joined by connections of weight 5 and 6, each added in both directions, no
edge is marked, and the export writes three lines between 1 and 2, two of them
for the connection of weight 6. -/
theorem exportar_paralelas_tres_linhas :
    mem_paralelas.grafos[0]? = some { id := 0, vertices := [0, 1] } ∧
    (∀ p ∈ [0, 1], ∀ b ∈ arestas_de mem_paralelas p, b.status = .NAO_EXPORTADA) ∧
    (∀ p ∈ [0, 1], ∀ b ∈ arestas_de mem_paralelas p,
      ∃ c ∈ arestas_de mem_paralelas b.dest, c.dest = p ∧ c.peso = b.peso) ∧
    (exportar_grafo_dot (some "g.dot") (some 0) true mem_paralelas).1
      = .ok [.abre, .aresta 1 2 5, .aresta 1 2 6, .aresta 2 1 6, .fecha] ∧
    (linhas_aresta [.abre, .aresta 1 2 5, .aresta 1 2 6, .aresta 2 1 6, .fecha]).countP
      (fun l => decide ((l.1 = 1 ∧ l.2.1 = 2) ∨ (l.1 = 2 ∧ l.2.1 = 1))) = 3 ∧
    (linhas_aresta [.abre, .aresta 1 2 5, .aresta 1 2 6, .aresta 2 1 6, .fecha]).countP
      (fun l => decide (((l.1 = 1 ∧ l.2.1 = 2) ∨ (l.1 = 2 ∧ l.2.1 = 1)) ∧ l.2.2 = 6)) = 2 :=
  ⟨rfl, by decide, by decide, rfl, by decide, by decide⟩

/-! ### prim_mst -/

theorem vertice_visitado_eq (m : Mem) (u : Nat) (vu : vertice_t) (hu : m.vert[u]? = some vu) :
    vertice_visitado m u = .ok vu.visitado := by
  simp [vertice_visitado, hu]

/-- When the target of an edge of `u` is live and has an edge back to `u`, the
reciprocal lookup of `prim_mst` finds an edge and its weight can be read. -/
theorem prim_reciproca_ok (m : Mem) (u : Nat) (a : arestas_t)
    (hd : a.dest < m.vert.length) (hb : ∃ b ∈ arestas_de m a.dest, b.dest = u) :
    ∃ c w, procurar_adjacente m a.dest u = .ok (some (a.dest, c)) ∧
      aresta_get_peso m (some (a.dest, c)) = .ok w := by
  rw [procurar_adjacente_valido m a.dest u hd]
  cases hc : procurar_adjacente_laco u (arestas_de m a.dest) 0 with
  | none =>
    obtain ⟨b, hbm, hbd⟩ := hb
    exact absurd hbd (procurar_adjacente_laco_none_inv u _ 0 hc b hbm)
  | some c =>
    obtain ⟨_, b, hbc, _, _⟩ := procurar_adjacente_laco_some u _ 0 c hc
    simp only [Nat.sub_zero] at hbc
    exact ⟨c, b.peso, rfl, aresta_get_peso_eq m a.dest c b hbc⟩

/-- One turn of the inner loop of `prim_mst` at a vertex that is not visited,
for an edge that has an edge back. -/
theorem prim_no_arest_scan (m : Mem) (u : Nat) (vu : vertice_t)
    (hu : m.vert[u]? = some vu) (hnv : vu.visitado = false) (a : arestas_t)
    (hd : a.dest < m.vert.length) (hb : ∃ b ∈ arestas_de m a.dest, b.dest = u)
    (l : prim_locais) (out : List saida_prim) :
    ∃ l1, prim_no_arest m u a l out = .ok (l1, out) ∧
      l1.adjacente = some a.dest ∧
      (l.menor_peso ≤ a.peso →
        l1.change = l.change ∧ l1.id_aresta = l.id_aresta ∧ l1.menor_peso = l.menor_peso) ∧
      (a.peso < l.menor_peso →
        l1.change = some 1 ∧ l1.menor_peso = a.peso ∧
        ∃ idv, vertice_get_id m a.dest = .ok idv ∧ l1.id_aresta = some idv) := by
  obtain ⟨c, w, hproc, hpeso⟩ := prim_reciproca_ok m u a hd hb
  obtain ⟨idv, hidv⟩ := vertice_get_id_valido m a.dest hd
  by_cases hlt : a.peso < l.menor_peso
  · refine ⟨prim_locais.mk (some 1) (some a.dest) (some idv) a.peso, ?_, rfl, ?_, ?_⟩
    · simp only [prim_no_arest, vertice_visitado_eq m u vu hu, hnv, hproc, hpeso, hlt, if_true,
        hidv]
    · intro hle
      omega
    · intro _
      exact ⟨rfl, rfl, idv, hidv, rfl⟩
  · refine ⟨prim_locais.mk l.change (some a.dest) l.id_aresta l.menor_peso, ?_, rfl, ?_, ?_⟩
    · simp only [prim_no_arest, vertice_visitado_eq m u vu hu, hnv, hproc, hpeso, hlt, if_false]
    · intro _
      exact ⟨rfl, rfl, rfl⟩
    · intro h
      exact absurd h hlt

/-- The scan of the adjacency list of a vertex that is not visited and whose
edges all have an edge back: it returns and prints nothing; `adjacente` ends
as the target of the last edge scanned; if no edge is below the running
minimum, `change`, `id_aresta` and `menor_peso` are what they were; otherwise
they are 1, the id of the target of the first edge of least weight, and that
weight. -/
theorem prim_arestas_laco_scan (m : Mem) (u : Nat) (vu : vertice_t)
    (hu : m.vert[u]? = some vu) (hnv : vu.visitado = false) :
    ∀ (as : List arestas_t),
      (∀ a ∈ as, a.dest < m.vert.length ∧ ∃ b ∈ arestas_de m a.dest, b.dest = u) →
      ∀ (l : prim_locais) (out : List saida_prim),
      ∃ l1, prim_arestas_laco m u as l out = .ok (l1, out) ∧
        (∀ a, as.getLast? = some a → l1.adjacente = some a.dest) ∧
        (as = [] → l1 = l) ∧
        ((∀ a ∈ as, l.menor_peso ≤ a.peso) →
          l1.change = l.change ∧ l1.id_aresta = l.id_aresta ∧ l1.menor_peso = l.menor_peso) ∧
        (∀ (k : Nat) (a : arestas_t), as[k]? = some a → a.peso < l.menor_peso →
          (∀ b ∈ as, a.peso ≤ b.peso) →
          (∀ (j : Nat) (b : arestas_t), j < k → as[j]? = some b → a.peso < b.peso) →
          l1.change = some 1 ∧ l1.menor_peso = a.peso ∧
          ∃ idv, vertice_get_id m a.dest = .ok idv ∧ l1.id_aresta = some idv) := by
  intro as
  induction as with
  | nil =>
    intro _ l out
    refine ⟨l, rfl, by simp, fun _ => rfl, fun _ => ⟨rfl, rfl, rfl⟩, ?_⟩
    intro k a hk
    simp at hk
  | cons a0 resto ih =>
    intro hrec l out
    obtain ⟨hd0, hb0⟩ := hrec a0 (List.mem_cons_self _ _)
    obtain ⟨l0, hrun0, hadj0, hsame0, hupd0⟩ := prim_no_arest_scan m u vu hu hnv a0 hd0 hb0 l out
    obtain ⟨l1, hrun1, hadj1, hnil1, hsame1, hupd1⟩ :=
      ih (fun a ha => hrec a (List.mem_cons_of_mem _ ha)) l0 out
    refine ⟨l1, ?_, ?_, ?_, ?_, ?_⟩
    · simp only [prim_arestas_laco, hrun0, hrun1]
    · intro a ha
      cases resto with
      | nil =>
        simp only [List.getLast?_singleton, Option.some.injEq] at ha
        rw [hnil1 rfl, ← ha]
        exact hadj0
      | cons b r =>
        rw [List.getLast?_cons_cons] at ha
        exact hadj1 a ha
    · intro h
      simp at h
    · intro hle
      obtain ⟨h1, h2, h3⟩ := hsame0 (hle a0 (List.mem_cons_self _ _))
      obtain ⟨h4, h5, h6⟩ := hsame1 (fun a ha => by
        rw [h3]
        exact hle a (List.mem_cons_of_mem _ ha))
      exact ⟨h4.trans h1, h5.trans h2, h6.trans h3⟩
    · intro k a hk hlt hmin hfirst
      cases k with
      | zero =>
        simp only [List.getElem?_cons_zero, Option.some.injEq] at hk
        subst hk
        obtain ⟨h1, h2, idv, h3, h4⟩ := hupd0 hlt
        obtain ⟨h5, h6, h7⟩ := hsame1 (fun b hb => by
          rw [h2]
          exact hmin b (List.mem_cons_of_mem _ hb))
        exact ⟨h5.trans h1, h7.trans h2, idv, h3, h6.trans h4⟩
      | succ k =>
        rw [List.getElem?_cons_succ] at hk
        have ha0 : a.peso < a0.peso := hfirst 0 a0 (by omega) (by simp)
        have hlt0 : a.peso < l0.menor_peso := by
          by_cases hc : a0.peso < l.menor_peso
          · rw [(hupd0 hc).2.1]
            exact ha0
          · rw [(hsame0 (by omega)).2.2]
            exact hlt
        exact hupd1 k a hk hlt0 (fun b hb => hmin b (List.mem_cons_of_mem _ hb))
          (fun j b hj hb => hfirst (j + 1) b (by omega) (by
            rw [List.getElem?_cons_succ]
            exact hb))

theorem arestas_emitidas_append (o1 o2 : List saida_prim) :
    arestas_emitidas (o1 ++ o2) = arestas_emitidas o1 ++ arestas_emitidas o2 := by
  induction o1 with
  | nil => rfl
  | cons s r ih =>
    cases s <;> simp [arestas_emitidas, ih]

/-- The scan of the adjacency list of a visited vertex only prints the
"ja foi visitado" message. -/
theorem prim_arestas_laco_visitado (m : Mem) (u : Nat) (vu : vertice_t)
    (hu : m.vert[u]? = some vu) (hv : vu.visitado = true) :
    ∀ (as : List arestas_t) (l : prim_locais) (out : List saida_prim),
      ∃ out1, prim_arestas_laco m u as l out = .ok (l, out1) ∧
        arestas_emitidas out1 = arestas_emitidas out := by
  intro as
  induction as with
  | nil =>
    intro l out
    exact ⟨out, rfl, rfl⟩
  | cons a resto ih =>
    intro l out
    obtain ⟨out1, hrun, hem⟩ := ih l (out ++ [.ja_visitado])
    refine ⟨out1, ?_, ?_⟩
    · simp only [prim_arestas_laco, prim_no_arest, vertice_visitado_eq m u vu hu, hv, hrun]
    · rw [hem, arestas_emitidas_append]
      simp [arestas_emitidas]

theorem vertice_get_arestas_some (m : Mem) (u : Nat) (vu : vertice_t)
    (hu : m.vert[u]? = some vu) : vertice_get_arestas m u = .ok vu.arestas := by
  simp [vertice_get_arestas, hu]

theorem vertice_get_id_some (m : Mem) (u : Nat) (vu : vertice_t)
    (hu : m.vert[u]? = some vu) : vertice_get_id m u = .ok vu.id := by
  simp [vertice_get_id, hu]

/-- The turn of a vertex that is not visited, whose edges all have an edge
back, and that has an edge lighter than `INFINITO`: one "marcado" message and
one edge line, for the first edge of least weight. -/
theorem prim_vertice_aceita (m : Mem) (u : Nat) (vu : vertice_t) (l : prim_locais)
    (out : List saida_prim) (hu : m.vert[u]? = some vu) (hnv : vu.visitado = false)
    (hrec : ∀ a ∈ vu.arestas, a.dest < m.vert.length ∧ ∃ b ∈ arestas_de m a.dest, b.dest = u)
    (k : Nat) (a : arestas_t) (hk : vu.arestas[k]? = some a) (hlt : a.peso < INFINITO)
    (hmin : ∀ b ∈ vu.arestas, a.peso ≤ b.peso)
    (hfirst : ∀ (j : Nat) (b : arestas_t), j < k → vu.arestas[j]? = some b → a.peso < b.peso) :
    ∃ l1 m1 idd idv, vertice_get_id m a.dest = .ok idv ∧
      prim_vertice u m l out
        = (.ok (l1, out ++ [.marcado idd, .aresta vu.id idv a.peso]), m1) := by
  obtain ⟨l1, hrun, hadj, _, _, hupd⟩ := prim_arestas_laco_scan m u vu hu hnv vu.arestas hrec
    (prim_locais.mk l.change l.adjacente l.id_aresta INFINITO) out
  obtain ⟨hch, hmp, idv, hidv, hida⟩ := hupd k a hk hlt hmin hfirst
  have hne : vu.arestas ≠ [] := by
    intro h
    rw [h] at hk
    simp at hk
  obtain ⟨ult, hult⟩ : ∃ ult, vu.arestas.getLast? = some ult := by
    cases hl : vu.arestas.getLast? with
    | none => exact absurd (List.getLast?_eq_none_iff.mp hl) hne
    | some x => exact ⟨x, rfl⟩
  have hadj1 := hadj ult hult
  have hultmem : ult ∈ vu.arestas := List.mem_of_getLast?_eq_some hult
  have hdv : ult.dest < m.vert.length := (hrec ult hultmem).1
  have hdsome : m.vert[ult.dest]? = some (m.vert[ult.dest]) := List.getElem?_eq_getElem hdv
  obtain ⟨m1, hset, hid1⟩ : ∃ m1, vertice_set_visited ult.dest m = (.ok (), m1) ∧
      ∀ p, vertice_get_id m1 p = vertice_get_id m p := by
    refine ⟨{ m with vert := (m.vert.set ult.dest
      { m.vert[ult.dest] with visitado := true }) }, ?_, ?_⟩
    · simp only [vertice_set_visited, hdsome]
    · exact fun p => vertice_get_id_set m ult.dest _ _ p hdsome rfl
  obtain ⟨idd, hidd⟩ := vertice_get_id_valido m ult.dest hdv
  refine ⟨prim_locais.mk (some 0) l1.adjacente l1.id_aresta l1.menor_peso, m1, idd, idv, hidv, ?_⟩
  simp only [prim_vertice, vertice_get_arestas_some m u vu hu, hrun, hch, hadj1, hida, hset,
    hid1, hidd, vertice_get_id_some m u vu hu, hmp]
  simp

/-- The turn of a vertex that is visited or has no edge, entered with
`change` equal to 0: no edge line, and the heap is untouched. -/
theorem prim_vertice_nada (m : Mem) (u : Nat) (vu : vertice_t) (l : prim_locais)
    (out : List saida_prim) (hu : m.vert[u]? = some vu)
    (hcaso : vu.visitado = true ∨ vu.arestas = []) (hch : l.change = some 0) :
    ∃ l1 out1, prim_vertice u m l out = (.ok (l1, out1), m) ∧
      arestas_emitidas out1 = arestas_emitidas out := by
  have hlaco : ∃ out1, prim_arestas_laco m u vu.arestas
      (prim_locais.mk l.change l.adjacente l.id_aresta INFINITO) out
        = .ok (prim_locais.mk l.change l.adjacente l.id_aresta INFINITO, out1) ∧
      arestas_emitidas out1 = arestas_emitidas out := by
    rcases hcaso with h | h
    · exact prim_arestas_laco_visitado m u vu hu h vu.arestas _ out
    · rw [h]
      exact ⟨out, rfl, rfl⟩
  obtain ⟨out1, hrun, hem⟩ := hlaco
  refine ⟨prim_locais.mk l.change l.adjacente l.id_aresta INFINITO, out1, ?_, hem⟩
  simp only [prim_vertice, vertice_get_arestas_some m u vu hu, hrun]
  simp [hch]

theorem prim_vertices_laco_append (pre pos : List Nat) (m0 : Mem) (l0 : prim_locais)
    (out0 : List saida_prim) (m : Mem) (l : prim_locais) (out : List saida_prim)
    (h : prim_vertices_laco pre m0 l0 out0 = (.ok (l, out), m)) :
    prim_vertices_laco (pre ++ pos) m0 l0 out0 = prim_vertices_laco pos m l out := by
  induction pre generalizing m0 l0 out0 with
  | nil =>
    simp only [prim_vertices_laco, Prod.mk.injEq, Except.ok.injEq] at h
    obtain ⟨⟨h1, h2⟩, h3⟩ := h
    subst h1
    subst h2
    subst h3
    rfl
  | cons p pre ih =>
    simp only [List.cons_append, prim_vertices_laco]
    simp only [prim_vertices_laco] at h
    cases hp : prim_vertice p m0 l0 out0 with
    | mk r m1 =>
      cases r with
      | error e => simp [hp] at h
      | ok lo =>
        obtain ⟨l1, out1⟩ := lo
        simp only [hp] at h
        simp only
        exact ih m1 l1 out1 h

theorem prim_vertices_laco_um (u : Nat) (m : Mem) (l : prim_locais) (out : List saida_prim) :
    prim_vertices_laco [u] m l out = prim_vertice u m l out := by
  simp only [prim_vertices_laco]
  cases prim_vertice u m l out with
  | mk r m1 =>
    cases r with
    | error e => rfl
    | ok lo => rfl

/-- C9: on the fixture of the spec, attached in the order listed, `prim_mst`
(whatever `inicial`) prints the edges (1,2,1), (2,1,1), (4,3,1): the connection
between 1 and 2 twice, nothing that joins {1,2} to {3,4}, total weight 3. The
spanning tree (1,2,1), (3,4,1), (2,3,2) of weight 4 is not what is printed. -/
theorem prim_mst_fixture :
    (∀ inicial : Int, (prim_mst (some 0) inicial mem_fixture).1
      = .ok [.marcado 3, .aresta 1 2 1, .marcado 3, .aresta 2 1 1,
          .ja_visitado, .ja_visitado, .ja_visitado, .marcado 1, .aresta 4 3 1]) ∧
    arestas_emitidas [.marcado 3, .aresta 1 2 1, .marcado 3, .aresta 2 1 1,
          .ja_visitado, .ja_visitado, .ja_visitado, .marcado 1, .aresta 4 3 1]
      = [(1, 2, 1), (2, 1, 1), (4, 3, 1)] ∧
    [((1 : Int), (2 : Int), (1 : Int)), (2, 1, 1), (4, 3, 1)] ≠ [(1, 2, 1), (3, 4, 1), (2, 3, 2)] :=
  ⟨fun _ => rfl, rfl, by decide⟩

/-- C10 (amended): let the outer loop of `prim_mst` have reached the vertex `u`
(after the vertices `pre`, with locals `l`, output `out`, heap `m`).
If `u` is not visited, each of its edges has a live target with an edge back to
`u`, and `a` is the first edge of `u` of least weight, that weight being below
`INFINITO`, then the turn of `u` prints exactly one edge line: the id of `u`,
the id of the target of `a`, the weight of `a`.
If `u` is visited or has no edge, and `change` is 0 on entry, the turn of `u`
prints no edge line and leaves the heap as it is. -/
theorem prim_mst_aresta_local (m0 : Mem) (pre : List Nat) (m : Mem) (l : prim_locais)
    (out : List saida_prim) (u : Nat) (vu : vertice_t)
    (hpre : prim_vertices_laco pre m0 prim_locais_iniciais [] = (.ok (l, out), m))
    (hu : m.vert[u]? = some vu) :
    (vu.visitado = false →
      (∀ a ∈ vu.arestas, a.dest < m.vert.length ∧ ∃ b ∈ arestas_de m a.dest, b.dest = u) →
      ∀ (k : Nat) (a : arestas_t), vu.arestas[k]? = some a → a.peso < INFINITO →
        (∀ b ∈ vu.arestas, a.peso ≤ b.peso) →
        (∀ (j : Nat) (b : arestas_t), j < k → vu.arestas[j]? = some b → a.peso < b.peso) →
        ∃ l1 m1 idd idv, vertice_get_id m a.dest = .ok idv ∧
          prim_vertices_laco (pre ++ [u]) m0 prim_locais_iniciais []
            = (.ok (l1, out ++ [.marcado idd, .aresta vu.id idv a.peso]), m1) ∧
          arestas_emitidas (out ++ [.marcado idd, .aresta vu.id idv a.peso])
            = arestas_emitidas out ++ [(vu.id, idv, a.peso)]) ∧
    ((vu.visitado = true ∨ vu.arestas = []) → l.change = some 0 →
      ∃ l1 out1, prim_vertices_laco (pre ++ [u]) m0 prim_locais_iniciais []
          = (.ok (l1, out1), m) ∧
        arestas_emitidas out1 = arestas_emitidas out) := by
  have happ := prim_vertices_laco_append pre [u] m0 prim_locais_iniciais [] m l out hpre
  rw [prim_vertices_laco_um] at happ
  refine ⟨?_, ?_⟩
  · intro hnv hrec k a hk hlt hmin hfirst
    obtain ⟨l1, m1, idd, idv, hidv, hrun⟩ :=
      prim_vertice_aceita m u vu l out hu hnv hrec k a hk hlt hmin hfirst
    refine ⟨l1, m1, idd, idv, hidv, by rw [happ, hrun], ?_⟩
    rw [arestas_emitidas_append]
    rfl
  · intro hcaso hch
    obtain ⟨l1, out1, hrun, hem⟩ := prim_vertice_nada m u vu l out hu hcaso hch
    exact ⟨l1, out1, by rw [happ, hrun], hem⟩

theorem prim_mst_aresta_local_witness :
    (prim_vertices_laco [] mem_fixture prim_locais_iniciais []
      = (.ok (prim_locais_iniciais, []), mem_fixture) ∧
    mem_fixture.vert[0]?
      = some (vertice_t.mk 1 [cria_aresta 0 1 1, cria_aresta 0 3 4, cria_aresta 0 2 3] false) ∧
    ∃ l1 m1 idd idv, vertice_get_id mem_fixture (cria_aresta 0 1 1).dest = .ok idv ∧
      prim_vertices_laco ([] ++ [0]) mem_fixture prim_locais_iniciais []
        = (.ok (l1, [] ++ [.marcado idd, .aresta 1 idv (cria_aresta 0 1 1).peso]), m1) ∧
      arestas_emitidas ([] ++ [.marcado idd, .aresta 1 idv (cria_aresta 0 1 1).peso])
        = arestas_emitidas [] ++ [(1, idv, (cria_aresta 0 1 1).peso)]) ∧
    (prim_vertices_laco [0, 1] mem_peso_maximo prim_locais_iniciais []
      = (.ok (prim_locais.mk (some 0) (some 2) (some 3) 2147483647, [.marcado 3, .aresta 1 3 1]),
          (prim_vertices_laco [0, 1] mem_peso_maximo prim_locais_iniciais []).2) ∧
    (prim_vertices_laco [0, 1] mem_peso_maximo prim_locais_iniciais []).2.vert[2]?
      = some (vertice_t.mk 3 [cria_aresta 2 0 1, cria_aresta 2 1 2147483647] true) ∧
    ∃ l1 out1, prim_vertices_laco ([0, 1] ++ [2]) mem_peso_maximo prim_locais_iniciais []
        = (.ok (l1, out1), (prim_vertices_laco [0, 1] mem_peso_maximo prim_locais_iniciais []).2) ∧
      arestas_emitidas out1 = arestas_emitidas [.marcado 3, .aresta 1 3 1]) :=
  ⟨⟨rfl, rfl,
    (prim_mst_aresta_local mem_fixture [] mem_fixture prim_locais_iniciais [] 0
      (vertice_t.mk 1 [cria_aresta 0 1 1, cria_aresta 0 3 4, cria_aresta 0 2 3] false)
      rfl rfl).1 rfl (by decide) 0 (cria_aresta 0 1 1) rfl (by decide)
      (by decide) (by intro j b hj; omega)⟩,
   ⟨rfl, rfl,
    (prim_mst_aresta_local mem_peso_maximo [0, 1]
      (prim_vertices_laco [0, 1] mem_peso_maximo prim_locais_iniciais []).2
      (prim_locais.mk (some 0) (some 2) (some 3) 2147483647) [.marcado 3, .aresta 1 3 1] 2
      (vertice_t.mk 3 [cria_aresta 2 0 1, cria_aresta 2 1 2147483647] true)
      rfl rfl).2 (Or.inl rfl) rfl⟩⟩

/-- C10, as stated, fails for an edge of weight INT_MAX: in the graph with the
connections (1,3,1) and (2,3,INT_MAX), every edge has an edge back; when the
outer loop reaches vertex 2 it is not visited and its adjacency list is not
empty, yet its turn prints nothing, and the whole run prints the edge (1,3,1)
only. -/
theorem prim_mst_peso_maximo_sem_aresta :
    (∀ p ∈ [0, 1, 2], ∀ a ∈ arestas_de mem_peso_maximo p,
      ∃ b ∈ arestas_de mem_peso_maximo a.dest, b.dest = p) ∧
    (prim_vertices_laco [0] mem_peso_maximo prim_locais_iniciais []).1
      = .ok (prim_locais.mk (some 0) (some 2) (some 3) 1, [.marcado 3, .aresta 1 3 1]) ∧
    vertice_visitado (prim_vertices_laco [0] mem_peso_maximo prim_locais_iniciais []).2 1
      = .ok false ∧
    arestas_de (prim_vertices_laco [0] mem_peso_maximo prim_locais_iniciais []).2 1
      = [cria_aresta 1 2 2147483647] ∧
    (prim_vertices_laco [0, 1] mem_peso_maximo prim_locais_iniciais []).1
      = .ok (prim_locais.mk (some 0) (some 2) (some 3) 2147483647,
          [.marcado 3, .aresta 1 3 1]) ∧
    (prim_mst (some 0) 1 mem_peso_maximo).1
      = .ok [.marcado 3, .aresta 1 3 1, .ja_visitado, .ja_visitado] ∧
    arestas_emitidas [.marcado 3, .aresta 1 3 1, .ja_visitado, .ja_visitado] = [(1, 3, 1)] :=
  ⟨by decide, rfl, rfl, rfl, rfl, rfl, rfl⟩

/-! ### Null graph, output graph, marking, `inicial` -/

/-- C11: with a null graph, `grafo_adicionar_vertice`, `procura_vertice`,
`exportar_grafo_dot`, `libera_grafo`, `kruskal_mst` and `prim_mst` take their
fatal branch whatever the other arguments are. `adiciona_adjacentes` has no
test of its own: with `n = 0` it returns normally on a null graph, and with
`n > 0` it stops in the test of `procura_vertice`. -/
theorem grafo_nulo_operacoes :
    (∀ (id : Int) (m : Mem), grafo_adicionar_vertice none id m = (.error .grafo_invalido, m)) ∧
    (∀ (id : Int) (m : Mem), procura_vertice none id m = .error .grafo_invalido) ∧
    (∀ (filename : Option String) (fopen_ok : Bool) (m : Mem),
      exportar_grafo_dot filename none fopen_ok m = (.error .ponteiros_invalidos, m)) ∧
    (∀ (m : Mem), libera_grafo none m = (.error .grafo_invalido, m)) ∧
    (∀ (g_out : Option Nat) (m : Mem), kruskal_mst none g_out m = (.error .grafo_invalido, m)) ∧
    (∀ (inicial : Int) (m : Mem), prim_mst none inicial m = (.error .grafo_invalido, m)) ∧
    (∀ (vertice : Nat) (args : List Int) (m : Mem),
      adiciona_adjacentes none vertice 0 args m = (.ok (), m)) ∧
    (∀ (vertice : Nat) (n id_sucessor peso : Int) (resto : List Int) (m : Mem), 0 < n →
      adiciona_adjacentes none vertice n (id_sucessor :: peso :: resto) m
        = (.error .grafo_invalido, m)) := by
  refine ⟨fun _ _ => rfl, fun _ _ => rfl, ?_, fun _ => rfl, fun _ _ => rfl, fun _ _ => rfl,
    ?_, ?_⟩
  · intro filename fopen_ok m
    cases filename <;> rfl
  · intro vertice args m
    unfold adiciona_adjacentes adiciona_adjacentes_laco
    split <;> simp
  · intro vertice n id_sucessor peso resto m hn
    simp [adiciona_adjacentes, adiciona_adjacentes_laco, hn, procura_vertice]

/-- C12: `kruskal_mst` never writes the heap, so the output graph is after the
call what it was before. On the graph 1 - 2 of weight 5 with an empty output
graph, the scan sees the edges (1,2,5) and (2,1,5) and the output graph is
still empty. -/
theorem kruskal_mst_nao_escreve :
    (∀ (grafo g_out : Option Nat) (m : Mem), (kruskal_mst grafo g_out m).2 = m) ∧
    mem_par_saida.grafos[1]? = some { id := 1, vertices := [] } ∧
    kruskal_mst (some 0) (some 1) mem_par_saida
      = (.ok [.analisando 1, .aresta 1 2 5, .analisando 2, .aresta 2 1 5], mem_par_saida) ∧
    (kruskal_mst (some 0) (some 1) mem_par_saida).2.grafos[1]?
      = some { id := 1, vertices := [] } := by
  refine ⟨?_, rfl, rfl, rfl⟩
  intro grafo g_out m
  unfold kruskal_mst
  cases grafo with
  | none => rfl
  | some gp =>
    simp only
    cases m.grafos[gp]? with
    | none => rfl
    | some g =>
      simp only
      cases kruskal_vertices_laco m g.vertices (kruskal_locais.mk INFINITO none none) [] with
      | error e => rfl
      | ok r => rfl

/-- C13: on the fixture of the spec the turn of vertex 1 accepts the edge
(1,2,1), yet the vertex it marks is vertex 3, the target of the last edge
scanned, (1,3,3); vertex 2, the target of the accepted edge, stays unvisited. -/
theorem prim_mst_marca_ultimo_alvo :
    arestas_de mem_fixture 0 = [cria_aresta 0 1 1, cria_aresta 0 3 4, cria_aresta 0 2 3] ∧
    vertice_get_id mem_fixture 1 = .ok 2 ∧ vertice_get_id mem_fixture 2 = .ok 3 ∧
    (prim_vertice 0 mem_fixture prim_locais_iniciais []).1
      = .ok (prim_locais.mk (some 0) (some 2) (some 2) 1, [.marcado 3, .aresta 1 2 1]) ∧
    vertice_visitado (prim_vertice 0 mem_fixture prim_locais_iniciais []).2 1 = .ok false ∧
    vertice_visitado (prim_vertice 0 mem_fixture prim_locais_iniciais []).2 2 = .ok true ∧
    vertice_visitado mem_fixture 2 = .ok false :=
  ⟨rfl, rfl, rfl, rfl, rfl, rfl, rfl⟩

/-- C16: `prim_mst` never reads `inicial`: for any two values the call prints
the same, ends the same way, and leaves the same heap, so the same visited
flags. -/
theorem prim_mst_inicial_sem_efeito (grafo : Option Nat) (a b : Int) (m : Mem) :
    prim_mst grafo a m = prim_mst grafo b m ∧
    (prim_mst grafo a m).1 = (prim_mst grafo b m).1 ∧
    (∀ p, vertice_visitado (prim_mst grafo a m).2 p
      = vertice_visitado (prim_mst grafo b m).2 p) :=
  ⟨rfl, rfl, fun _ => rfl⟩

/-! ### Edges of weight `INFINITO` -/

theorem prim_no_arest_sem_troca (m : Mem) (u : Nat) (a : arestas_t) (l l1 : prim_locais)
    (out out1 : List saida_prim) (hnv : vertice_visitado m u = .ok false)
    (hge : l.menor_peso ≤ a.peso) (h : prim_no_arest m u a l out = .ok (l1, out1)) :
    l1.change = l.change ∧ l1.id_aresta = l.id_aresta ∧ l1.menor_peso = l.menor_peso ∧
      out1 = out := by
  have hlt : ¬ a.peso < l.menor_peso := by omega
  simp only [prim_no_arest, hnv, hlt, if_false] at h
  cases hp : procurar_adjacente m a.dest u with
  | error e => simp [hp] at h
  | ok contra =>
    simp only [hp] at h
    cases hw : aresta_get_peso m contra with
    | error e => simp [hw] at h
    | ok w =>
      simp only [hw, Except.ok.injEq, Prod.mk.injEq] at h
      obtain ⟨h1, h2⟩ := h
      subst h1
      exact ⟨rfl, rfl, rfl, h2.symm⟩

theorem prim_arestas_laco_sem_troca (m : Mem) (u : Nat)
    (hnv : vertice_visitado m u = .ok false) :
    ∀ (as : List arestas_t) (l l1 : prim_locais) (out out1 : List saida_prim),
      (∀ a ∈ as, l.menor_peso ≤ a.peso) →
      prim_arestas_laco m u as l out = .ok (l1, out1) →
      l1.change = l.change ∧ l1.id_aresta = l.id_aresta ∧ l1.menor_peso = l.menor_peso ∧
        out1 = out := by
  intro as
  induction as with
  | nil =>
    intro l l1 out out1 _ h
    simp only [prim_arestas_laco, Except.ok.injEq, Prod.mk.injEq] at h
    obtain ⟨h1, h2⟩ := h
    subst h1
    exact ⟨rfl, rfl, rfl, h2.symm⟩
  | cons a resto ih =>
    intro l l1 out out1 hge h
    simp only [prim_arestas_laco] at h
    cases hs : prim_no_arest m u a l out with
    | error e => simp [hs] at h
    | ok r =>
      obtain ⟨l0, out0⟩ := r
      simp only [hs] at h
      obtain ⟨h1, h2, h3, h4⟩ := prim_no_arest_sem_troca m u a l l0 out out0 hnv
        (hge a (List.mem_cons_self _ _)) hs
      obtain ⟨h5, h6, h7, h8⟩ := ih l0 l1 out0 out1 (fun b hb => by
        rw [h3]
        exact hge b (List.mem_cons_of_mem _ hb)) h
      exact ⟨h5.trans h1, h6.trans h2, h7.trans h3, h8.trans h4⟩

/-- C18: at a vertex that is not visited and whose edges all weigh `INFINITO`,
the inner scan of `prim_mst`, entered with `menor_peso = INFINITO`, cannot end
with another `change`, `id_aresta` or `menor_peso` than it started with, and it
prints nothing: no minimum edge is recorded and the acceptance flag is not set.
When each edge has a live target with an edge back, the scan does end. -/
theorem prim_peso_maximo_nao_selecionado (m : Mem) (u : Nat) (vu : vertice_t)
    (l : prim_locais) (out : List saida_prim)
    (hu : m.vert[u]? = some vu) (hnv : vu.visitado = false)
    (hpeso : ∀ a ∈ vu.arestas, a.peso = INFINITO) :
    (∀ l1 out1,
      prim_arestas_laco m u vu.arestas (prim_locais.mk l.change l.adjacente l.id_aresta INFINITO)
          out = .ok (l1, out1) →
      l1.change = l.change ∧ l1.id_aresta = l.id_aresta ∧ l1.menor_peso = INFINITO ∧
        out1 = out) ∧
    ((∀ a ∈ vu.arestas, a.dest < m.vert.length ∧ ∃ b ∈ arestas_de m a.dest, b.dest = u) →
      ∃ l1,
        prim_arestas_laco m u vu.arestas
            (prim_locais.mk l.change l.adjacente l.id_aresta INFINITO) out = .ok (l1, out) ∧
        l1.change = l.change ∧ l1.id_aresta = l.id_aresta ∧ l1.menor_peso = INFINITO) := by
  have hvis : vertice_visitado m u = .ok false := by
    rw [vertice_visitado_eq m u vu hu, hnv]
  have hge : ∀ a ∈ vu.arestas,
      (prim_locais.mk l.change l.adjacente l.id_aresta INFINITO).menor_peso ≤ a.peso := by
    intro a ha
    rw [hpeso a ha]
  refine ⟨?_, ?_⟩
  · intro l1 out1 h
    exact prim_arestas_laco_sem_troca m u hvis vu.arestas _ l1 out out1 hge h
  · intro hrec
    obtain ⟨l1, hrun, _, _, _, _⟩ := prim_arestas_laco_scan m u vu hu hnv vu.arestas hrec
      (prim_locais.mk l.change l.adjacente l.id_aresta INFINITO) out
    obtain ⟨h1, h2, h3, _⟩ := prim_arestas_laco_sem_troca m u hvis vu.arestas _ l1 out out hge hrun
    exact ⟨l1, hrun, h1, h2, h3⟩

theorem prim_peso_maximo_nao_selecionado_witness :
    mem_peso_maximo.vert[1]? = some (vertice_t.mk 2 [cria_aresta 1 2 2147483647] false) ∧
    (vertice_t.mk 2 [cria_aresta 1 2 2147483647] false).visitado = false ∧
    (∀ a ∈ (vertice_t.mk 2 [cria_aresta 1 2 2147483647] false).arestas, a.peso = INFINITO) ∧
    (∀ l1 out1,
      prim_arestas_laco mem_peso_maximo 1
          (vertice_t.mk 2 [cria_aresta 1 2 2147483647] false).arestas
          (prim_locais.mk (some 0) (some 2) (some 3) INFINITO) [] = .ok (l1, out1) →
      l1.change = some 0 ∧ l1.id_aresta = some 3 ∧ l1.menor_peso = INFINITO ∧ out1 = []) ∧
    (∀ a ∈ (vertice_t.mk 2 [cria_aresta 1 2 2147483647] false).arestas,
        a.dest < mem_peso_maximo.vert.length ∧
          ∃ b ∈ arestas_de mem_peso_maximo a.dest, b.dest = 1) ∧
    ∃ l1,
      prim_arestas_laco mem_peso_maximo 1
          (vertice_t.mk 2 [cria_aresta 1 2 2147483647] false).arestas
          (prim_locais.mk (some 0) (some 2) (some 3) INFINITO) [] = .ok (l1, []) ∧
      l1.change = some 0 ∧ l1.id_aresta = some 3 ∧ l1.menor_peso = INFINITO :=
  have h := prim_peso_maximo_nao_selecionado mem_peso_maximo 1
      (vertice_t.mk 2 [cria_aresta 1 2 2147483647] false)
      (prim_locais.mk (some 0) (some 2) (some 3) 1) [] rfl rfl (by decide)
  ⟨rfl, rfl, by decide, h.1, by decide, h.2 (by decide)⟩

/-! ### The reciprocal lookup of `prim_mst` -/

theorem arestas_de_vivo (m : Mem) (q : Nat) (b : arestas_t) (hb : b ∈ arestas_de m q) :
    q < m.vert.length := by
  unfold arestas_de at hb
  cases hq : m.vert[q]? with
  | none => simp [hq] at hb
  | some v => exact (List.getElem?_eq_some.mp hq).1

theorem vertice_set_visited_arestas (q : Nat) (m : Mem) (p : Nat) :
    arestas_de (vertice_set_visited q m).2 p = arestas_de m p := by
  unfold vertice_set_visited
  cases hq : m.vert[q]? with
  | none => rfl
  | some v =>
    have hlt : q < m.vert.length := (List.getElem?_eq_some.mp hq).1
    simp only
    rw [arestas_de_set m q p _ hlt]
    by_cases hpq : p = q
    · subst hpq
      simp [arestas_de, hq]
    · simp [hpq]

theorem vertice_set_visited_erro (q : Nat) (m m1 : Mem) (e : erro_t)
    (h : vertice_set_visited q m = (.error e, m1)) : e = .indefinido := by
  unfold vertice_set_visited at h
  cases hq : m.vert[q]? with
  | none =>
    simp only [hq, Prod.mk.injEq, Except.error.injEq] at h
    exact h.1.symm
  | some v => simp [hq] at h

/-- The heap after a turn of the outer loop of `prim_mst` is the heap before,
or the heap before with one vertex marked visited. -/
theorem prim_vertice_mem (u : Nat) (m : Mem) (l : prim_locais) (out : List saida_prim) :
    (prim_vertice u m l out).2 = m ∨
      ∃ q, (prim_vertice u m l out).2 = (vertice_set_visited q m).2 := by
  unfold prim_vertice
  split
  · exact Or.inl rfl
  · split
    · exact Or.inl rfl
    · split
      · exact Or.inl rfl
      · split
        · split
          · rename_i adjacente id_aresta _ _
            split
            · rename_i e m1 h
              exact Or.inr ⟨adjacente, by rw [h]⟩
            · rename_i u1 m1 h
              split
              · exact Or.inr ⟨adjacente, by rw [h]⟩
              · exact Or.inr ⟨adjacente, by rw [h]⟩
          · exact Or.inl rfl
        · exact Or.inl rfl

theorem prim_vertice_arestas (u : Nat) (m : Mem) (l : prim_locais) (out : List saida_prim)
    (p : Nat) : arestas_de (prim_vertice u m l out).2 p = arestas_de m p := by
  rcases prim_vertice_mem u m l out with h | ⟨q, h⟩
  · rw [h]
  · rw [h]
    exact vertice_set_visited_arestas q m p

/-- The inner scan of `prim_mst` at a live vertex whose edges all have an edge
back returns. -/
theorem prim_arestas_laco_total (m : Mem) (u : Nat) (vu : vertice_t)
    (hu : m.vert[u]? = some vu) (as : List arestas_t)
    (hrec : ∀ a ∈ as, ∃ b ∈ arestas_de m a.dest, b.dest = u)
    (l : prim_locais) (out : List saida_prim) :
    ∃ r, prim_arestas_laco m u as l out = .ok r := by
  cases hv : vu.visitado with
  | true =>
    obtain ⟨out1, h, _⟩ := prim_arestas_laco_visitado m u vu hu hv as l out
    exact ⟨_, h⟩
  | false =>
    obtain ⟨l1, h, _⟩ := prim_arestas_laco_scan m u vu hu hv as
      (fun a ha => by
        obtain ⟨b, hb, hbd⟩ := hrec a ha
        exact ⟨arestas_de_vivo m a.dest b hb, b, hb, hbd⟩) l out
    exact ⟨_, h⟩

/-- A turn of the outer loop of `prim_mst` at a vertex whose edges all have an
edge back can only stop in undefined behaviour, never in the reading of an
absent edge. -/
theorem prim_vertice_erro (u : Nat) (m m1 : Mem) (l : prim_locais) (out : List saida_prim)
    (e : erro_t) (hrec : ∀ a ∈ arestas_de m u, ∃ b ∈ arestas_de m a.dest, b.dest = u)
    (h : prim_vertice u m l out = (.error e, m1)) : e = .indefinido := by
  unfold prim_vertice at h
  cases hu : m.vert[u]? with
  | none =>
    simp only [vertice_get_arestas, hu, Prod.mk.injEq, Except.error.injEq] at h
    exact h.1.symm
  | some vu =>
    have harestas : arestas_de m u = vu.arestas := by simp [arestas_de, hu]
    rw [harestas] at hrec
    obtain ⟨r, hr⟩ := prim_arestas_laco_total m u vu hu vu.arestas hrec
      (prim_locais.mk l.change l.adjacente l.id_aresta INFINITO) out
    obtain ⟨l1, out1⟩ := r
    simp only [vertice_get_arestas_some m u vu hu, hr] at h
    split at h
    · simp only [Prod.mk.injEq, Except.error.injEq] at h
      exact h.1.symm
    · split at h
      · split at h
        · split at h
          · rename_i e1 m2 hs
            simp only [Prod.mk.injEq, Except.error.injEq] at h
            rw [← h.1]
            exact vertice_set_visited_erro _ _ _ _ hs
          · split at h
            · simp at h
            · simp only [Prod.mk.injEq, Except.error.injEq] at h
              exact h.1.symm
        · simp only [Prod.mk.injEq, Except.error.injEq] at h
          exact h.1.symm
      · simp at h

theorem prim_vertices_laco_erro (vs : List Nat) :
    ∀ (m m1 : Mem) (l : prim_locais) (out : List saida_prim) (e : erro_t),
      (∀ p ∈ vs, ∀ a ∈ arestas_de m p, ∃ b ∈ arestas_de m a.dest, b.dest = p) →
      prim_vertices_laco vs m l out = (.error e, m1) → e = .indefinido := by
  induction vs with
  | nil =>
    intro m m1 l out e _ h
    simp [prim_vertices_laco] at h
  | cons u vs ih =>
    intro m m1 l out e hrec h
    simp only [prim_vertices_laco] at h
    have hmem := prim_vertice_arestas u m l out
    cases hp : prim_vertice u m l out with
    | mk r m2 =>
      rw [hp] at hmem
      simp only at hmem
      cases r with
      | error e1 =>
        simp only [hp, Prod.mk.injEq, Except.error.injEq] at h
        rw [← h.1]
        exact prim_vertice_erro u m m2 l out e1 (hrec u (List.mem_cons_self _ _)) hp
      | ok lo =>
        obtain ⟨l1, out1⟩ := lo
        simp only [hp] at h
        refine ih m2 m1 l1 out1 e ?_ h
        intro p hp1 a ha
        rw [hmem p] at ha
        obtain ⟨b, hb, hbd⟩ := hrec p (List.mem_cons_of_mem _ hp1) a ha
        exact ⟨b, by rw [hmem a.dest]; exact hb, hbd⟩

/-- C17: in a graph in which every edge has an edge back, the reciprocal lookup
of `prim_mst` finds an edge for every edge of the graph and the weight of what
it finds can be read, and `prim_mst` never stops in the reading of an absent
edge. Without the edge back it can: on the graph with the single edge 1 -> 2,
the lookup returns NULL and `prim_mst` stops reading the weight of that absent
edge. -/
theorem prim_mst_reciproca_presente (m : Mem) (gp : Nat) (g : grafo_t) (inicial : Int)
    (hg : m.grafos[gp]? = some g)
    (hrec : ∀ p ∈ g.vertices, ∀ a ∈ arestas_de m p, ∃ b ∈ arestas_de m a.dest, b.dest = p) :
    (∀ p ∈ g.vertices, ∀ a ∈ arestas_de m p,
      ∃ c w, procurar_adjacente m a.dest p = .ok (some (a.dest, c)) ∧
        aresta_get_peso m (some (a.dest, c)) = .ok w) ∧
    (prim_mst (some gp) inicial m).1 ≠ .error .aresta_invalida ∧
    (procurar_adjacente mem_mao_unica 1 0 = .ok none ∧
      prim_mst (some 0) inicial mem_mao_unica = (.error .aresta_invalida, mem_mao_unica)) := by
  refine ⟨?_, ?_, rfl, rfl⟩
  · intro p hp a ha
    obtain ⟨b, hb, hbd⟩ := hrec p hp a ha
    exact prim_reciproca_ok m p a (arestas_de_vivo m a.dest b hb) ⟨b, hb, hbd⟩
  · intro h
    unfold prim_mst at h
    simp only [hg] at h
    cases hl : prim_vertices_laco g.vertices m prim_locais_iniciais [] with
    | mk r m1 =>
      cases r with
      | error e =>
        have := prim_vertices_laco_erro g.vertices m m1 prim_locais_iniciais [] e hrec hl
        subst this
        simp [hl] at h
      | ok lo =>
        simp [hl] at h

theorem prim_mst_reciproca_presente_witness :
    mem_par.grafos[0]? = some { id := 0, vertices := [0, 1] } ∧
    (∀ p ∈ [0, 1], ∀ a ∈ arestas_de mem_par p, ∃ b ∈ arestas_de mem_par a.dest, b.dest = p) ∧
    ((∀ p ∈ [0, 1], ∀ a ∈ arestas_de mem_par p,
      ∃ c w, procurar_adjacente mem_par a.dest p = .ok (some (a.dest, c)) ∧
        aresta_get_peso mem_par (some (a.dest, c)) = .ok w) ∧
    (prim_mst (some 0) 1 mem_par).1 ≠ .error .aresta_invalida ∧
    (procurar_adjacente mem_mao_unica 1 0 = .ok none ∧
      prim_mst (some 0) 1 mem_mao_unica = (.error .aresta_invalida, mem_mao_unica))) :=
  ⟨rfl, by decide,
    prim_mst_reciproca_presente mem_par 0 { id := 0, vertices := [0, 1] } 1 rfl (by decide)⟩

/-! ### Order of the exported lines -/

theorem id_de_eq (m : Mem) (p : Nat) (i : Int) (h : vertice_get_id m p = .ok i) :
    id_de m p = i := by
  unfold vertice_get_id at h
  unfold id_de
  cases hv : m.vert[p]? with
  | none => simp [hv] at h
  | some v =>
    simp only [hv, Except.ok.injEq] at h
    exact h

theorem exportar_arestas_laco_ordem (m0 : Mem) (p : Nat) (idp : Int)
    (hidp : vertice_get_id m0 p = .ok idp)
    (hdest : ∀ a ∈ arestas_de m0 p, a.dest < m0.vert.length) :
    ∀ (n i : Nat), i + n = (arestas_de m0 p).length →
      ∀ (m : Mem) (file : List linha_dot), mesma_estrutura m0 m →
      ∃ file1 m1, exportar_arestas_laco p (List.range' i n) m file = (.ok file1, m1) ∧
        mesma_estrutura m0 m1 ∧
        ∃ extra, linhas_aresta file1 = linhas_aresta file ++ extra ∧
          List.Sublist extra (((arestas_de m0 p).drop i).map
            (fun a => (id_de m0 p, id_de m0 a.dest, a.peso))) := by
  intro n
  induction n with
  | zero =>
    intro i _ m file hm
    exact ⟨file, m, rfl, hm, [], by simp, List.nil_sublist _⟩
  | succ n ih =>
    intro i hi m file hm
    have hk : i < (arestas_de m0 p).length := by omega
    have ha0 : (arestas_de m0 p)[i]? = some ((arestas_de m0 p)[i]) :=
      List.getElem?_eq_getElem hk
    obtain ⟨idq, hidq⟩ := vertice_get_id_valido m0 ((arestas_de m0 p)[i]).dest
      (hdest _ (List.getElem?_mem ha0))
    obtain ⟨file1, m1, hrun, hm1, hcase⟩ :=
      exportar_no_arest_passo m0 m p i _ idp idq file hm ha0 hidp hidq
    obtain ⟨file2, m2, hrun2, hm2, extra, hextra, hsub⟩ := ih (i + 1) (by omega) m1 file1 hm1
    have hdrop : (arestas_de m0 p).drop i
        = (arestas_de m0 p)[i] :: (arestas_de m0 p).drop (i + 1) :=
      List.drop_eq_getElem_cons hk
    refine ⟨file2, m2, ?_, hm2, ?_⟩
    · rw [List.range'_succ]
      simp only [exportar_arestas_laco, hrun, hrun2]
    · rcases hcase with ⟨_, hfile, _⟩ | ⟨_, hfile, _⟩
      · refine ⟨extra, by rw [hextra, hfile], ?_⟩
        rw [hdrop, List.map_cons]
        exact List.Sublist.cons _ hsub
      · refine ⟨(idp, idq, ((arestas_de m0 p)[i]).peso) :: extra, ?_, ?_⟩
        · rw [hextra, hfile, linhas_aresta_append]
          simp [linhas_aresta]
        · rw [hdrop, List.map_cons]
          simp only [id_de_eq m0 p idp hidp, id_de_eq m0 _ idq hidq] at hsub ⊢
          exact List.Sublist.cons₂ _ hsub

theorem exportar_vertices_laco_ordem (m0 : Mem) :
    ∀ (vs : List Nat), (∀ p ∈ vs, p < m0.vert.length) →
      (∀ p ∈ vs, ∀ a ∈ arestas_de m0 p, a.dest < m0.vert.length) →
      ∀ (m : Mem) (file : List linha_dot), mesma_estrutura m0 m →
      ∃ file1 m1, exportar_vertices_laco vs m file = (.ok file1, m1) ∧
        mesma_estrutura m0 m1 ∧
        ∃ extra, linhas_aresta file1 = linhas_aresta file ++ extra ∧
          List.Sublist extra (linhas_das_arestas m0 vs) := by
  intro vs
  induction vs with
  | nil =>
    intro _ _ m file hm
    exact ⟨file, m, rfl, hm, [], by simp, List.nil_sublist _⟩
  | cons p vs ih =>
    intro hv hdest m file hm
    obtain ⟨idp, hidp⟩ := vertice_get_id_valido m0 p (hv p (List.mem_cons_self _ _))
    have hidp1 : vertice_get_id m p = .ok idp := by
      rw [mesma_estrutura_id m0 m hm p]
      exact hidp
    have hget := vertice_get_arestas_eq m p idp hidp1
    have hlen := mesma_estrutura_arestas_length m0 m hm p
    obtain ⟨file1, m1, hrun, hm1, extra1, hextra1, hsub1⟩ :=
      exportar_arestas_laco_ordem m0 p idp hidp (hdest p (List.mem_cons_self _ _))
        (arestas_de m0 p).length 0 (by omega) m file hm
    obtain ⟨file2, m2, hrun2, hm2, extra2, hextra2, hsub2⟩ :=
      ih (fun q hq => hv q (List.mem_cons_of_mem _ hq))
        (fun q hq => hdest q (List.mem_cons_of_mem _ hq)) m1 file1 hm1
    refine ⟨file2, m2, ?_, hm2, extra1 ++ extra2, ?_, ?_⟩
    · simp only [exportar_vertices_laco, hget, hlen, List.range_eq_range', hrun, hrun2]
    · rw [hextra2, hextra1, List.append_assoc]
    · simp only [linhas_das_arestas, List.flatMap_cons]
      rw [List.drop_zero] at hsub1
      exact List.Sublist.append hsub1 hsub2

/-- C14: on a graph without dangling pointers `exportar_grafo_dot` returns, and
the edge lines of the file, in the order written, are a subsequence of the
lines (source id, target id, weight) of the edges of the graph taken vertex by
vertex in the order of the vertex list and, for each vertex, in the order of
its adjacency list. -/
theorem exportar_linhas_em_ordem (m : Mem) (gp : Nat) (g : grafo_t) (f : String)
    (hg : m.grafos[gp]? = some g)
    (hv : ∀ p ∈ g.vertices, p < m.vert.length)
    (hdest : ∀ p ∈ g.vertices, ∀ a ∈ arestas_de m p, a.dest < m.vert.length) :
    ∃ file m1, exportar_grafo_dot (some f) (some gp) true m = (.ok file, m1) ∧
      List.Sublist (linhas_aresta file) (linhas_das_arestas m g.vertices) := by
  obtain ⟨file1, m1, hrun, _, extra, hextra, hsub⟩ :=
    exportar_vertices_laco_ordem m g.vertices hv hdest m [.abre] (mesma_estrutura_refl m)
  refine ⟨file1 ++ [.fecha], m1, ?_, ?_⟩
  · simp only [exportar_grafo_dot, hg, hrun]
    simp
  · rw [linhas_aresta_append, hextra]
    simpa [linhas_aresta] using hsub

theorem exportar_linhas_em_ordem_witness :
    mem_fixture.grafos[0]? = some { id := 0, vertices := [0, 1, 2, 3] } ∧
    (∀ p ∈ [0, 1, 2, 3], p < mem_fixture.vert.length) ∧
    (∀ p ∈ [0, 1, 2, 3], ∀ a ∈ arestas_de mem_fixture p, a.dest < mem_fixture.vert.length) ∧
    linhas_das_arestas mem_fixture [0, 1, 2, 3]
      = [(1, 2, 1), (1, 4, 4), (1, 3, 3), (2, 1, 1), (2, 3, 2), (3, 2, 2), (3, 4, 1), (3, 1, 3),
          (4, 3, 1), (4, 1, 4)] ∧
    ∃ file m1, exportar_grafo_dot (some "g.dot") (some 0) true mem_fixture = (.ok file, m1) ∧
      List.Sublist (linhas_aresta file) (linhas_das_arestas mem_fixture [0, 1, 2, 3]) :=
  ⟨rfl, by decide, by decide, by decide,
    exportar_linhas_em_ordem mem_fixture 0 { id := 0, vertices := [0, 1, 2, 3] } "g.dot" rfl
      (by decide) (by decide)⟩

/-! ### A second export -/

theorem aresta_set_status_ok_inv (x : Option (Nat × Nat)) (st : status_aresta_t) (m m1 : Mem)
    (u : Unit) (h : aresta_set_status x st m = (.ok u, m1)) :
    mesma_estrutura m m1 ∧
      ∀ t, status_de m1 t = if some t = x then some st else status_de m t := by
  cases x with
  | none =>
    simp only [aresta_set_status, Prod.mk.injEq] at h
    rw [← h.2]
    exact ⟨mesma_estrutura_refl m, fun t => by simp⟩
  | some pk =>
    obtain ⟨p, k⟩ := pk
    cases ha : (arestas_de m p)[k]? with
    | none =>
      exfalso
      unfold arestas_de at ha
      unfold aresta_set_status at h
      cases hv : m.vert[p]? with
      | none => simp [hv] at h
      | some v =>
        simp only [hv] at ha
        simp [hv, ha] at h
    | some a =>
      obtain ⟨m2, hset, hm, hst⟩ := aresta_set_status_some m p k a st ha
      rw [hset] at h
      simp only [Prod.mk.injEq] at h
      rw [← h.2]
      refine ⟨hm, ?_⟩
      intro t
      rw [hst t]
      by_cases ht : t = (p, k)
      · simp [ht]
      · have : ¬ (some t = some (p, k)) := fun hc => ht (Option.some.inj hc)
        simp [ht]

theorem aresta_get_status_ok_inv (m : Mem) (p k : Nat) (st : status_aresta_t)
    (h : aresta_get_status m (p, k) = .ok st) : status_de m (p, k) = some st := by
  unfold aresta_get_status at h
  rw [obter_aresta_eq] at h
  unfold status_de
  cases ha : (arestas_de m p)[k]? with
  | none => simp [ha] at h
  | some a =>
    simp only [ha, Except.ok.injEq] at h
    simp [h]

/-- One turn of the inner loop of `exportar_grafo_dot` that returns leaves the
edge of the node marked, keeps every mark, and keeps the structure. -/
theorem exportar_no_arest_ok_inv (p k : Nat) (m m1 : Mem) (file file1 : List linha_dot)
    (h : exportar_no_arest p k m file = (.ok file1, m1)) :
    mesma_estrutura m m1 ∧ status_de m1 (p, k) = some .EXPORTADA ∧
      ∀ t, status_de m t = some .EXPORTADA → status_de m1 t = some .EXPORTADA := by
  unfold exportar_no_arest at h
  cases hs : aresta_get_status m (p, k) with
  | error e => simp [hs] at h
  | ok st =>
    have hst := aresta_get_status_ok_inv m p k st hs
    cases st with
    | EXPORTADA =>
      simp only [hs, Prod.mk.injEq] at h
      rw [← h.2]
      exact ⟨mesma_estrutura_refl m, hst, fun _ ht => ht⟩
    | NAO_EXPORTADA =>
      simp only [hs] at h
      cases hset1 : aresta_set_status (some (p, k)) .EXPORTADA m with
      | mk r1 ma =>
        cases r1 with
        | error e => simp [hset1] at h
        | ok u1 =>
          obtain ⟨hma, hsta⟩ := aresta_set_status_ok_inv _ _ m ma u1 hset1
          simp only [hset1] at h
          cases hadj : aresta_get_adjacente ma (p, k) with
          | error e => simp [hadj] at h
          | ok adjacente =>
            simp only [hadj] at h
            cases hproc : procurar_adjacente ma adjacente p with
            | error e => simp [hproc] at h
            | ok contra =>
              simp only [hproc] at h
              cases hset2 : aresta_set_status contra .EXPORTADA ma with
              | mk r2 mb =>
                cases r2 with
                | error e => simp [hset2] at h
                | ok u2 =>
                  obtain ⟨hmb, hstb⟩ := aresta_set_status_ok_inv _ _ ma mb u2 hset2
                  simp only [hset2] at h
                  have hm1 : m1 = mb := by
                    cases hw : aresta_get_peso mb (some (p, k)) with
                    | error e => simp [hw] at h
                    | ok w =>
                      simp only [hw] at h
                      cases hi1 : vertice_get_id mb p with
                      | error e => simp [hi1] at h
                      | ok i1 =>
                        simp only [hi1] at h
                        cases hi2 : vertice_get_id mb adjacente with
                        | error e => simp [hi2] at h
                        | ok i2 =>
                          simp only [hi2, Prod.mk.injEq] at h
                          exact h.2.symm
                  subst hm1
                  have hmono : ∀ t, status_de ma t = some .EXPORTADA →
                      status_de m1 t = some .EXPORTADA := by
                    intro t ht
                    rw [hstb t]
                    split
                    · rfl
                    · exact ht
                  refine ⟨mesma_estrutura_trans m ma m1 hma hmb, ?_, ?_⟩
                  · apply hmono
                    rw [hsta (p, k)]
                    simp
                  · intro t ht
                    apply hmono
                    rw [hsta t]
                    split
                    · rfl
                    · exact ht

theorem exportar_arestas_laco_ok_inv (p : Nat) :
    ∀ (ks : List Nat) (m m1 : Mem) (file file1 : List linha_dot),
      exportar_arestas_laco p ks m file = (.ok file1, m1) →
      mesma_estrutura m m1 ∧ (∀ k ∈ ks, status_de m1 (p, k) = some .EXPORTADA) ∧
        ∀ t, status_de m t = some .EXPORTADA → status_de m1 t = some .EXPORTADA := by
  intro ks
  induction ks with
  | nil =>
    intro m m1 file file1 h
    simp only [exportar_arestas_laco, Prod.mk.injEq] at h
    rw [← h.2]
    exact ⟨mesma_estrutura_refl m, by simp, fun _ ht => ht⟩
  | cons k ks ih =>
    intro m m1 file file1 h
    simp only [exportar_arestas_laco] at h
    cases hs : exportar_no_arest p k m file with
    | mk r ma =>
      cases r with
      | error e => simp [hs] at h
      | ok fa =>
        simp only [hs] at h
        obtain ⟨h1, h2, h3⟩ := exportar_no_arest_ok_inv p k m ma file fa hs
        obtain ⟨h4, h5, h6⟩ := ih ma m1 fa file1 h
        refine ⟨mesma_estrutura_trans m ma m1 h1 h4, ?_, fun t ht => h6 t (h3 t ht)⟩
        intro j hj
        rcases List.mem_cons.mp hj with hj | hj
        · rw [hj]
          exact h6 _ h2
        · exact h5 j hj

theorem exportar_vertices_laco_ok_inv :
    ∀ (vs : List Nat) (m m1 : Mem) (file file1 : List linha_dot),
      exportar_vertices_laco vs m file = (.ok file1, m1) →
      mesma_estrutura m m1 ∧
        (∀ p ∈ vs, p < m.vert.length ∧
          ∀ k, k < (arestas_de m p).length → status_de m1 (p, k) = some .EXPORTADA) ∧
        ∀ t, status_de m t = some .EXPORTADA → status_de m1 t = some .EXPORTADA := by
  intro vs
  induction vs with
  | nil =>
    intro m m1 file file1 h
    simp only [exportar_vertices_laco, Prod.mk.injEq] at h
    rw [← h.2]
    exact ⟨mesma_estrutura_refl m, by simp, fun _ ht => ht⟩
  | cons p vs ih =>
    intro m m1 file file1 h
    simp only [exportar_vertices_laco] at h
    cases hv : m.vert[p]? with
    | none => simp [vertice_get_arestas, hv] at h
    | some v =>
      have hlt : p < m.vert.length := (List.getElem?_eq_some.mp hv).1
      have harestas : arestas_de m p = v.arestas := by simp [arestas_de, hv]
      simp only [vertice_get_arestas_some m p v hv] at h
      cases hs : exportar_arestas_laco p (List.range v.arestas.length) m file with
      | mk r ma =>
        cases r with
        | error e => simp [hs] at h
        | ok fa =>
          simp only [hs] at h
          obtain ⟨h1, h2, h3⟩ := exportar_arestas_laco_ok_inv p _ m ma file fa hs
          obtain ⟨h4, h5, h6⟩ := ih ma m1 fa file1 h
          refine ⟨mesma_estrutura_trans m ma m1 h1 h4, ?_, fun t ht => h6 t (h3 t ht)⟩
          intro q hq
          rcases List.mem_cons.mp hq with hq | hq
          · rw [hq]
            refine ⟨hlt, ?_⟩
            intro k hk
            rw [harestas] at hk
            exact h6 _ (h2 k (List.mem_range.mpr hk))
          · obtain ⟨h7, h8⟩ := h5 q hq
            refine ⟨by rw [← mesma_estrutura_length m ma h1]; exact h7, ?_⟩
            intro k hk
            rw [← mesma_estrutura_arestas_length m ma h1 q] at hk
            exact h8 k hk

theorem exportar_arestas_laco_marcadas (p : Nat) (m : Mem) (file : List linha_dot) :
    ∀ (ks : List Nat), (∀ k ∈ ks, aresta_get_status m (p, k) = .ok .EXPORTADA) →
      exportar_arestas_laco p ks m file = (.ok file, m) := by
  intro ks
  induction ks with
  | nil => intro _; rfl
  | cons k ks ih =>
    intro h
    have hk := h k (List.mem_cons_self _ _)
    simp only [exportar_arestas_laco, exportar_no_arest, hk]
    exact ih (fun j hj => h j (List.mem_cons_of_mem _ hj))

theorem aresta_get_status_of_status (m : Mem) (p k : Nat) (st : status_aresta_t)
    (h : status_de m (p, k) = some st) : aresta_get_status m (p, k) = .ok st := by
  unfold status_de at h
  unfold aresta_get_status
  rw [obter_aresta_eq]
  cases ha : (arestas_de m p)[k]? with
  | none => simp [ha] at h
  | some a =>
    simp only [ha, Option.map_some', Option.some.injEq] at h
    simp [h]

theorem exportar_vertices_laco_marcadas (m : Mem) (file : List linha_dot) :
    ∀ (vs : List Nat),
      (∀ p ∈ vs, p < m.vert.length ∧
        ∀ k, k < (arestas_de m p).length → status_de m (p, k) = some .EXPORTADA) →
      exportar_vertices_laco vs m file = (.ok file, m) := by
  intro vs
  induction vs with
  | nil => intro _; rfl
  | cons p vs ih =>
    intro h
    obtain ⟨hlt, hst⟩ := h p (List.mem_cons_self _ _)
    have hv : m.vert[p]? = some (m.vert[p]) := List.getElem?_eq_getElem hlt
    have harestas : arestas_de m p = (m.vert[p]).arestas := by simp [arestas_de, hv]
    have hin := exportar_arestas_laco_marcadas p m file
      (List.range (m.vert[p]).arestas.length) (fun k hk => by
        apply aresta_get_status_of_status
        apply hst
        rw [harestas]
        exact List.mem_range.mp hk)
    simp only [exportar_vertices_laco, vertice_get_arestas_some m p _ hv, hin]
    exact ih (fun q hq => h q (List.mem_cons_of_mem _ hq))

/-- C15: when `exportar_grafo_dot` returns, every edge of every vertex of the
graph is marked exported in the heap it leaves, and the same call on that heap
writes the wrapper only, "graph {" and "}", and changes nothing. -/
theorem exportar_nao_repetivel (filename : Option String) (grafo : Option Nat)
    (fopen_ok : Bool) (m m1 : Mem) (file : List linha_dot)
    (h : exportar_grafo_dot filename grafo fopen_ok m = (.ok file, m1)) :
    (∃ gp g, grafo = some gp ∧ m1.grafos[gp]? = some g ∧
      ∀ p ∈ g.vertices, ∀ a ∈ arestas_de m1 p, a.status = .EXPORTADA) ∧
    exportar_grafo_dot filename grafo fopen_ok m1 = (.ok [.abre, .fecha], m1) := by
  unfold exportar_grafo_dot at h
  cases filename with
  | none => simp at h
  | some f =>
    cases grafo with
    | none => simp at h
    | some gp =>
      simp only at h
      cases fopen_ok with
      | false => simp at h
      | true =>
        simp only [Bool.true_eq_false, if_false] at h
        cases hg : m.grafos[gp]? with
        | none => simp [hg] at h
        | some g =>
          simp only [hg] at h
          cases hl : exportar_vertices_laco g.vertices m [.abre] with
          | mk r ma =>
            cases r with
            | error e => simp [hl] at h
            | ok fa =>
              simp only [hl, Prod.mk.injEq] at h
              obtain ⟨_, hmm⟩ := h
              subst hmm
              obtain ⟨hm, hmarc, _⟩ := exportar_vertices_laco_ok_inv g.vertices m ma [.abre] fa hl
              have hg1 : ma.grafos[gp]? = some g := by
                rw [hm.1]
                exact hg
              have hmarc1 : ∀ p ∈ g.vertices, p < ma.vert.length ∧
                  ∀ k, k < (arestas_de ma p).length →
                    status_de ma (p, k) = some .EXPORTADA := by
                intro p hp
                obtain ⟨h1, h2⟩ := hmarc p hp
                refine ⟨by rw [mesma_estrutura_length m ma hm]; exact h1, ?_⟩
                intro k hk
                rw [mesma_estrutura_arestas_length m ma hm p] at hk
                exact h2 k hk
              refine ⟨⟨gp, g, rfl, hg1, ?_⟩, ?_⟩
              · intro p hp a ha
                obtain ⟨k, hk⟩ := List.mem_iff_getElem?.mp ha
                have hklt : k < (arestas_de ma p).length := (List.getElem?_eq_some.mp hk).1
                have := (hmarc1 p hp).2 k hklt
                rw [status_de_eq ma p k a hk] at this
                exact Option.some.inj this
              · simp only [exportar_grafo_dot, Bool.true_eq_false, if_false, hg1,
                  exportar_vertices_laco_marcadas ma [.abre] g.vertices hmarc1]
                rfl

theorem exportar_nao_repetivel_witness :
    exportar_grafo_dot (some "g.dot") (some 0) true mem_par
      = (.ok [.abre, .aresta 1 2 5, .fecha],
          (exportar_grafo_dot (some "g.dot") (some 0) true mem_par).2) ∧
    ((∃ gp g, some 0 = some gp ∧
      (exportar_grafo_dot (some "g.dot") (some 0) true mem_par).2.grafos[gp]? = some g ∧
      ∀ p ∈ g.vertices,
        ∀ a ∈ arestas_de (exportar_grafo_dot (some "g.dot") (some 0) true mem_par).2 p,
          a.status = .EXPORTADA) ∧
    exportar_grafo_dot (some "g.dot") (some 0) true
        (exportar_grafo_dot (some "g.dot") (some 0) true mem_par).2
      = (.ok [.abre, .fecha], (exportar_grafo_dot (some "g.dot") (some 0) true mem_par).2)) :=
  ⟨rfl, exportar_nao_repetivel (some "g.dot") (some 0) true mem_par _ _ rfl⟩

/-! ### Export of edges without an edge back -/

theorem countP_range_congr (f f1 : Nat → Bool) (n : Nat) (h : ∀ j, j < n → f1 j = f j) :
    (List.range n).countP f1 = (List.range n).countP f := by
  apply List.countP_congr
  intro j hj
  rw [h j (List.mem_range.mp hj)]

/-- Counting over positions: switching one position from true to false takes
one off the count. -/
theorem countP_range_troca (f f1 : Nat → Bool) (n k : Nat) (hk : k < n)
    (hf : f k = true) (hf1 : f1 k = false) (hout : ∀ j, j ≠ k → f1 j = f j) :
    (List.range n).countP f1 + 1 = (List.range n).countP f := by
  induction n with
  | zero => omega
  | succ n ih =>
    rw [List.range_succ, List.countP_append, List.countP_append, List.countP_singleton,
      List.countP_singleton]
    by_cases hkn : k = n
    · subst hkn
      rw [countP_range_congr f f1 k (fun j hj => hout j (by omega)), hf, hf1]
      simp
    · rw [hout n (fun h => hkn h.symm)]
      have := ih (by omega)
      omega

/-- Counting the elements of a list is counting its positions. -/
theorem countP_posicoes {α : Type} (P : α → Bool) (l : List α) :
    l.countP P = (List.range l.length).countP (na_posicao P l) := by
  induction l using List.reverseRecOn with
  | nil => rfl
  | append_singleton l x ih =>
    rw [List.countP_append, List.countP_singleton, List.length_append, List.length_singleton,
      List.range_succ, List.countP_append, List.countP_singleton, ih]
    congr 1
    · apply countP_range_congr
      intro j hj
      unfold na_posicao
      rw [List.getElem?_append_left hj]
    · simp [na_posicao]

/-- A list with exactly one position that passes the test counts one. -/
theorem countP_unico {α : Type} (P : α → Bool) (l : List α) (k : Nat) (a : α)
    (ha : l[k]? = some a) (hP : P a = true)
    (hun : ∀ (j : Nat) (b : α), l[j]? = some b → P b = true → j = k) :
    l.countP P = 1 := by
  rw [countP_posicoes]
  have hk : k < l.length := (List.getElem?_eq_some.mp ha).1
  have htroca := countP_range_troca (na_posicao P l) (fun _ => false) l.length k hk
    (by simp [na_posicao, ha, hP]) rfl
    (by
      intro j hj
      unfold na_posicao
      cases hb : l[j]? with
      | none => rfl
      | some b =>
        simp only
        cases hPb : P b with
        | false => rfl
        | true => exact absurd (hun j b hb hPb) hj)
  rw [← htroca]
  simp

theorem exportar_no_arest_mao_unica (m0 : Mem) (vs : List Nat) (u v : Nat) (w idu idv : Int)
    (hc : cenario_mao_unica m0 vs u v idu idv)
    (p k : Nat) (a0 : arestas_t) (hp : p ∈ vs) (ha0 : (arestas_de m0 p)[k]? = some a0)
    (m : Mem) (file : List linha_dot) (hf : fase_mao_unica m0 u v w idu idv m file) :
    ∃ file1 m1, exportar_no_arest p k m file = (.ok file1, m1) ∧
      fase_mao_unica m0 u v w idu idv m1 file1 := by
  obtain ⟨idp, hidp⟩ := vertice_get_id_valido m0 p (hc.vivos p hp)
  have hqvs : a0.dest ∈ vs := hc.alvos p hp a0 (List.getElem?_mem ha0)
  obtain ⟨idq, hidq⟩ := vertice_get_id_valido m0 a0.dest (hc.vivos _ hqvs)
  obtain ⟨hm, hsum⟩ := hf
  obtain ⟨file1, m1, hrun, hm1, hcase⟩ :=
    exportar_no_arest_passo m0 m p k a0 idp idq file hm ha0 hidp hidq
  refine ⟨file1, m1, hrun, ?_⟩
  rcases hcase with ⟨_, hfile, hmm⟩ | ⟨hst, hfile, hstat⟩
  · rw [hfile, hmm]
    exact ⟨hm, hsum⟩
  · refine ⟨hm1, ?_⟩
    rw [hfile, linhas_aresta_append]
    simp only [linhas_aresta, List.count_append, List.count_singleton]
    by_cases htw : p = u ∧ a0.dest = v ∧ a0.peso = w
    · obtain ⟨hpu, hdv, hpw⟩ := htw
      subst hpu
      have e1 : idp = idu := Except.ok.inj (hidp.symm.trans hc.id_origem)
      have e2 : idq = idv := by
        rw [hdv] at hidq
        exact Except.ok.inj (hidq.symm.trans hc.id_destino)
      have hnone : procurar_adjacente_laco p (arestas_de m0 a0.dest) 0 = none := by
        rw [hdv]
        exact procurar_adjacente_laco_none p _ 0 hc.sem_volta
      have hk : k < (arestas_de m0 p).length := (List.getElem?_eq_some.mp ha0).1
      have htroca := countP_range_troca (pendente m0 m p v w) (pendente m0 m1 p v w)
        (arestas_de m0 p).length k hk
        (by simp [pendente, ha0, hdv, hpw, hst])
        (by
          have : status_de m1 (p, k) = some .EXPORTADA := by
            rw [hstat (p, k)]
            simp
          simp [pendente, ha0, this])
        (by
          intro j hj
          have : status_de m1 (p, j) = status_de m (p, j) := by
            rw [hstat (p, j), hnone]
            simp [hj]
          simp only [pendente, this])
      have hline : ((idp, idq, a0.peso) == (idu, idv, w)) = true := by
        simp [e1, e2, hpw]
      rw [hline]
      simp only [if_true]
      omega
    · have hline : ((idp, idq, a0.peso) == (idu, idv, w)) = false := by
        apply Bool.eq_false_iff.mpr
        intro h
        simp only [beq_iff_eq, Prod.mk.injEq] at h
        obtain ⟨h1, h2, h3⟩ := h
        have hpu : p = u := hc.ids p hp u hc.origem (by rw [hidp, hc.id_origem, h1])
        have hdv : a0.dest = v :=
          hc.ids _ hqvs v hc.destino (by rw [hidq, hc.id_destino, h2])
        exact htw ⟨hpu, hdv, h3⟩
      have hsame : (List.range (arestas_de m0 u).length).countP (pendente m0 m1 u v w)
          = (List.range (arestas_de m0 u).length).countP (pendente m0 m u v w) := by
        apply countP_range_congr
        intro j _
        unfold pendente
        cases hb : (arestas_de m0 u)[j]? with
        | none => rfl
        | some b =>
          simp only
          by_cases hG : b.dest = v ∧ b.peso = w
          · have hstj : status_de m1 (u, j) = status_de m (u, j) := by
              rw [hstat (u, j)]
              have h1 : (u, j) ≠ (p, k) := by
                intro h
                simp only [Prod.mk.injEq] at h
                obtain ⟨hup, hjk⟩ := h
                subst hup
                subst hjk
                rw [ha0] at hb
                have : a0 = b := Option.some.inj hb
                subst this
                exact htw ⟨rfl, hG.1, hG.2⟩
              have h2 : ¬ (some (u, j) = (procurar_adjacente_laco p (arestas_de m0 a0.dest) 0).map
                  (fun c => (a0.dest, c))) := by
                intro h
                cases hcc : procurar_adjacente_laco p (arestas_de m0 a0.dest) 0 with
                | none => simp [hcc] at h
                | some c =>
                  simp only [hcc, Option.map_some', Option.some.injEq, Prod.mk.injEq] at h
                  obtain ⟨hua, hjc⟩ := h
                  obtain ⟨_, b1, hb1, hb1d, _⟩ := procurar_adjacente_laco_some p _ 0 c hcc
                  simp only [Nat.sub_zero] at hb1
                  rw [← hua, ← hjc, hb] at hb1
                  have : b = b1 := Option.some.inj hb1
                  subst this
                  have hpv : p = v := by rw [← hb1d, hG.1]
                  subst hpv
                  exact hc.sem_volta a0 (List.getElem?_mem ha0) hua.symm
              simp only [h1, h2, or_self, if_false]
            rw [hstj]
          · simp [hG]
      rw [hline, hsame]
      simpa using hsum

theorem exportar_arestas_laco_mao_unica (m0 : Mem) (vs : List Nat) (u v : Nat)
    (w idu idv : Int) (hc : cenario_mao_unica m0 vs u v idu idv) (p : Nat) (hp : p ∈ vs) :
    ∀ (ks : List Nat), (∀ k ∈ ks, k < (arestas_de m0 p).length) →
      ∀ (m : Mem) (file : List linha_dot), fase_mao_unica m0 u v w idu idv m file →
      ∃ file1 m1, exportar_arestas_laco p ks m file = (.ok file1, m1) ∧
        fase_mao_unica m0 u v w idu idv m1 file1 := by
  intro ks
  induction ks with
  | nil =>
    intro _ m file hf
    exact ⟨file, m, rfl, hf⟩
  | cons k ks ih =>
    intro hks m file hf
    have hk : k < (arestas_de m0 p).length := hks k (List.mem_cons_self _ _)
    obtain ⟨file1, m1, hrun, hf1⟩ := exportar_no_arest_mao_unica m0 vs u v w idu idv hc p k _ hp
      (List.getElem?_eq_getElem hk) m file hf
    obtain ⟨file2, m2, hrun2, hf2⟩ :=
      ih (fun j hj => hks j (List.mem_cons_of_mem _ hj)) m1 file1 hf1
    exact ⟨file2, m2, by simp only [exportar_arestas_laco, hrun, hrun2], hf2⟩

theorem exportar_vertices_laco_mao_unica (m0 : Mem) (vs : List Nat) (u v : Nat)
    (w idu idv : Int) (hc : cenario_mao_unica m0 vs u v idu idv) :
    ∀ (vs1 : List Nat), (∀ p ∈ vs1, p ∈ vs) →
      ∀ (m : Mem) (file : List linha_dot), fase_mao_unica m0 u v w idu idv m file →
      ∃ file1 m1, exportar_vertices_laco vs1 m file = (.ok file1, m1) ∧
        fase_mao_unica m0 u v w idu idv m1 file1 := by
  intro vs1
  induction vs1 with
  | nil =>
    intro _ m file hf
    exact ⟨file, m, rfl, hf⟩
  | cons p vs1 ih =>
    intro hsub m file hf
    have hp : p ∈ vs := hsub p (List.mem_cons_self _ _)
    obtain ⟨idp, hidp⟩ := vertice_get_id_valido m0 p (hc.vivos p hp)
    have hidp1 : vertice_get_id m p = .ok idp := by
      rw [mesma_estrutura_id m0 m hf.1 p]
      exact hidp
    have hget := vertice_get_arestas_eq m p idp hidp1
    have hlen := mesma_estrutura_arestas_length m0 m hf.1 p
    obtain ⟨file1, m1, hrun, hf1⟩ := exportar_arestas_laco_mao_unica m0 vs u v w idu idv hc p hp
      (List.range (arestas_de m p).length)
      (fun k hk => by rw [← hlen]; exact List.mem_range.mp hk) m file hf
    obtain ⟨file2, m2, hrun2, hf2⟩ :=
      ih (fun q hq => hsub q (List.mem_cons_of_mem _ hq)) m1 file1 hf1
    exact ⟨file2, m2, by simp only [exportar_vertices_laco, hget, hrun, hrun2], hf2⟩

/-- On a position of the adjacency list of `u`, `pendente` in the starting heap
says: the edge goes to `v` with weight `w` and is unmarked. -/
theorem pendente_inicial (m : Mem) (u v : Nat) (w : Int) :
    (List.range (arestas_de m u).length).countP (pendente m m u v w)
      = (arestas_de m u).countP
          (fun b => decide (b.dest = v ∧ b.peso = w ∧ b.status = .NAO_EXPORTADA)) := by
  rw [countP_posicoes _ (arestas_de m u)]
  apply countP_range_congr
  intro j _
  unfold na_posicao pendente status_de
  cases hb : (arestas_de m u)[j]? with
  | none => rfl
  | some b =>
    simp only [Option.map_some', Option.some.injEq]
    by_cases h1 : b.dest = v <;> by_cases h2 : b.peso = w <;>
      by_cases h3 : b.status = .NAO_EXPORTADA <;> simp [h1, h2, h3]

/-- C8 (amended): in a graph without dangling pointers, whose edges point into
the graph and whose vertex ids are pairwise different, take an edge from `u`
to `v`, of weight `w` and not yet marked exported, while `v` has no edge to
`u`. The reciprocal lookup finds no edge, `exportar_grafo_dot` returns all the
same, and the lines "u -- v [label = w]" of the file are exactly as many as the
unmarked edges from `u` to `v` of weight `w`: one line for each such edge, at
least one, and exactly one when the edge is the only such edge. -/
theorem exportar_sem_reciproca (m : Mem) (gp : Nat) (g : grafo_t) (f : String)
    (u k : Nat) (a : arestas_t) (idu idv : Int)
    (hg : m.grafos[gp]? = some g)
    (hv : ∀ p ∈ g.vertices, p < m.vert.length)
    (hdest : ∀ p ∈ g.vertices, ∀ b ∈ arestas_de m p, b.dest ∈ g.vertices)
    (hids : ∀ p ∈ g.vertices, ∀ q ∈ g.vertices, vertice_get_id m p = vertice_get_id m q → p = q)
    (hu : u ∈ g.vertices) (ha : (arestas_de m u)[k]? = some a)
    (hst : a.status = .NAO_EXPORTADA)
    (hsem : ∀ b ∈ arestas_de m a.dest, b.dest ≠ u)
    (hidu : vertice_get_id m u = .ok idu) (hidv : vertice_get_id m a.dest = .ok idv) :
    procurar_adjacente m a.dest u = .ok none ∧
    ∃ file m1, exportar_grafo_dot (some f) (some gp) true m = (.ok file, m1) ∧
      (linhas_aresta file).count (idu, idv, a.peso)
        = (arestas_de m u).countP
            (fun b => decide (b.dest = a.dest ∧ b.peso = a.peso ∧ b.status = .NAO_EXPORTADA)) ∧
      0 < (linhas_aresta file).count (idu, idv, a.peso) ∧
      ((∀ (j : Nat) (b : arestas_t), (arestas_de m u)[j]? = some b → b.dest = a.dest →
          b.peso = a.peso → b.status = .NAO_EXPORTADA → j = k) →
        (linhas_aresta file).count (idu, idv, a.peso) = 1) := by
  have hamem : a ∈ arestas_de m u := List.getElem?_mem ha
  have hav : a.dest ∈ g.vertices := hdest u hu a hamem
  refine ⟨?_, ?_⟩
  · rw [procurar_adjacente_valido m a.dest u (hv _ hav),
      procurar_adjacente_laco_none u _ 0 hsem]
    rfl
  · have hc : cenario_mao_unica m g.vertices u a.dest idu idv :=
      ⟨hv, hdest, hids, hu, hav, hidu, hidv, hsem⟩
    have hf0 : fase_mao_unica m u a.dest a.peso idu idv m [.abre] :=
      ⟨mesma_estrutura_refl m, by simp [linhas_aresta]⟩
    obtain ⟨file1, m1, hrun, hm1, hsum⟩ := exportar_vertices_laco_mao_unica m g.vertices u a.dest
      a.peso idu idv hc g.vertices (fun _ h => h) m [.abre] hf0
    obtain ⟨_, hmarc, _⟩ := exportar_vertices_laco_ok_inv g.vertices m m1 [.abre] file1 hrun
    have hzero : (List.range (arestas_de m u).length).countP (pendente m m1 u a.dest a.peso)
        = 0 := by
      rw [List.countP_eq_zero]
      intro j hj
      have := (hmarc u hu).2 j (List.mem_range.mp hj)
      unfold pendente
      cases (arestas_de m u)[j]? with
      | none => simp
      | some b => simp [this]
    rw [hzero, Nat.add_zero, pendente_inicial] at hsum
    have hlin : linhas_aresta (file1 ++ [.fecha]) = linhas_aresta file1 := by
      rw [linhas_aresta_append]
      simp [linhas_aresta]
    have hpos : 0 < (arestas_de m u).countP
        (fun b => decide (b.dest = a.dest ∧ b.peso = a.peso ∧ b.status = .NAO_EXPORTADA)) := by
      rw [List.countP_pos_iff]
      exact ⟨a, hamem, by simp [hst]⟩
    refine ⟨file1 ++ [.fecha], m1, ?_, ?_, ?_, ?_⟩
    · simp only [exportar_grafo_dot, hg, hrun]
      simp
    · rw [hlin]
      exact hsum
    · rw [hlin, hsum]
      exact hpos
    · intro hunica
      rw [hlin, hsum]
      exact countP_unico _ (arestas_de m u) k a ha (by simp [hst])
        (fun j b hb hP => by
          simp only [decide_eq_true_eq] at hP
          exact hunica j b hb hP.1 hP.2.1 hP.2.2)

theorem exportar_sem_reciproca_witness :
    mem_duas_maos.grafos[0]? = some { id := 0, vertices := [0, 1] } ∧
    (∀ p ∈ [0, 1], p < mem_duas_maos.vert.length) ∧
    (∀ p ∈ [0, 1], ∀ b ∈ arestas_de mem_duas_maos p, b.dest ∈ [0, 1]) ∧
    (∀ p ∈ [0, 1], ∀ q ∈ [0, 1],
      vertice_get_id mem_duas_maos p = vertice_get_id mem_duas_maos q → p = q) ∧
    0 ∈ [0, 1] ∧
    arestas_de mem_duas_maos 0 = [cria_aresta 0 1 5, cria_aresta 0 1 6] ∧
    (arestas_de mem_duas_maos 0)[0]? = some (cria_aresta 0 1 5) ∧
    (cria_aresta 0 1 5).status = .NAO_EXPORTADA ∧
    (∀ b ∈ arestas_de mem_duas_maos (cria_aresta 0 1 5).dest, b.dest ≠ 0) ∧
    vertice_get_id mem_duas_maos 0 = .ok 1 ∧
    vertice_get_id mem_duas_maos (cria_aresta 0 1 5).dest = .ok 2 ∧
    (exportar_grafo_dot (some "g.dot") (some 0) true mem_duas_maos).1
      = .ok [.abre, .aresta 1 2 5, .aresta 1 2 6, .fecha] ∧
    (procurar_adjacente mem_duas_maos (cria_aresta 0 1 5).dest 0 = .ok none ∧
    ∃ file m1, exportar_grafo_dot (some "g.dot") (some 0) true mem_duas_maos = (.ok file, m1) ∧
      (linhas_aresta file).count (1, 2, (cria_aresta 0 1 5).peso)
        = (arestas_de mem_duas_maos 0).countP
            (fun b => decide (b.dest = (cria_aresta 0 1 5).dest ∧
              b.peso = (cria_aresta 0 1 5).peso ∧ b.status = .NAO_EXPORTADA)) ∧
      0 < (linhas_aresta file).count (1, 2, (cria_aresta 0 1 5).peso) ∧
      ((∀ (j : Nat) (b : arestas_t), (arestas_de mem_duas_maos 0)[j]? = some b →
          b.dest = (cria_aresta 0 1 5).dest → b.peso = (cria_aresta 0 1 5).peso →
          b.status = .NAO_EXPORTADA → j = 0) →
        (linhas_aresta file).count (1, 2, (cria_aresta 0 1 5).peso) = 1)) ∧
    (∀ (j : Nat) (b : arestas_t), (arestas_de mem_duas_maos 0)[j]? = some b →
      b.dest = (cria_aresta 0 1 5).dest → b.peso = (cria_aresta 0 1 5).peso →
      b.status = .NAO_EXPORTADA → j = 0) :=
  have hdest : ∀ p ∈ [0, 1], ∀ b ∈ arestas_de mem_duas_maos p, b.dest ∈ [0, 1] := by decide
  have hids : ∀ p ∈ [0, 1], ∀ q ∈ [0, 1],
      vertice_get_id mem_duas_maos p = vertice_get_id mem_duas_maos q → p = q := by
    intro p hp q hq h
    simp only [List.mem_cons, List.mem_singleton, List.not_mem_nil, or_false] at hp hq
    rcases hp with hp | hp <;> rcases hq with hq | hq <;> subst hp <;> subst hq
    · rfl
    · exact absurd (Except.ok.inj h) (by decide)
    · exact absurd (Except.ok.inj h) (by decide)
    · rfl
  have hsem : ∀ b ∈ arestas_de mem_duas_maos (cria_aresta 0 1 5).dest, b.dest ≠ 0 := by decide
  have hunica : ∀ (j : Nat) (b : arestas_t), (arestas_de mem_duas_maos 0)[j]? = some b →
      b.dest = (cria_aresta 0 1 5).dest → b.peso = (cria_aresta 0 1 5).peso →
      b.status = .NAO_EXPORTADA → j = 0 := by
    intro j b hb _ hpeso _
    have hl : arestas_de mem_duas_maos 0 = [cria_aresta 0 1 5, cria_aresta 0 1 6] := rfl
    rw [hl] at hb
    match j, hb with
    | 0, _ => rfl
    | 1, hb =>
      simp only [List.getElem?_cons_succ, List.getElem?_cons_zero, Option.some.injEq] at hb
      rw [← hb] at hpeso
      exact absurd hpeso (by decide)
    | j + 2, hb => simp at hb
  ⟨rfl, by decide, hdest, hids, by decide, rfl, rfl, rfl, hsem, rfl, rfl, rfl,
    exportar_sem_reciproca mem_duas_maos 0 { id := 0, vertices := [0, 1] } "g.dot" 0 0
      (cria_aresta 0 1 5) 1 2 rfl (by decide) hdest hids (by decide) rfl rfl hsem rfl rfl,
    hunica⟩

/-- C8, as stated, fails once the graph has been exported: the first export of
the graph with the single edge 1 -> 2 of weight 5 returns and leaves that edge
marked; vertex 2 still has no edge back and the lookup still finds none, yet
the next export returns without a line for the edge. -/
theorem exportar_sem_reciproca_ja_exportada :
    exportar_grafo_dot (some "g.dot") (some 0) true mem_mao_unica
      = (.ok [.abre, .aresta 1 2 5, .fecha], mem_mao_unica_exportada) ∧
    mem_mao_unica_exportada.grafos[0]? = some { id := 0, vertices := [0, 1] } ∧
    arestas_de mem_mao_unica_exportada 0
      = [{ fonte := 0, dest := 1, peso := 5, status := .EXPORTADA }] ∧
    arestas_de mem_mao_unica_exportada 1 = [] ∧
    procurar_adjacente mem_mao_unica_exportada 1 0 = .ok none ∧
    exportar_grafo_dot (some "g.dot") (some 0) true mem_mao_unica_exportada
      = (.ok [.abre, .fecha], mem_mao_unica_exportada) ∧
    (linhas_aresta [.abre, .fecha]).count (1, 2, 5) = 0 :=
  ⟨rfl, rfl, rfl, rfl, rfl, rfl, rfl⟩

end Grafo
